import Mathlib

/-!
# mysqlfs: a shallow embedding of the translation layer

The development embeds the parts of `query.c` and `mysqlfs.c` that the checked
properties talk about.  The database is an explicit value of type `DB`
(three relations, each a list of rows, plus the AUTO_INCREMENT counter of `tree`);
every SQL statement the C code sends is a pure function on that value.

Conventions of the embedding:

* `long`, `int`, `ssize_t` are `Int`; `size_t`, `off_t` (never negative here) and
  `unsigned long` are `Nat`.  The only sum of two sizes in the arithmetic,
  `offset_first + size`, is below `2^64` for every `size` a buffer can have, and the
  byte counts returned as `int` are below `2^31` for every request the kernel bridge
  issues, so the machine operations are taken without wrap-around.
* a `char` is a `Char`; a C string or a byte buffer is a `List Char`.
* every statement is executed successfully by the server (`mysql_query`,
  `mysql_store_result`, the prepared-statement calls return success); the error
  values that remain are those the C code computes itself.
* the statement text is assumed to fit its `snprintf` buffers.
-/

namespace MysqlFS

/-! ## Constants (`mysqlfs.h`, `errno.h`, `sys/stat.h`) -/

/-- Size of one data block, `DATA_BLOCK_SIZE` of mysqlfs.h. -/
def DATA_BLOCK_SIZE : Nat := 4096

/-- Maximum length of a path, `PATH_MAX` of mysqlfs.h. -/
def PATH_MAX : Nat := 1024

def ENOENT : Int := 2
def EIO : Int := 5
def ENXIO : Int := 6
def EEXIST : Int := 17
def EMFILE : Int := 24
def ENAMETOOLONG : Int := 36
def ENOTEMPTY : Int := 39

def S_IFMT : Nat := 0o170000
def S_IFDIR : Nat := 0o040000
def S_IFREG : Nat := 0o100000
def S_IFLNK : Nat := 0o120000

/-- The macro `S_ISDIR(m)`: `(m & S_IFMT) == S_IFDIR`. -/
def S_ISDIR (mode : Nat) : Bool := (mode &&& S_IFMT) == S_IFDIR

/-- The NUL character, `'\0'`. -/
def NUL : Char := Char.ofNat 0

/-! ## Block arithmetic (`query.h`, `query.c`) -/

/-- The scratch record `struct data_blocks_info` of query.h. -/
structure data_blocks_info where
  seq_first : Nat
  seq_last : Nat
  length_first : Nat
  length_last : Nat
  offset_first : Nat
deriving DecidableEq, Repr

/-- The function `fill_data_blocks_info(info, size, offset)` of query.c. -/
def fill_data_blocks_info (size offset : Nat) : data_blocks_info :=
  let seq_first := offset / DATA_BLOCK_SIZE
  let offset_first := offset % DATA_BLOCK_SIZE
  let nr_following_blocks := (offset_first + size) / DATA_BLOCK_SIZE
  let length_first :=
    if nr_following_blocks > 0 then DATA_BLOCK_SIZE - offset_first else size
  { seq_first := seq_first
    offset_first := offset_first
    length_first := length_first
    seq_last := seq_first + nr_following_blocks
    length_last := (offset_first + size) % DATA_BLOCK_SIZE }

/-! ## The database -/

/-- A row of `tree`: a directory entry.  `parent` is `none` for SQL NULL. -/
structure TreeRow where
  name : List Char
  parent : Option Int
  inode : Int
deriving DecidableEq, Repr

/-- A row of `inodes`, with the columns the statements of query.c name; `inuse` is a
signed integer column. -/
structure InodeRow where
  inode : Int
  mode : Nat
  uid : Nat
  gid : Nat
  atime : Nat
  mtime : Nat
  ctime : Nat
  size : Int
  inuse : Int
  deleted : Int
deriving DecidableEq, Repr

/-- A row of `data_blocks`. -/
structure BlockRow where
  inode : Int
  seq : Nat
  data : List Char
deriving DecidableEq, Repr

/-- The database: the three relations and the AUTO_INCREMENT counter of
`tree.inode` (the value `mysql_insert_id` reports after the next insert). -/
structure DB where
  tree : List TreeRow
  inodes : List InodeRow
  data_blocks : List BlockRow
  auto_inc : Int
deriving DecidableEq, Repr

/-! ## SQL string functions used by the statements -/

/-- SQL `RPAD(data, n, '\0')`: exactly `n` characters, `data` cut or padded with NULs. -/
def sql_rpad (data : List Char) (n : Nat) : List Char :=
  data.take n ++ List.replicate (n - data.length) NUL

/-- SQL `SUBSTRING(data FROM pos)`, positions counted from 1. -/
def sql_substring_from (data : List Char) (pos : Nat) : List Char :=
  data.drop (pos - 1)

/-! ## Data engine (`query.c`) -/

/-- The rows selected by `WHERE inode=%ld AND seq=%lu` in `data_blocks`. -/
def block_rows (db : DB) (inode : Int) (seq : Nat) : List BlockRow :=
  db.data_blocks.filter (fun r => decide (r.inode = inode ∧ r.seq = seq))

/-- The function `query_size_block`: `- ENXIO` when no row is returned, else the
`LENGTH(data)` of the first row. -/
def query_size_block (db : DB) (inode : Int) (seq : Nat) : Int :=
  match block_rows db inode seq with
  | [] => - ENXIO
  | r :: _ => (r.data.length : Int)

/-- The statement `UPDATE data_blocks SET data=f(data) WHERE inode=%ld AND seq=%lu`. -/
def update_block (db : DB) (inode : Int) (seq : Nat)
    (f : List Char → List Char) : DB :=
  { db with data_blocks := db.data_blocks.map (fun r =>
      if r.inode = inode ∧ r.seq = seq then { r with data := f r.data } else r) }

/-- The statement `INSERT INTO data_blocks SET inode=%ld, seq=%lu, data=''`. -/
def insert_empty_block (db : DB) (inode : Int) (seq : Nat) : DB :=
  { db with data_blocks := db.data_blocks ++ [{ inode := inode, seq := seq, data := [] }] }

/-- Maximum of a list of sequence numbers, SQL `MAX`; `none` is NULL. -/
def sql_max : List Nat → Option Nat
  | [] => none
  | x :: xs =>
    match sql_max xs with
    | none => some x
    | some m => some (max x m)

/-- The subquery `SELECT MAX(seq) FROM data_blocks WHERE inode=%ld`. -/
def max_seq (db : DB) (inode : Int) : Option Nat :=
  sql_max ((db.data_blocks.filter (fun r => decide (r.inode = inode))).map (fun r => r.seq))

/-- The scalar subquery of the size refresh in `write_one_block`:
`SELECT seq*4096 + LENGTH(data) FROM data_blocks WHERE inode=%ld AND seq=(SELECT MAX(seq) ...)`. -/
def size_of_blocks (db : DB) (inode : Int) : Option Int :=
  match max_seq db inode with
  | none => none
  | some m =>
    match block_rows db inode m with
    | [] => none
    | r :: _ => some ((r.seq * DATA_BLOCK_SIZE + r.data.length : Nat) : Int)

/-- The statement `UPDATE inodes SET size=(...) WHERE inode=%ld` of `write_one_block`.
The subquery is never NULL where the statement is issued (the written block exists);
a NULL would be stored as 0. -/
def refresh_size (db : DB) (inode : Int) : DB :=
  { db with inodes := db.inodes.map (fun r =>
      if r.inode = inode then { r with size := (size_of_blocks db inode).getD 0 } else r) }

/-- The function `write_one_block(mysql, inode, seq, data, size, offset)`: the value
returned and the database afterwards.  The bound parameter is the first `size`
characters of `data`. -/
def write_one_block (db : DB) (inode : Int) (seq : Nat) (data : List Char)
    (size : Nat) (offset : Nat) : Int × DB :=
  let current_block_size := query_size_block db inode seq
  if size = 0 then (0, db)
  else if offset + size > DATA_BLOCK_SIZE then (- EIO, db)
  else
    let db1 := if current_block_size = - ENXIO then insert_empty_block db inode seq else db
    let current_block_size :=
      if current_block_size = - ENXIO then query_size_block db1 inode seq
      else current_block_size
    let blob := data.take size
    let db2 :=
      if offset = 0 ∧ current_block_size = 0 then
        update_block db1 inode seq (fun _ => blob)
      else if (offset : Int) = current_block_size then
        update_block db1 inode seq (fun d => d ++ blob)
      else
        update_block db1 inode seq (fun d =>
          (if offset > 0 then sql_rpad d offset else []) ++ blob ++
          (if ((offset + size : Nat) : Int) < current_block_size
            then sql_substring_from d (offset + size + 1) else []))
    ((size : Int), refresh_size db2 inode)

/-- The loop over the full-sized intermediate blocks of `query_write`:
`count` iterations starting at `seq`, `ptr` the rest of the caller's buffer,
`ret_size` the running total.  The result is `Sum.inl ret` for the early
`return ret` and `Sum.inr (ptr, ret_size)` when the loop runs to its end. -/
def write_intermediate (inode : Int) :
    Nat → Nat → List Char → Int → DB → (Int ⊕ (List Char × Int)) × DB
  | 0, _, ptr, ret_size, db => (Sum.inr (ptr, ret_size), db)
  | count + 1, seq, ptr, ret_size, db =>
    let r := write_one_block db inode seq ptr DATA_BLOCK_SIZE 0
    if r.1 < 0 then (Sum.inl r.1, r.2)
    else write_intermediate inode count (seq + 1) (ptr.drop DATA_BLOCK_SIZE) (ret_size + r.1) r.2

/-- The function `query_write(mysql, inode, data, size, offset)`. -/
def query_write (db : DB) (inode : Int) (data : List Char) (size : Nat)
    (offset : Nat) : Int × DB :=
  let info := fill_data_blocks_info size offset
  let r := write_one_block db inode info.seq_first data info.length_first info.offset_first
  if r.1 < 0 then r
  else
    let ret_size := r.1
    if info.seq_first = info.seq_last then (ret_size, r.2)
    else
      let ptr := data.drop info.length_first
      match write_intermediate inode (info.seq_last - (info.seq_first + 1))
          (info.seq_first + 1) ptr ret_size r.2 with
      | (Sum.inl ret, db2) => (ret, db2)
      | (Sum.inr (ptr, ret_size), db2) =>
        let r := write_one_block db2 inode info.seq_last ptr info.length_last 0
        if r.1 < 0 then r else (ret_size + r.1, r.2)

/-- The result set of
`SELECT seq, data, LENGTH(data) FROM data_blocks WHERE inode=%ld AND seq>=%lu AND seq<=%lu ORDER BY seq ASC`. -/
def select_blocks (db : DB) (inode : Int) (seq_first seq_last : Nat) : List BlockRow :=
  (db.data_blocks.filter (fun r =>
      decide (r.inode = inode ∧ seq_first ≤ r.seq ∧ r.seq ≤ seq_last))).insertionSort
    (fun a b => a.seq ≤ b.seq)

/-- The buffer `zeroes` of `query_read`: `DATA_BLOCK_SIZE` NUL characters. -/
def zeroes : List Char := List.replicate DATA_BLOCK_SIZE NUL

/-- The `for` loop of `query_read`: `count` iterations are left, `seq` is the loop
variable, `row` the cursor into the result set (the current row is its head) and
`out` the characters copied to `dst` so far.  `goto go_away` ends the loop. -/
def read_loop (info : data_blocks_info) :
    Nat → Nat → List BlockRow → List Char → List Char
  | 0, _, _, out => out
  | count + 1, seq, row, out =>
    let present : Bool :=
      match row with
      | [] => false
      | r :: _ => r.seq == seq
    let data : List Char :=
      match row with
      | [] => zeroes
      | r :: _ => if r.seq == seq then r.data else zeroes
    let row_len : Nat :=
      match row with
      | [] => DATA_BLOCK_SIZE
      | r :: _ => if r.seq == seq then r.data.length else DATA_BLOCK_SIZE
    let next : List BlockRow := if present then row.tail else row
    if seq = info.seq_first then
      if row_len < info.offset_first then out
      else
        let copy_len := min (row_len - info.offset_first) info.length_first
        read_loop info count (seq + 1) next
          (out ++ (data.drop info.offset_first).take copy_len)
    else if seq = info.seq_last then
      let copy_len := min info.length_last row_len
      read_loop info count (seq + 1) next (out ++ data.take copy_len)
    else
      let copy_len := min DATA_BLOCK_SIZE row_len
      read_loop info count (seq + 1) next (out ++ data.take copy_len)

/-- The characters `query_read(mysql, inode, buf, size, offset)` copies to the front
of `buf`, in order. -/
def query_read_bytes (db : DB) (inode : Int) (size : Nat) (offset : Nat) : List Char :=
  let info := fill_data_blocks_info size offset
  read_loop info (info.seq_last + 1 - info.seq_first) info.seq_first
    (select_blocks db inode info.seq_first info.seq_last) []

/-- The function `query_read`: the value returned (`length`, the number of characters
copied) and the caller's buffer afterwards. -/
def query_read (db : DB) (inode : Int) (buf : List Char) (size : Nat)
    (offset : Nat) : Int × List Char :=
  let copied := query_read_bytes db inode size offset
  ((copied.length : Int), copied ++ buf.drop copied.length)

/-- The function `query_truncate(mysql, inode, length)` of query.c; `now` is the value
of `UNIX_TIMESTAMP(NOW())`. -/
def query_truncate (db : DB) (inode : Int) (length : Nat) (now : Nat) : Int × DB :=
  let info := fill_data_blocks_info length 0
  let db1 : DB := { db with data_blocks := db.data_blocks.filter (fun r =>
      !decide (r.inode = inode ∧ r.seq > info.seq_last)) }
  let db2 := update_block db1 inode info.seq_last (fun d => sql_rpad d info.length_last)
  let db3 : DB := { db2 with inodes := db2.inodes.map (fun r =>
      if r.inode = inode then { r with size := (length : Int), mtime := now, ctime := now }
      else r) }
  (0, db3)

/-- The function `query_size`: the `size` column of the inode, `- EIO` unless exactly
one row is returned. -/
def query_size (db : DB) (inode : Int) : Int :=
  match db.inodes.filter (fun r => decide (r.inode = inode)) with
  | [r] => r.size
  | _ => - EIO

/-! ## C library and MySQL client functions used on names

Paths are the strings the kernel bridge hands over; `dirname` and `basename` are the
functions of `libgen.h`, `mysql_real_escape_string` the one of the MySQL C API. -/

/-- The character `/`. -/
def SLASH : Char := Char.ofNat 47

/-- A string without its trailing slashes. -/
def strip_trailing_slashes (p : List Char) : List Char :=
  (p.reverse.dropWhile (fun c => c == SLASH)).reverse

/-- The function `basename` of libgen.h: the last component of the path. -/
def basename (p : List Char) : List Char :=
  if p = [] then ['.']
  else
    let q := strip_trailing_slashes p
    if q = [] then [SLASH]
    else (q.reverse.takeWhile (fun c => c != SLASH)).reverse

/-- The function `dirname` of libgen.h: the path up to its last component, without
trailing slashes; `/` when nothing else is left and `.` when the path has no slash. -/
def dirname (p : List Char) : List Char :=
  if p = [] then ['.']
  else
    let q := strip_trailing_slashes p
    if q = [] then [SLASH]
    else
      let d := q.reverse.dropWhile (fun c => c != SLASH)
      if d = [] then ['.']
      else
        let e := (d.dropWhile (fun c => c == SLASH)).reverse
        if e = [] then [SLASH] else e

/-- What `strrchr(path, '/')` followed by `++name` leaves in `name`: the characters after
the last slash, `none` when the path has no slash. -/
def after_last_slash (path : List Char) : Option (List Char) :=
  if SLASH ∈ path then some (path.reverse.takeWhile (fun c => c != SLASH)).reverse
  else none

/-- The function `mysql_real_escape_string`: a backslash is put in front of backslash,
single quote and double quote; NUL, newline, carriage return and Control-Z become
`\0`, `\n`, `\r`, `\Z`. -/
def mysql_real_escape_string (s : List Char) : List Char :=
  s.flatMap (fun c =>
    if c = Char.ofNat 0 then [Char.ofNat 92, '0']
    else if c = Char.ofNat 10 then [Char.ofNat 92, 'n']
    else if c = Char.ofNat 13 then [Char.ofNat 92, 'r']
    else if c = Char.ofNat 26 then [Char.ofNat 92, 'Z']
    else if c = Char.ofNat 92 ∨ c = Char.ofNat 39 ∨ c = Char.ofNat 34 then [Char.ofNat 92, c]
    else [c])

/-- The tokens `strtok_r(path, "/", &saveptr)` returns one after the other: the maximal
runs of characters other than `/`.  `cur` is the token being read. -/
def strtok_all : List Char → List Char → List (List Char)
  | [], cur => if cur = [] then [] else [cur]
  | c :: cs, cur =>
    if c = SLASH then
      if cur = [] then strtok_all cs [] else cur :: strtok_all cs []
    else strtok_all cs (cur ++ [c])

/-- The components of a path, in order. -/
def path_components (path : List Char) : List (List Char) :=
  strtok_all path []

/-! ## Path resolution (`query.c`) -/

/-- What `query_inode_full` stores through its out-parameters. -/
structure inode_full where
  inode : Int
  name : List Char
  parent : Int
  nlinks : Int
deriving DecidableEq, Repr

deriving instance DecidableEq for Except

/-- The rows of the join `tree AS t0 LEFT JOIN tree AS t1 ON t0.inode = t1.parent ...`
restricted by `t0.parent IS NULL AND t1.name = ... AND ...`: `rows` are the rows
`t(k)` reached so far, one per chain, and each remaining component extends every
chain by the entries of that name whose parent is the chain's last inode. -/
def walk (tree : List TreeRow) : List (List Char) → List TreeRow → List TreeRow
  | [], rows => rows
  | c :: cs, rows =>
    walk tree cs (rows.flatMap (fun r =>
      tree.filter (fun t => decide (t.parent = some r.inode ∧ t.name = c))))

/-- The result rows of the resolver's statement for the given components. -/
def resolve_rows (tree : List TreeRow) (comps : List (List Char)) : List TreeRow :=
  walk tree comps (tree.filter (fun t => decide (t.parent = none)))

/-- The subquery `SELECT COUNT(*) FROM tree WHERE inode = ...`. -/
def count_links (tree : List TreeRow) (inode : Int) : Int :=
  ((tree.filter (fun t => decide (t.inode = inode))).length : Int)

/-- The function `query_inode_full(mysql, path, name, name_len, inode, parent, nlinks)`:
`-ENAMETOOLONG` when a component is longer than 255, `-ENOENT` unless exactly one
row is returned; a NULL parent is reported as -1. -/
def query_inode_full (db : DB) (path : List Char) : Except Int inode_full :=
  if (path_components path).any (fun c => decide (c.length > 255)) then
    Except.error (-ENAMETOOLONG)
  else
    match resolve_rows db.tree (path_components path) with
    | [row] =>
      Except.ok { inode := row.inode, name := row.name, parent := row.parent.getD (-1),
                  nlinks := count_links db.tree row.inode }
    | _ => Except.error (-ENOENT)

/-- The function `query_inode(mysql, path)`. -/
def query_inode (db : DB) (path : List Char) : Int :=
  if path.length > PATH_MAX then -ENAMETOOLONG
  else
    match query_inode_full db path with
    | Except.error ret => ret
    | Except.ok r => r.inode

/-- The fields of `struct stat` that `query_getattr` fills. -/
structure stat where
  st_ino : Int
  st_mode : Nat
  st_uid : Nat
  st_gid : Nat
  st_ctime : Nat
  st_atime : Nat
  st_mtime : Nat
  st_size : Int
  st_nlink : Int
deriving DecidableEq, Repr

/-- The function `query_getattr(mysql, path, stbuf)`: the error returned, or the
content of `stbuf` on success (`stbuf` is written only then). -/
def query_getattr (db : DB) (path : List Char) : Except Int stat :=
  match query_inode_full db path with
  | Except.error ret => Except.error ret
  | Except.ok r =>
    match db.inodes.filter (fun row => decide (row.inode = r.inode)) with
    | [row] =>
      Except.ok { st_ino := r.inode, st_mode := row.mode, st_uid := row.uid,
                  st_gid := row.gid, st_ctime := row.ctime, st_atime := row.atime,
                  st_mtime := row.mtime, st_size := row.size, st_nlink := r.nlinks }
    | _ => Except.error (-ENOENT)

/-! ## Directory entries and inode life cycle (`query.c`) -/

/-- The function `query_mkdirentry(mysql, inode, name, parent)`:
`INSERT INTO tree (name, parent, inode) VALUES ('%s', %ld, %ld)`.  The name is escaped
for the statement and read back by the server as it was passed.  An explicit value
above the AUTO_INCREMENT counter moves the counter past it. -/
def query_mkdirentry (db : DB) (inode : Int) (name : List Char) (parent : Int) : Int × DB :=
  (0, { db with
    tree := db.tree ++ [{ name := name, parent := some parent, inode := inode }],
    auto_inc := max db.auto_inc (inode + 1) })

/-- The function `query_rmdirentry(mysql, name, inode, parent)` of query.c:
`-ENOTEMPTY` when `select inode from tree where parent = %ld` (with `inode`) returns a
row, else `DELETE FROM tree WHERE name='%s' AND parent=%ld`. -/
def query_rmdirentry (db : DB) (name : List Char) (inode : Int) (parent : Int) : Int × DB :=
  if db.tree.filter (fun t => decide (t.parent = some inode)) ≠ [] then (-ENOTEMPTY, db)
  else
    (0, { db with tree := db.tree.filter (fun t =>
      !decide (t.name = name ∧ t.parent = some parent)) })

/-- The function `query_mknod(mysql, path, mode, rdev, parent, alloc_data)`; `uid` and
`gid` are those of `fuse_get_context()`, `now` is `UNIX_TIMESTAMP(NOW())`.  The new
`tree` row takes its inode from the AUTO_INCREMENT counter, which `mysql_insert_id`
reports; `size`, `inuse` and `deleted` of the new inode row take their default 0. -/
def query_mknod (db : DB) (path : List Char) (mode : Nat) (parent : Int)
    (uid gid now : Nat) : Int × DB :=
  let insert (name : List Char) (par : Option Int) : Int × DB :=
    let new_inode_number := db.auto_inc
    let tree_row : TreeRow := { name := name, parent := par, inode := new_inode_number }
    let inode_row : InodeRow :=
      { inode := new_inode_number, mode := mode, uid := uid, gid := gid, atime := now,
        mtime := now, ctime := now, size := 0, inuse := 0, deleted := 0 }
    (new_inode_number,
      { tree := db.tree ++ [tree_row], inodes := db.inodes ++ [inode_row],
        data_blocks := db.data_blocks, auto_inc := db.auto_inc + 1 })
  if path = [SLASH] then insert [SLASH] none
  else
    match after_last_slash path with
    | none => (-ENOENT, db)
    | some name =>
      if name = [] then (-ENOENT, db)
      else if name.length > 255 then (-ENAMETOOLONG, db)
      else insert name (some parent)

/-- The function `query_mkdir(mysql, path, mode, parent)`. -/
def query_mkdir (db : DB) (path : List Char) (mode : Nat) (parent : Int)
    (uid gid now : Nat) : Int × DB :=
  query_mknod db path (S_IFDIR ||| mode) parent uid gid now

/-- The function `query_inuse_inc(mysql, inode, increment)`:
`UPDATE inodes SET inuse = inuse + %d WHERE inode=%lu`. -/
def query_inuse_inc (db : DB) (inode : Int) (increment : Int) : Int × DB :=
  (0, { db with inodes := db.inodes.map (fun r =>
    if r.inode = inode then { r with inuse := r.inuse + increment } else r) })

/-- The function `query_purge_deleted(mysql, inode)`:
`DELETE FROM inodes WHERE inode=%ld AND inuse=0 AND deleted=1`. -/
def query_purge_deleted (db : DB) (inode : Int) : Int × DB :=
  (0, { db with inodes := db.inodes.filter (fun r =>
    !decide (r.inode = inode ∧ r.inuse = 0 ∧ r.deleted = 1)) })

/-- The function `query_set_deleted(mysql, inode)`:
`UPDATE inodes LEFT JOIN tree ON inodes.inode = tree.inode SET inodes.deleted=1
WHERE inodes.inode = %ld AND tree.name IS NULL`: the flag is set when no `tree` row
carries the inode. -/
def query_set_deleted (db : DB) (inode : Int) : Int × DB :=
  (0, { db with inodes := db.inodes.map (fun r =>
    if r.inode = inode ∧ db.tree.filter (fun t => decide (t.inode = r.inode)) = []
    then { r with deleted := 1 } else r) })

/-- The function `query_rename(mysql, from, to)`.  `to_st` is the local `struct stat`
before `query_getattr` is called on it (it is not initialised by the C code). -/
def query_rename (db : DB) (from_ to_ : List Char) (to_st : stat) : Int × DB :=
  let got := query_getattr db to_
  let to_st : stat :=
    match got with
    | Except.ok st => st
    | Except.error ret => if ret = -ENOENT then { to_st with st_ino := 0 } else to_st
  if got ≠ Except.error (-ENOENT) ∧ S_ISDIR to_st.st_mode then (-EEXIST, db)
  else
    let inode := query_inode db from_
    let parent_from := query_inode db (dirname from_)
    let old_name := basename from_
    let parent_to := query_inode db (dirname to_)
    let new_name := basename to_
    let db1 : DB := { db with tree := db.tree.map (fun t =>
      if t.inode = inode ∧ t.name = old_name ∧ t.parent = some parent_from
      then { t with name := new_name, parent := some parent_to } else t) }
    if to_st.st_ino ≠ 0 then
      (0, { db1 with tree := db1.tree.filter (fun t =>
        !decide (t.inode = to_st.st_ino ∧ t.name = new_name ∧ t.parent = some parent_to)) })
    else (0, db1)

/-! ## The operation table (`mysqlfs.c`)

Each entry obtains a session with `pool_get` first; the definitions below describe the
entry when a session is available (otherwise the entry returns `-EMFILE` and the
database is not touched). -/

/-- The copy of `path` in `dir_path` after `dirname(dir_path)`, whose result the caller
drops: `dirname` cuts the buffer in place when the path has a slash and leaves it as it
is when it has none. -/
def dirname_in_place (path : List Char) : List Char :=
  if SLASH ∈ path then dirname path else path

/-- The entry `mysqlfs_mknod(path, mode, rdev)`. -/
def mysqlfs_mknod (db : DB) (path : List Char) (mode : Nat) (uid gid now : Nat) : Int × DB :=
  if ¬ (path.length < PATH_MAX) then (-ENAMETOOLONG, db)
  else
    let dir_path := dirname_in_place path
    let parent_inode := query_inode db dir_path
    if parent_inode < 0 then (-ENOENT, db)
    else
      let r := query_mknod db path mode parent_inode uid gid now
      if r.1 < 0 then r else (0, r.2)

/-- The entry `mysqlfs_mkdir(path, mode)`. -/
def mysqlfs_mkdir (db : DB) (path : List Char) (mode : Nat) (uid gid now : Nat) : Int × DB :=
  if ¬ (path.length < PATH_MAX) then (-ENAMETOOLONG, db)
  else
    let dir_path := dirname_in_place path
    let inode := query_inode db dir_path
    if inode < 0 then (-ENOENT, db)
    else
      let r := query_mkdir db path mode inode uid gid now
      if r.1 < 0 then r else (0, r.2)

/-- The entry `mysqlfs_unlink(path)` (also `rmdir`).  The call site passes
`(name, parent)` to `query_rmdirentry` as query.h declares it; the definition in
query.c takes `(name, inode, parent)` and is given the inode found by the resolver. -/
def mysqlfs_unlink (db : DB) (path : List Char) : Int × DB :=
  match query_inode_full db path with
  | Except.error ret => (ret, db)
  | Except.ok r =>
    let r1 := query_rmdirentry db r.name r.inode r.parent
    if r1.1 < 0 then r1
    else if r.nlinks > 1 then (0, r1.2)
    else
      let r2 := query_set_deleted r1.2 r.inode
      let r3 := query_purge_deleted r2.2 r.inode
      (0, r3.2)

/-- The entry `mysqlfs_open(path, fi)`: the value returned, the file handle stored in
`fi->fh` (when one is stored) and the database afterwards. -/
def mysqlfs_open (db : DB) (path : List Char) : Int × Option Int × DB :=
  let inode := query_inode db path
  if inode < 0 then (-ENOENT, none, db)
  else
    let r := query_inuse_inc db inode 1
    (0, some inode, r.2)

/-- The entry `mysqlfs_write(path, buf, size, offset, fi)`, `fh` being `fi->fh`. -/
def mysqlfs_write (db : DB) (fh : Int) (buf : List Char) (size offset : Nat) : Int × DB :=
  query_write db fh buf size offset

/-- The entry `mysqlfs_read(path, buf, size, offset, fi)`, `fh` being `fi->fh`. -/
def mysqlfs_read (db : DB) (fh : Int) (buf : List Char) (size offset : Nat) :
    Int × List Char :=
  query_read db fh buf size offset

/-- The entry `mysqlfs_release(path, fi)`, `fh` being `fi->fh`. -/
def mysqlfs_release (db : DB) (fh : Int) : Int × DB :=
  let r := query_inuse_inc db fh (-1)
  let r2 := query_purge_deleted r.2 fh
  (0, r2.2)

/-- The entry `mysqlfs_link(from, to)`.  The base name of `to` is escaped here and
once more inside `query_mkdirentry`, so the name stored is the escaped one. -/
def mysqlfs_link (db : DB) (from_ to_ : List Char) : Int × DB :=
  let inode := query_inode db from_
  if inode < 0 then (inode, db)
  else
    let new_parent := query_inode db (dirname to_)
    if new_parent < 0 then (new_parent, db)
    else
      let esc_name := mysql_real_escape_string (basename to_)
      query_mkdirentry db inode esc_name new_parent

/-- The entry `mysqlfs_rename(from, to)`: `mysqlfs_unlink(to)`, whose result is
dropped, then `query_rename`. -/
def mysqlfs_rename (db : DB) (from_ to_ : List Char) (to_st : stat) : Int × DB :=
  let r := mysqlfs_unlink db to_
  query_rename r.2 from_ to_ to_st

/-! ## Predicates used to state the properties -/

/-- The primary key `(inode, seq)` of `data_blocks`: no two rows share both. -/
def PrimaryKey (db : DB) : Prop :=
  (db.data_blocks.map (fun r => (r.inode, r.seq))).Nodup

instance (db : DB) : Decidable (PrimaryKey db) := by
  unfold PrimaryKey; infer_instance

/-- The data of the block `(inode, seq)`: what `SELECT data ... WHERE inode=%ld AND seq=%lu`
returns first, `none` when the block is not stored. -/
def block_at (db : DB) (inode : Int) (seq : Nat) : Option (List Char) :=
  (block_rows db inode seq).head?.map (fun r => r.data)

/-- The size invariant: every inode row whose inode has at least one data block
carries `size = max_seq * 4096 + length(data at max_seq)`. -/
def SizeInv (db : DB) : Prop :=
  ∀ r ∈ db.inodes, max_seq db r.inode ≠ none → size_of_blocks db r.inode = some r.size

/-- The `inodes` relation of `db'` is that of `db` with the size of `inode` refreshed
from the blocks of `db'`. -/
def Refreshed (db db' : DB) (inode : Int) : Prop :=
  db'.inodes = db.inodes.map (fun r =>
    if r.inode = inode then { r with size := (size_of_blocks db' inode).getD 0 } else r)

/-- One splice of `blob` into a block at in-block position `off`: `old` cut to `off`
characters (or padded with NULs up to `off`), then `blob`, then what `old` holds from
position `off + length blob` on. -/
def block_splice (old : List Char) (off : Nat) (blob : List Char) : List Char :=
  sql_rpad old off ++ blob ++ old.drop (off + blob.length)

/-- In-block offset at which `query_write` writes block `s`: `offset_first` in the
first block, 0 in every other. -/
def write_off (info : data_blocks_info) (s : Nat) : Nat :=
  if s = info.seq_first then info.offset_first else 0

/-- The part of the caller's buffer that `query_write` passes to `write_one_block`
for block `s`: `length_first` characters for the first block, then full blocks, then
`length_last` characters for the last block. -/
def write_piece (info : data_blocks_info) (data : List Char) (s : Nat) : List Char :=
  if s = info.seq_first then data.take info.length_first
  else (data.drop (info.length_first + (s - info.seq_first - 1) * DATA_BLOCK_SIZE)).take
    (if s < info.seq_last then DATA_BLOCK_SIZE else info.length_last)

/-- What a read needs from the blocks a write has just stored. -/
def ReadsBack (db : DB) (i : Int) (info : data_blocks_info) (data : List Char) : Prop :=
  ∀ s, info.seq_first ≤ s → s ≤ info.seq_last → write_piece info data s ≠ [] →
    ∃ b, block_at db i s = some b ∧
      (b.drop (write_off info s)).take (write_piece info data s).length =
        write_piece info data s ∧
      write_off info s ≤ b.length

/-- A freshly created regular file: the root directory, the entry `/a` with inode 2,
its inode row, and no data block. -/
def db_fresh : DB :=
  { tree := [{ name := ['/'], parent := none, inode := 1 },
             { name := ['a'], parent := some 1, inode := 2 }]
    inodes := [{ inode := 1, mode := 0o040755, uid := 0, gid := 0, atime := 0, mtime := 0,
                 ctime := 0, size := 0, inuse := 0, deleted := 0 },
               { inode := 2, mode := 0o100644, uid := 0, gid := 0, atime := 0, mtime := 0,
                 ctime := 0, size := 0, inuse := 0, deleted := 0 }]
    data_blocks := []
    auto_inc := 3 }

instance (db : DB) : Decidable (SizeInv db) := by
  unfold SizeInv; infer_instance

/-- The file of `db_fresh` after `write("/a", "a", 1, 0)`: one block, size 1. -/
def db_a : DB := (query_write db_fresh 2 ['a'] 1 0).2

/-- The rows of `inodes` with the given inode id. -/
def inode_rows (db : DB) (inode : Int) : List InodeRow :=
  db.inodes.filter (fun r => decide (r.inode = inode))

/-- The database after `n` calls of `mysqlfs_release` on the handle `fh`. -/
def release_times (fh : Int) : Nat → DB → DB
  | 0, db => db
  | n + 1, db => release_times fh n (mysqlfs_release db fh).2

/-- The file system of `db_fresh` with an empty directory `/d` (inode 3) added. -/
def db_dir : DB :=
  { tree := [{ name := ['/'], parent := none, inode := 1 },
             { name := ['a'], parent := some 1, inode := 2 },
             { name := ['d'], parent := some 1, inode := 3 }]
    inodes := [{ inode := 1, mode := 0o040755, uid := 0, gid := 0, atime := 0, mtime := 0,
                 ctime := 0, size := 0, inuse := 0, deleted := 0 },
               { inode := 2, mode := 0o100644, uid := 0, gid := 0, atime := 0, mtime := 0,
                 ctime := 0, size := 0, inuse := 0, deleted := 0 },
               { inode := 3, mode := 0o040755, uid := 0, gid := 0, atime := 0, mtime := 0,
                 ctime := 0, size := 0, inuse := 0, deleted := 0 }]
    data_blocks := []
    auto_inc := 4 }

/-- A value for the uninitialised `struct stat` of `query_rename`. -/
def stat_zero : stat :=
  { st_ino := 0, st_mode := 0, st_uid := 0, st_gid := 0, st_ctime := 0, st_atime := 0,
    st_mtime := 0, st_size := 0, st_nlink := 0 }

/-- The file system of `db_fresh` after `open("/a")`: inode 2 has `inuse = 1`. -/
def db_open : DB := (mysqlfs_open db_fresh "/a".toList).2.2

/-- The file system `pool_check_mysql_setup` creates on an empty database: the root
directory alone. -/
def db_root : DB :=
  (query_mkdir { tree := [], inodes := [], data_blocks := [], auto_inc := 1 }
    "/".toList 0o755 0 0 0 0).2

/-- The file system after `mkdir("/d")` and `mknod("/d/f", 0100644)` on `db_root`. -/
def db_df : DB :=
  (mysqlfs_mknod (mysqlfs_mkdir db_root "/d".toList 0o755 0 0 0).2 "/d/f".toList
    0o100644 0 0 0).2

/-- A file system in which inode 2 has the two names `/a` and `/z`. -/
def db_two : DB :=
  { tree := [{ name := ['/'], parent := none, inode := 1 },
             { name := ['a'], parent := some 1, inode := 2 },
             { name := ['z'], parent := some 1, inode := 2 }]
    inodes := db_fresh.inodes
    data_blocks := []
    auto_inc := 3 }

/-! ## The remaining entries of the operation table (`query.c`, `mysqlfs.c`) -/

/-- The function `query_chmod(mysql, inode, mode)`:
`UPDATE inodes SET ctime=UNIX_TIMESTAMP(NOW()), mode=%d WHERE inode=%ld`. -/
def query_chmod (db : DB) (inode : Int) (mode now : Nat) : Int × DB :=
  (0, { db with inodes := db.inodes.map (fun r =>
    if r.inode = inode then { r with ctime := now, mode := mode } else r) })

/-- The value `(uid_t)-1` (and `(gid_t)-1`), "no change" for `chown`. -/
def ID_UNCHANGED : Nat := 4294967295

/-- The function `query_chown(mysql, inode, uid, gid)`.  The statement text is
`UPDATE inodes SET ctime=UNIX_TIMESTAMP(NOW()),` followed by `uid=%d` and `gid=%d` for the
ids that are not `(uid_t)-1` and by `WHERE inode=%ld`; with both ids left out the text
`... SET ctime=...,WHERE inode=...` is not a statement, `mysql_query` fails and the
function returns `- EIO`. -/
def query_chown (db : DB) (inode : Int) (uid gid now : Nat) : Int × DB :=
  if uid = ID_UNCHANGED ∧ gid = ID_UNCHANGED then (- EIO, db)
  else
    (0, { db with inodes := db.inodes.map (fun r =>
      if r.inode = inode then
        { r with ctime := now,
                 uid := if uid ≠ ID_UNCHANGED then uid else r.uid,
                 gid := if gid ≠ ID_UNCHANGED then gid else r.gid }
      else r) })

/-- The function `query_utime(mysql, inode, tv)`:
`UPDATE inodes SET atime=%ld, mtime=%ld WHERE inode=%lu` with `tv[0].tv_sec` and
`tv[1].tv_sec`. -/
def query_utime (db : DB) (inode : Int) (tv0_sec tv1_sec : Nat) : Int × DB :=
  (0, { db with inodes := db.inodes.map (fun r =>
    if r.inode = inode then { r with atime := tv0_sec, mtime := tv1_sec } else r) })

/-- One call of the `filler` callback of `readdir`: the name and, when a `struct stat` is
passed, its `st_ino` and `st_mode`. -/
structure dir_entry where
  name : List Char
  st : Option (Int × Nat)
deriving DecidableEq, Repr

/-- The function `query_readdir(mysql, inode, buf, filler)`: one `filler` call per row of
`SELECT tree.name, tree.inode, inodes.mode FROM tree inner join inodes on
tree.inode = inodes.inode WHERE tree.parent = '%ld'`, with `basename(row[0])`. -/
def query_readdir (db : DB) (inode : Int) : Int × List dir_entry :=
  (0, (db.tree.filter (fun t => decide (t.parent = some inode))).flatMap (fun t =>
    (db.inodes.filter (fun i => decide (i.inode = t.inode))).map (fun i =>
      ({ name := basename t.name, st := some (t.inode, i.mode) } : dir_entry))))

/-- The entry `mysqlfs_getattr(path, stbuf)`: the value returned and `stbuf` afterwards
(it is zeroed first and written by `query_getattr` on success only). -/
def mysqlfs_getattr (db : DB) (path : List Char) : Int × stat :=
  match query_getattr db path with
  | Except.error ret => (ret, stat_zero)
  | Except.ok st =>
    let inode := query_inode db path
    if inode < 0 then (inode, st)
    else (0, { st with st_size := query_size db inode })

/-- The entry `mysqlfs_readdir(path, buf, filler, offset, fi)`: the value returned and the
`filler` calls made.  The value of `query_readdir` is stored in `ret` and not looked at. -/
def mysqlfs_readdir (db : DB) (path : List Char) : Int × List dir_entry :=
  let inode := query_inode db path
  if inode < 0 then (inode, [])
  else
    let r := query_readdir db inode
    (0, [{ name := ['.'], st := none }, { name := ['.', '.'], st := none }] ++ r.2)

/-- The entry `mysqlfs_chmod(path, mode)`. -/
def mysqlfs_chmod (db : DB) (path : List Char) (mode now : Nat) : Int × DB :=
  let inode := query_inode db path
  if inode < 0 then (inode, db)
  else
    let r := query_chmod db inode mode now
    if r.1 ≠ 0 then (- EIO, r.2) else (r.1, r.2)

/-- The entry `mysqlfs_chown(path, uid, gid)`. -/
def mysqlfs_chown (db : DB) (path : List Char) (uid gid now : Nat) : Int × DB :=
  let inode := query_inode db path
  if inode < 0 then (inode, db)
  else
    let r := query_chown db inode uid gid now
    if r.1 ≠ 0 then (- EIO, r.2) else (r.1, r.2)

/-- The entry `mysqlfs_truncate(path, length)`.  The call site passes the pointer `path`
as query.h declares `query_truncate`; the definition in query.c takes `long inode` in
that position, and `path_value` is the number it receives there. -/
def mysqlfs_truncate (db : DB) (path_value : Int) (length now : Nat) : Int × DB :=
  let r := query_truncate db path_value length now
  if r.1 < 0 then (- EIO, r.2) else (0, r.2)

/-- The entry `mysqlfs_utime(path, time)`.  The `struct utimbuf *time` is passed where
`query_utime` takes `const struct timespec tv[2]`: `tv[0].tv_sec` is `time->actime` and
`tv[1].tv_sec` is the word `past_end` that follows the `utimbuf` in memory. -/
def mysqlfs_utime (db : DB) (path : List Char) (actime past_end : Nat) : Int × DB :=
  let inode := query_inode db path
  if inode < 0 then (inode, db)
  else
    let r := query_utime db inode actime past_end
    if r.1 < 0 then (- EIO, r.2) else (0, r.2)

/-- The entry `mysqlfs_symlink(from, to)`: `mysqlfs_mknod(to, S_IFLNK | 0755, 0)`, then
`query_write` of the `strlen(from)` characters of `from` at offset 0 of
`query_inode(to)`. -/
def mysqlfs_symlink (db : DB) (from_ to_ : List Char) (uid gid now : Nat) : Int × DB :=
  let r := mysqlfs_mknod db to_ (S_IFLNK ||| 0o755) uid gid now
  if r.1 < 0 then r
  else
    let inode := query_inode r.2 to_
    if inode < 0 then (-ENOENT, r.2)
    else
      let w := query_write r.2 inode from_ from_.length 0
      (if w.1 > 0 then 0 else w.1, w.2)

/-- The entry `mysqlfs_readlink(path, buf, size)`: the value returned and `buf`
afterwards; `memset(buf, 0, size)` precedes the read. -/
def mysqlfs_readlink (db : DB) (path : List Char) (buf : List Char) (size : Nat) :
    Int × List Char :=
  let inode := query_inode db path
  if inode < 0 then (-ENOENT, buf)
  else
    let r := query_read db inode (List.replicate size NUL ++ buf.drop size) size 0
    (if r.1 > 0 then 0 else r.1, r.2)

/-! ## Consistency pass and start-up (`query.c`, `pool.c`) -/

/-- The aggregate `sum(OCTET_LENGTH(data))` over the rows of one inode. -/
def sum_octet_length (blocks : List BlockRow) (inode : Int) : Nat :=
  ((blocks.filter (fun b => decide (b.inode = inode))).map (fun b => b.data.length)).sum

/-- The result set of `select inode, sum(OCTET_LENGTH(data)) as size from data_blocks
group by inode`: one row per inode that has blocks. -/
def fsck_sizes (blocks : List BlockRow) : List (Int × Nat) :=
  ((blocks.map (fun b => b.inode)).dedup).map (fun i => (i, sum_octet_length blocks i))

/-- The statement `update inodes set size=%ld where inode=%ld` of stage 5 of
`query_fsck`. -/
def fsck_set_size (inodes : List InodeRow) (g : Int × Nat) : List InodeRow :=
  inodes.map (fun r => if r.inode = g.1 then { r with size := (g.2 : Int) } else r)

/-- The function `query_fsck(mysql)`: stage 1 deletes the inodes with `deleted = 1`,
stage 2 the `tree` rows whose inode is not in `inodes`, stage 3 sets `inuse = 0`, stage 4
deletes the `data_blocks` rows whose inode is not in `inodes`, stage 5 runs one
`update inodes set size=...` per row of the grouped sum. -/
def query_fsck (db : DB) : Int × DB :=
  let inodes1 : List InodeRow := db.inodes.filter (fun r => !decide (r.deleted = 1))
  let tree2 : List TreeRow :=
    db.tree.filter (fun t => decide (t.inode ∈ inodes1.map (fun r => r.inode)))
  let inodes3 : List InodeRow := inodes1.map (fun r => { r with inuse := 0 })
  let blocks4 : List BlockRow := db.data_blocks.filter (fun b =>
    decide (b.inode ∈ inodes3.map (fun r => r.inode)))
  let inodes5 : List InodeRow := (fsck_sizes blocks4).foldl fsck_set_size inodes3
  (0, { tree := tree2, inodes := inodes5, data_blocks := blocks4, auto_inc := db.auto_inc })

/-- The function `pool_check_mysql_setup(mysql)` of pool.c.  `version_ok` tells whether
`mysql_get_server_version` reports at least `MYSQL_MIN_VERSION`, `fsck` is `opt->fsck`;
the value returned is that of `query_mkdir` (the new inode) when the root is created and
no consistency pass follows. -/
def pool_check_mysql_setup (db : DB) (version_ok : Bool) (fsck : Nat) (uid gid now : Nat) :
    Int × DB :=
  if !version_ok then (-ENOENT, db)
  else
    let ret : Int :=
      match query_inode_full db [SLASH] with
      | Except.error e => e
      | Except.ok _ => 0
    let r : Int × DB :=
      if ret = -ENOENT then query_mkdir db [SLASH] 0o755 0 uid gid now else (ret, db)
    if r.1 < 0 then r
    else if fsck = 1 then query_fsck r.2
    else r

/-! ## The operation table as a transition system -/

/-- A call of one entry of `mysqlfs_oper` with its arguments (and the values the entry
takes from its environment: the caller's ids, the clock, the file handle). -/
inductive Op where
  | getattr (path : List Char)
  | readdir (path : List Char)
  | mknod (path : List Char) (mode uid gid now : Nat)
  | mkdir (path : List Char) (mode uid gid now : Nat)
  | unlink (path : List Char)
  | chmod (path : List Char) (mode now : Nat)
  | chown (path : List Char) (uid gid now : Nat)
  | truncate (path_value : Int) (length now : Nat)
  | utime (path : List Char) (actime past_end : Nat)
  | open_ (path : List Char)
  | read (fh : Int) (buf : List Char) (size offset : Nat)
  | write (fh : Int) (buf : List Char) (size offset : Nat)
  | release (fh : Int)
  | link (from_ to_ : List Char)
  | symlink (from_ to_ : List Char) (uid gid now : Nat)
  | readlink (path : List Char) (buf : List Char) (size : Nat)
  | rename (from_ to_ : List Char) (to_st : stat)

/-- The value an entry returns and the database it leaves. -/
def dispatch (db : DB) : Op → Int × DB
  | Op.getattr path => ((mysqlfs_getattr db path).1, db)
  | Op.readdir path => ((mysqlfs_readdir db path).1, db)
  | Op.mknod path mode uid gid now => mysqlfs_mknod db path mode uid gid now
  | Op.mkdir path mode uid gid now => mysqlfs_mkdir db path mode uid gid now
  | Op.unlink path => mysqlfs_unlink db path
  | Op.chmod path mode now => mysqlfs_chmod db path mode now
  | Op.chown path uid gid now => mysqlfs_chown db path uid gid now
  | Op.truncate path_value length now => mysqlfs_truncate db path_value length now
  | Op.utime path actime past_end => mysqlfs_utime db path actime past_end
  | Op.open_ path => ((mysqlfs_open db path).1, (mysqlfs_open db path).2.2)
  | Op.read fh buf size offset => ((mysqlfs_read db fh buf size offset).1, db)
  | Op.write fh buf size offset => mysqlfs_write db fh buf size offset
  | Op.release fh => mysqlfs_release db fh
  | Op.link from_ to_ => mysqlfs_link db from_ to_
  | Op.symlink from_ to_ uid gid now => mysqlfs_symlink db from_ to_ uid gid now
  | Op.readlink path buf size => ((mysqlfs_readlink db path buf size).1, db)
  | Op.rename from_ to_ to_st => mysqlfs_rename db from_ to_ to_st

/-- The database after a sequence of calls, in order. -/
def run (db : DB) (ops : List Op) : DB :=
  ops.foldl (fun d op => (dispatch d op).2) db

/-! ## Invariants of the data model -/

/-- Invariant 2 of the data model: the inode of every `data_blocks` row is the id of an
`inodes` row. -/
def BlockRefInt (db : DB) : Prop :=
  ∀ b ∈ db.data_blocks, ∃ i ∈ db.inodes, i.inode = b.inode

instance (db : DB) : Decidable (BlockRefInt db) := by
  unfold BlockRefInt; infer_instance

/-- The inode whose `inodes` rows `mysqlfs_unlink(path)` purges, `none` when it purges
nothing: the path resolves to an inode that no entry has as parent (`query_rmdirentry`
succeeds), its link count is not above 1, and every `inodes` row of it (there is one) has
`inuse = 0` and `deleted = 1`, the flag being there already or set by `query_set_deleted`
because every entry of the inode has the name and parent that the `DELETE` removes. -/
def unlink_purges (db : DB) (path : List Char) : Option Int :=
  match query_inode_full db path with
  | Except.error _ => none
  | Except.ok r =>
    if db.tree.filter (fun t => decide (t.parent = some r.inode)) = [] ∧ ¬ r.nlinks > 1 ∧
        (∃ row ∈ db.inodes, row.inode = r.inode) ∧
        (∀ row ∈ db.inodes, row.inode = r.inode → row.inuse = 0 ∧
          (row.deleted = 1 ∨
            ∀ t ∈ db.tree, t.inode = r.inode → t.name = r.name ∧ t.parent = some r.parent))
    then some r.inode else none

/-- The inode whose `inodes` rows `mysqlfs_release` purges, `none` when it purges nothing:
every row of the handle (there is one) has `inuse = 0` after the decrement and
`deleted = 1`. -/
def release_purges (db : DB) (fh : Int) : Option Int :=
  if (∃ row ∈ db.inodes, row.inode = fh) ∧
      (∀ row ∈ db.inodes, row.inode = fh → row.inuse + (-1) = 0 ∧ row.deleted = 1)
  then some fh else none

/-- The inode a call leaves without any `inodes` row: that of `mysqlfs_unlink`, of the
`mysqlfs_unlink(to)` at the start of `mysqlfs_rename`, or of `mysqlfs_release`. -/
def purged_inode (db : DB) : Op → Option Int
  | Op.unlink path => unlink_purges db path
  | Op.rename _ to_ _ => unlink_purges db to_
  | Op.release fh => release_purges db fh
  | _ => none

/-- The inode a `write` stores blocks under: its handle, when there is a byte to write. -/
def written_inode : Op → Option Int
  | Op.write fh _ size _ => if size = 0 then none else some fh
  | _ => none

/-- The call purges no inode that has blocks, and a `write` of at least one byte goes to
the id of an `inodes` row. -/
def purge_safe (db : DB) (op : Op) : Prop :=
  (∀ b ∈ db.data_blocks, purged_inode db op ≠ some b.inode) ∧
  (written_inode op = none ∨ ∃ r ∈ db.inodes, written_inode op = some r.inode)

instance (db : DB) (op : Op) : Decidable (purge_safe db op) := by
  unfold purge_safe; infer_instance

/-- The rows of `tree` with `parent IS NULL`. -/
def root_rows (db : DB) : List TreeRow :=
  db.tree.filter (fun t => decide (t.parent = none))

/-- The call asks to create the path `/` (`mknod`, `mkdir` or the link of `symlink`). -/
def creates_root : Op → Prop
  | Op.mknod path _ _ _ _ => path = [SLASH]
  | Op.mkdir path _ _ _ _ => path = [SLASH]
  | Op.symlink _ to_ _ _ _ => to_ = [SLASH]
  | _ => False

/-- Invariant 5 of the testable properties: `inuse ≥ 0` in every row of `inodes`. -/
def InuseNonneg (db : DB) : Prop :=
  ∀ r ∈ db.inodes, 0 ≤ r.inuse

instance (db : DB) : Decidable (InuseNonneg db) := by
  unfold InuseNonneg; infer_instance

/-- The file of `db_fresh` after `write("/a", "X", 1, 4096)`: the single block 1, size
4097. -/
def db_sparse : DB := (query_write db_fresh 2 ['X'] 1 4096).2

/-! ## The connection pool (`pool.c`) and the sessions an entry holds

A connection is a handle (a number); `none` is the NULL pointer. -/

/-- The state of the pool: the LIFO of idle connections `lifo_pool` (top first, its
length is `lifo_pool_cnt`), `opt->max_idling_conns`, the handle the next opened connection
gets, and the connections opened and not closed. -/
structure Pool where
  lifo_pool : List (Option Nat)
  max_idling_conns : Nat
  next_conn : Nat
  live : List Nat
deriving DecidableEq, Repr

/-- The function `pool_open_mysql_connection()`; `connect_ok` tells whether `mysql_init`
and `mysql_real_connect` succeed. -/
def pool_open_mysql_connection (p : Pool) (connect_ok : Bool) : Option Nat × Pool :=
  if connect_ok then
    (some p.next_conn, { p with next_conn := p.next_conn + 1, live := p.next_conn :: p.live })
  else (none, p)

/-- The function `pool_close_mysql_connection(mysql)`. -/
def pool_close_mysql_connection (p : Pool) (mysql : Option Nat) : Pool :=
  match mysql with
  | some c => { p with live := p.live.erase c }
  | none => p

/-- The function `lifo_put(conn)`; the list entry is taken from `lifo_unused` or
allocated, and the allocation is assumed to succeed. -/
def lifo_put (p : Pool) (conn : Option Nat) : Int × Pool :=
  (0, { p with lifo_pool := conn :: p.lifo_pool })

/-- The function `lifo_get()`. -/
def lifo_get (p : Pool) : Option Nat × Pool :=
  match p.lifo_pool with
  | ent :: rest => (ent, { p with lifo_pool := rest })
  | [] => (none, p)

/-- The function `pool_get()`. -/
def pool_get (p : Pool) (connect_ok : Bool) : Option Nat × Pool :=
  match lifo_get p with
  | (some conn, p1) => (some conn, p1)
  | (none, p1) => pool_open_mysql_connection p1 connect_ok

/-- The function `pool_put(conn)`. -/
def pool_put (p : Pool) (conn : Option Nat) : Pool :=
  if p.lifo_pool.length ≥ p.max_idling_conns then pool_close_mysql_connection p conn
  else
    let r := lifo_put p conn
    if r.1 < 0 then pool_close_mysql_connection r.2 conn else r.2

/-- What an entry of the operation table leaves behind: the value returned, the database,
the pool, and the sessions the entry obtained from `pool_get` and did not hand to
`pool_put`. -/
structure entry_result where
  ret : Int
  db : DB
  pool : Pool
  held : List Nat
deriving DecidableEq, Repr

/-- The entry `mysqlfs_unlink(path)` with its pool calls: `pool_get` first, `pool_put` at
`err_out` and before the final `return 0`; the `return 0` taken when `nlinks > 1` has no
`pool_put`. -/
def mysqlfs_unlink_pooled (pool : Pool) (db : DB) (path : List Char) (connect_ok : Bool) :
    entry_result :=
  match pool_get pool connect_ok with
  | (none, pool1) => { ret := -EMFILE, db := db, pool := pool1, held := [] }
  | (some dbconn, pool1) =>
    match query_inode_full db path with
    | Except.error ret =>
      { ret := ret, db := db, pool := pool_put pool1 (some dbconn), held := [] }
    | Except.ok r =>
      let r1 := query_rmdirentry db r.name r.inode r.parent
      if r1.1 < 0 then
        { ret := r1.1, db := r1.2, pool := pool_put pool1 (some dbconn), held := [] }
      else if r.nlinks > 1 then
        { ret := 0, db := r1.2, pool := pool1, held := [dbconn] }
      else
        let r2 := query_set_deleted r1.2 r.inode
        let r3 := query_purge_deleted r2.2 r.inode
        { ret := 0, db := r3.2, pool := pool_put pool1 (some dbconn), held := [] }

/-- The entry `mysqlfs_rename(from, to)` with its pool calls: `mysqlfs_unlink(to)` runs
before the entry's own `pool_get`. -/
def mysqlfs_rename_pooled (pool : Pool) (db : DB) (from_ to_ : List Char) (to_st : stat)
    (connect_ok : Bool) : entry_result :=
  let u := mysqlfs_unlink_pooled pool db to_ connect_ok
  match pool_get u.pool connect_ok with
  | (none, pool1) => { ret := -EMFILE, db := u.db, pool := pool1, held := u.held }
  | (some dbconn, pool1) =>
    let r := query_rename u.db from_ to_ to_st
    { ret := r.1, db := r.2, pool := pool_put pool1 (some dbconn), held := u.held }

/-- A pool with the one idle connection 0 that `pool_init` opens by default
(`init_conns = 1`, `max_idling_conns = 5`). -/
def pool_one : Pool :=
  { lifo_pool := [some 0], max_idling_conns := 5, next_conn := 1, live := [0] }

/-! ## Statements that fail

The definitions above take every statement as executed.  The ones below carry, for the
statements of three functions, a flag telling whether the server executes the statement;
a statement that fails changes nothing. -/

/-- The value `mysql_query` returns for a statement that fails: the C API documents
"nonzero if an error occurred", and the client library returns 1. -/
def MYSQL_QUERY_FAILED : Int := 1

/-- The function `query_readdir` when its `SELECT` may fail (`ok = false`): `- EIO` and
no `filler` call. -/
def query_readdir_rc (db : DB) (inode : Int) (ok : Bool) : Int × List dir_entry :=
  if ok then query_readdir db inode else (- EIO, [])

/-- The entry `mysqlfs_readdir` when the listing statement may fail. -/
def mysqlfs_readdir_rc (db : DB) (path : List Char) (ok : Bool) : Int × List dir_entry :=
  let inode := query_inode db path
  if inode < 0 then (inode, [])
  else
    let r := query_readdir_rc db inode ok
    (0, [{ name := ['.'], st := none }, { name := ['.', '.'], st := none }] ++ r.2)

/-- The function `query_truncate` when its three statements may fail: after a failed
statement `goto err_out` returns the value of `mysql_query`. -/
def query_truncate_rc (db : DB) (inode : Int) (length : Nat) (now : Nat)
    (ok_delete ok_update ok_size : Bool) : Int × DB :=
  let info := fill_data_blocks_info length 0
  if !ok_delete then (MYSQL_QUERY_FAILED, db)
  else
    let db1 : DB := { db with data_blocks := db.data_blocks.filter (fun r =>
      !decide (r.inode = inode ∧ r.seq > info.seq_last)) }
    if !ok_update then (MYSQL_QUERY_FAILED, db1)
    else
      let db2 := update_block db1 inode info.seq_last (fun d => sql_rpad d info.length_last)
      if !ok_size then (MYSQL_QUERY_FAILED, db2)
      else
        (0, { db2 with inodes := db2.inodes.map (fun r =>
          if r.inode = inode then { r with size := (length : Int), mtime := now, ctime := now }
          else r) })

/-- The entry `mysqlfs_truncate` when the statements of `query_truncate` may fail. -/
def mysqlfs_truncate_rc (db : DB) (path_value : Int) (length now : Nat)
    (ok_delete ok_update ok_size : Bool) : Int × DB :=
  let r := query_truncate_rc db path_value length now ok_delete ok_update ok_size
  if r.1 < 0 then (- EIO, r.2) else (0, r.2)

/-- The function `query_mknod` when its two `INSERT` statements may fail: after a failed
statement `goto err_out` returns the value of `mysql_query`. -/
def query_mknod_rc (db : DB) (path : List Char) (mode : Nat) (parent : Int)
    (uid gid now : Nat) (ok_tree ok_inodes : Bool) : Int × DB :=
  let insert (name : List Char) (par : Option Int) : Int × DB :=
    if !ok_tree then (MYSQL_QUERY_FAILED, db)
    else
      let new_inode_number := db.auto_inc
      let tree_row : TreeRow := { name := name, parent := par, inode := new_inode_number }
      let inode_row : InodeRow :=
        { inode := new_inode_number, mode := mode, uid := uid, gid := gid, atime := now,
          mtime := now, ctime := now, size := 0, inuse := 0, deleted := 0 }
      if !ok_inodes then
        (MYSQL_QUERY_FAILED,
          { tree := db.tree ++ [tree_row], inodes := db.inodes,
            data_blocks := db.data_blocks, auto_inc := db.auto_inc + 1 })
      else
        (new_inode_number,
          { tree := db.tree ++ [tree_row], inodes := db.inodes ++ [inode_row],
            data_blocks := db.data_blocks, auto_inc := db.auto_inc + 1 })
  if path = [SLASH] then insert [SLASH] none
  else
    match after_last_slash path with
    | none => (-ENOENT, db)
    | some name =>
      if name = [] then (-ENOENT, db)
      else if name.length > 255 then (-ENAMETOOLONG, db)
      else insert name (some parent)

/-- The entry `mysqlfs_mknod` when the statements of `query_mknod` may fail. -/
def mysqlfs_mknod_rc (db : DB) (path : List Char) (mode : Nat) (uid gid now : Nat)
    (ok_tree ok_inodes : Bool) : Int × DB :=
  if ¬ (path.length < PATH_MAX) then (-ENAMETOOLONG, db)
  else
    let dir_path := dirname_in_place path
    let parent_inode := query_inode db dir_path
    if parent_inode < 0 then (-ENOENT, db)
    else
      let r := query_mknod_rc db path mode parent_inode uid gid now ok_tree ok_inodes
      if r.1 < 0 then r else (0, r.2)

/-- The path obtained from `p` by collapsing every run of adjacent `/` into one and dropping
a trailing `/` (the normal form the specification of the resolver speaks of): a `/` is
kept exactly when a character other than `/` follows it. -/
def collapse_slashes : List Char → List Char
  | [] => []
  | c :: cs =>
    if c = SLASH then
      match collapse_slashes cs with
      | [] => []
      | d :: ds => if d = SLASH then d :: ds else c :: d :: ds
    else c :: collapse_slashes cs

/-- The pool `pool_one` after one `pool_get`: session 0 is handed out, no session is
idle. -/
def pool_busy : Pool := (pool_get pool_one true).2

/-- A pool at its ceiling (`max_idling_conns = 1`): session 0 is idle, session 1 is handed
out. -/
def pool_full : Pool :=
  { lifo_pool := [some 0], max_idling_conns := 1, next_conn := 2, live := [1, 0] }

/-- The loop of `pool_init`: `init_conns` times `pool_open_mysql_connection()` followed by
`lifo_put(conn)`, whatever the connection is. -/
def pool_init_loop : Nat → Bool → Pool → Pool
  | 0, _, p => p
  | n + 1, connect_ok, p =>
    pool_init_loop n connect_ok
      (lifo_put (pool_open_mysql_connection p connect_ok).2
        (pool_open_mysql_connection p connect_ok).1).2

/-- The pool before `pool_init`: the globals `lifo_pool = NULL`, `lifo_pool_cnt = 0`, with
`opt->max_idling_conns` of the configuration. -/
def pool_empty (max_idling_conns : Nat) : Pool :=
  { lifo_pool := [], max_idling_conns := max_idling_conns, next_conn := 0, live := [] }

/-- The function `pool_init(opt)`: the value returned, the pool and the database
afterwards.  `connect_ok` tells whether connections can be opened during the call. -/
def pool_init (init_conns max_idling_conns : Nat) (connect_ok : Bool) (db : DB)
    (version_ok : Bool) (fsck uid gid now : Nat) : Int × Pool × DB :=
  let p1 := pool_init_loop init_conns connect_ok (pool_empty max_idling_conns)
  match pool_get p1 connect_ok with
  | (none, p2) => (-1, p2, db)
  | (some mysql, p2) =>
    let r := pool_check_mysql_setup db version_ok fsck uid gid now
    (r.1, pool_put p2 (some mysql), r.2)

/-- A call of `pool_get()` (with the outcome of a connection attempt, should one be made)
or of `pool_put(conn)`. -/
inductive PoolCall where
  | get (connect_ok : Bool)
  | put (conn : Option Nat)

/-- The pool after one call. -/
def pool_call (p : Pool) : PoolCall → Pool
  | PoolCall.get connect_ok => (pool_get p connect_ok).2
  | PoolCall.put conn => pool_put p conn

/-- The pool after a sequence of calls made one after the other. -/
def pool_run (p : Pool) (calls : List PoolCall) : Pool :=
  calls.foldl pool_call p

/-- Whether the server executes the statements of one call of `write_one_block`: the
`INSERT` of a block not yet stored, the prepared `UPDATE` of the data (from
`mysql_stmt_init` to `mysql_stmt_execute`) and the `UPDATE` of the size. -/
structure block_stmts where
  insert_ok : Bool
  update_ok : Bool
  size_ok : Bool
deriving DecidableEq, Repr

/-- All statements of a call are executed. -/
def stmts_ok : block_stmts := { insert_ok := true, update_ok := true, size_ok := true }

/-- The function `write_one_block` when its statements may fail: each failure returns
`- EIO` and leaves what the statements before it did. -/
def write_one_block_rc (db : DB) (inode : Int) (seq : Nat) (data : List Char)
    (size : Nat) (offset : Nat) (ok : block_stmts) : Int × DB :=
  let current_block_size := query_size_block db inode seq
  if size = 0 then (0, db)
  else if offset + size > DATA_BLOCK_SIZE then (- EIO, db)
  else if current_block_size = - ENXIO ∧ ok.insert_ok = false then (- EIO, db)
  else
    let db1 := if current_block_size = - ENXIO then insert_empty_block db inode seq else db
    let current_block_size :=
      if current_block_size = - ENXIO then query_size_block db1 inode seq
      else current_block_size
    if ok.update_ok = false then (- EIO, db1)
    else
      let blob := data.take size
      let db2 :=
        if offset = 0 ∧ current_block_size = 0 then
          update_block db1 inode seq (fun _ => blob)
        else if (offset : Int) = current_block_size then
          update_block db1 inode seq (fun d => d ++ blob)
        else
          update_block db1 inode seq (fun d =>
            (if offset > 0 then sql_rpad d offset else []) ++ blob ++
            (if ((offset + size : Nat) : Int) < current_block_size
              then sql_substring_from d (offset + size + 1) else []))
      if ok.size_ok = false then (- EIO, db2)
      else ((size : Int), refresh_size db2 inode)

/-- The loop over the intermediate blocks of `query_write` when statements may fail;
`oks seq` tells what happens to the statements of the call for block `seq`. -/
def write_intermediate_rc (inode : Int) (oks : Nat → block_stmts) :
    Nat → Nat → List Char → Int → DB → (Int ⊕ (List Char × Int)) × DB
  | 0, _, ptr, ret_size, db => (Sum.inr (ptr, ret_size), db)
  | count + 1, seq, ptr, ret_size, db =>
    let r := write_one_block_rc db inode seq ptr DATA_BLOCK_SIZE 0 (oks seq)
    if r.1 < 0 then (Sum.inl r.1, r.2)
    else
      write_intermediate_rc inode oks count (seq + 1) (ptr.drop DATA_BLOCK_SIZE)
        (ret_size + r.1) r.2

/-- The function `query_write` when the statements of its calls of `write_one_block` may
fail. -/
def query_write_rc (db : DB) (inode : Int) (data : List Char) (size : Nat)
    (offset : Nat) (oks : Nat → block_stmts) : Int × DB :=
  let info := fill_data_blocks_info size offset
  let r := write_one_block_rc db inode info.seq_first data info.length_first
    info.offset_first (oks info.seq_first)
  if r.1 < 0 then r
  else
    let ret_size := r.1
    if info.seq_first = info.seq_last then (ret_size, r.2)
    else
      let ptr := data.drop info.length_first
      match write_intermediate_rc inode oks (info.seq_last - (info.seq_first + 1))
          (info.seq_first + 1) ptr ret_size r.2 with
      | (Sum.inl ret, db2) => (ret, db2)
      | (Sum.inr (ptr, ret_size), db2) =>
        let r := write_one_block_rc db2 inode info.seq_last ptr info.length_last 0
          (oks info.seq_last)
        if r.1 < 0 then r else (ret_size + r.1, r.2)

/-- A call of `write_one_block` for block `seq` of `inode` fails on database `db` when
one of the statements it issues is not executed: the `INSERT` (issued only when the block
is not stored yet), the prepared `UPDATE` or the `UPDATE` of the size. -/
def call_fails (db : DB) (inode : Int) (seq : Nat) (ok : block_stmts) : Prop :=
  (query_size_block db inode seq = - ENXIO ∧ ok.insert_ok = false) ∨
    ok.update_ok = false ∨ ok.size_ok = false

instance (db : DB) (inode : Int) (seq : Nat) (ok : block_stmts) :
    Decidable (call_fails db inode seq ok) := by
  unfold call_fails; exact inferInstance

/-- Statement outcomes in which every call succeeds except the one for block `j`, whose
prepared `UPDATE` fails. -/
def fails_at (j : Nat) : Nat → block_stmts :=
  fun s => if s = j then { insert_ok := true, update_ok := false, size_ok := true }
    else stmts_ok

/-- C2: `fill_data_blocks_info` computes the specified split: with `B = 4096`,
`seq_first = offset / B`, `offset_first = offset mod B`,
`n_following = (offset_first + size) / B`, `length_first = B - offset_first` when
`n_following > 0` and `size` otherwise, `seq_last = seq_first + n_following`,
`length_last = (offset_first + size) mod B`; and offset 4095, size 2 gives
seq_first 0, offset_first 4095, length_first 1, seq_last 1, length_last 1. -/
theorem fill_data_blocks_info_split :
    (∀ size offset : Nat,
      (fill_data_blocks_info size offset).seq_first = offset / 4096 ∧
      (fill_data_blocks_info size offset).offset_first = offset % 4096 ∧
      (fill_data_blocks_info size offset).length_first =
        (if (offset % 4096 + size) / 4096 > 0 then 4096 - offset % 4096 else size) ∧
      (fill_data_blocks_info size offset).seq_last =
        offset / 4096 + (offset % 4096 + size) / 4096 ∧
      (fill_data_blocks_info size offset).length_last = (offset % 4096 + size) % 4096) ∧
    fill_data_blocks_info 2 4095 =
      { seq_first := 0, offset_first := 4095, length_first := 1,
        seq_last := 1, length_last := 1 } := by
  refine ⟨fun size offset => ⟨rfl, rfl, rfl, rfl, rfl⟩, ?_⟩
  decide

/-! ### Lemmas on the data engine -/

theorem mem_select_blocks {db : DB} {i : Int} {s e : Nat} {r : BlockRow} :
    r ∈ select_blocks db i s e ↔ r ∈ db.data_blocks ∧ r.inode = i ∧ s ≤ r.seq ∧ r.seq ≤ e := by
  simp [select_blocks, List.mem_insertionSort, List.mem_filter]

theorem pairwise_seq_ne_of_pk {db : DB} (hpk : PrimaryKey db) (i : Int) (p : BlockRow → Bool)
    (hp : ∀ r, p r = true → r.inode = i) :
    (db.data_blocks.filter p).Pairwise (fun a b => a.seq ≠ b.seq) := by
  unfold PrimaryKey at hpk
  rw [List.Nodup, List.pairwise_map] at hpk
  have h1 := hpk.sublist (List.filter_sublist (p := p) db.data_blocks)
  rw [List.pairwise_iff_forall_sublist] at h1 ⊢
  intro a b hab
  have ha : a ∈ db.data_blocks.filter p := hab.subset (by simp)
  have hb : b ∈ db.data_blocks.filter p := hab.subset (by simp)
  have hia := hp a (List.mem_filter.1 ha).2
  have hib := hp b (List.mem_filter.1 hb).2
  intro hseq
  exact h1 hab (by rw [hia, hib, hseq])

theorem select_blocks_sorted {db : DB} (hpk : PrimaryKey db) (i : Int) (s e : Nat) :
    (select_blocks db i s e).Sorted (fun a b => a.seq < b.seq) := by
  unfold select_blocks
  set p : BlockRow → Bool := fun r => decide (r.inode = i ∧ s ≤ r.seq ∧ r.seq ≤ e) with hp
  have h1 : ((db.data_blocks.filter p).insertionSort (fun a b => a.seq ≤ b.seq)).Sorted
      (fun a b => a.seq ≤ b.seq) := by
    haveI : IsTotal BlockRow (fun a b => a.seq ≤ b.seq) := ⟨fun a b => Nat.le_total _ _⟩
    haveI : IsTrans BlockRow (fun a b => a.seq ≤ b.seq) := ⟨fun a b c => Nat.le_trans⟩
    exact List.sorted_insertionSort _ _
  have h2 : ((db.data_blocks.filter p).insertionSort (fun a b => a.seq ≤ b.seq)).Pairwise
      (fun a b => a.seq ≠ b.seq) := by
    have := pairwise_seq_ne_of_pk hpk i p (by intro r hr; simp [hp] at hr; exact hr.1)
    exact (List.Perm.pairwise_iff (R := fun a b : BlockRow => a.seq ≠ b.seq)
      (fun h => Ne.symm h) (List.perm_insertionSort _ _)).2 this
  exact (h1.and h2).imp (fun ⟨hle, hne⟩ => lt_of_le_of_ne hle hne)

theorem eq_of_sorted_seq {l₁ l₂ : List BlockRow}
    (h₁ : l₁.Sorted (fun a b => a.seq < b.seq)) (h₂ : l₂.Sorted (fun a b => a.seq < b.seq))
    (hmem : ∀ r, r ∈ l₁ ↔ r ∈ l₂) : l₁ = l₂ := by
  haveI : IsAntisymm BlockRow (fun a b => a.seq < b.seq) :=
    ⟨fun a b hab hba => absurd hab (Nat.lt_asymm hba)⟩
  haveI : IsIrrefl BlockRow (fun a b => a.seq < b.seq) := ⟨fun a => Nat.lt_irrefl _⟩
  exact List.eq_of_perm_of_sorted ((List.perm_ext_iff_of_nodup h₁.nodup h₂.nodup).2 hmem) h₁ h₂

theorem block_at_eq_none {db : DB} {i : Int} {s : Nat} :
    block_at db i s = none ↔ ∀ r ∈ db.data_blocks, ¬ (r.inode = i ∧ r.seq = s) := by
  unfold block_at block_rows
  cases h : db.data_blocks.filter (fun r => decide (r.inode = i ∧ r.seq = s)) with
  | nil =>
    simp only [List.head?_nil, Option.map_none', true_iff]
    intro r hr hk
    have : r ∈ db.data_blocks.filter (fun r => decide (r.inode = i ∧ r.seq = s)) :=
      List.mem_filter.2 ⟨hr, by simpa using hk⟩
    rw [h] at this
    exact absurd this (List.not_mem_nil _)
  | cons a l =>
    simp only [List.head?_cons, Option.map_some']
    refine ⟨fun hn => by simp at hn, fun hall => ?_⟩
    exfalso
    have ha : a ∈ db.data_blocks.filter (fun r => decide (r.inode = i ∧ r.seq = s)) := by
      rw [h]; exact List.mem_cons_self _ _
    have := List.mem_filter.1 ha
    exact hall a this.1 (by simpa using this.2)

theorem block_at_eq_some {db : DB} {i : Int} {s : Nat} {d : List Char}
    (h : block_at db i s = some d) :
    (⟨i, s, d⟩ : BlockRow) ∈ db.data_blocks := by
  unfold block_at block_rows at h
  cases hf : db.data_blocks.filter (fun r => decide (r.inode = i ∧ r.seq = s)) with
  | nil => rw [hf] at h; simp at h
  | cons a l =>
    rw [hf] at h
    simp only [List.head?_cons, Option.map_some', Option.some.injEq] at h
    have ha : a ∈ db.data_blocks.filter (fun r => decide (r.inode = i ∧ r.seq = s)) := by
      rw [hf]; exact List.mem_cons_self _ _
    have := List.mem_filter.1 ha
    have hk : a.inode = i ∧ a.seq = s := by simpa using this.2
    have : a = ⟨i, s, d⟩ := by
      cases a; simp_all
    rw [← this]
    exact (List.mem_filter.1 ha).1

theorem pk_unique {db : DB} (hpk : PrimaryKey db) {a b : BlockRow}
    (ha : a ∈ db.data_blocks) (hb : b ∈ db.data_blocks)
    (hi : a.inode = b.inode) (hs : a.seq = b.seq) : a = b := by
  unfold PrimaryKey at hpk
  exact List.inj_on_of_nodup_map hpk ha hb (by rw [hi, hs])

theorem select_blocks_absent {db : DB} {i : Int} {s : Nat} (e : Nat)
    (h : block_at db i s = none) :
    select_blocks db i s e = select_blocks db i (s + 1) e := by
  unfold select_blocks
  congr 1
  apply List.filter_congr
  intro r hr
  have := block_at_eq_none.1 h r hr
  by_cases hi : r.inode = i
  · have hs : r.seq ≠ s := fun hs => this ⟨hi, hs⟩
    simp only [hi, true_and, decide_eq_decide]
    omega
  · simp [hi]

theorem select_blocks_present {db : DB} (hpk : PrimaryKey db) {i : Int} {s e : Nat}
    (hse : s ≤ e) {d : List Char} (h : block_at db i s = some d) :
    select_blocks db i s e = (⟨i, s, d⟩ : BlockRow) :: select_blocks db i (s + 1) e := by
  have hmem := block_at_eq_some h
  apply eq_of_sorted_seq (select_blocks_sorted hpk i s e)
  · refine List.sorted_cons.2 ⟨?_, select_blocks_sorted hpk i (s + 1) e⟩
    intro b hb
    have := (mem_select_blocks.1 hb).2.2.1
    show s < b.seq
    omega
  · intro r
    rw [List.mem_cons, mem_select_blocks, mem_select_blocks]
    constructor
    · rintro ⟨hr, hi, h1, h2⟩
      by_cases hs : r.seq = s
      · left
        exact pk_unique hpk hr hmem hi hs
      · right
        exact ⟨hr, hi, by omega, h2⟩
    · rintro (rfl | ⟨hr, hi, h1, h2⟩)
      · exact ⟨hmem, rfl, le_refl _, hse⟩
      · exact ⟨hr, hi, by omega, h2⟩

theorem select_blocks_head_ne {db : DB} {i : Int} {s e : Nat} {r : BlockRow}
    {l : List BlockRow} (h : select_blocks db i (s + 1) e = r :: l) : (r.seq == s) = false := by
  have : r ∈ select_blocks db i (s + 1) e := by rw [h]; exact List.mem_cons_self _ _
  have := (mem_select_blocks.1 this).2.2.1
  simp only [beq_eq_false_iff_ne, ne_eq]
  omega

theorem take_min_of_length_le {l : List Char} {m : Nat} (n : Nat) (h : l.length ≤ m) :
    l.take (min m n) = l.take n := by
  rcases Nat.le_total n m with hnm | hnm
  · rw [Nat.min_eq_right hnm]
  · rw [Nat.min_eq_left hnm, List.take_of_length_le h, List.take_of_length_le (le_trans h hnm)]

theorem take_min_of_length_le' {l : List Char} {m : Nat} (n : Nat) (h : l.length ≤ m) :
    l.take (min n m) = l.take n := by
  rw [Nat.min_comm]; exact take_min_of_length_le n h

theorem zeroes_length : zeroes.length = DATA_BLOCK_SIZE := by
  simp [zeroes]

theorem read_loop_select {db : DB} (hpk : PrimaryKey db) (info : data_blocks_info)
    (i : Int) (count seq e : Nat) (out : List Char) (hse : seq ≤ e) :
    read_loop info (count + 1) seq (select_blocks db i seq e) out =
      if seq = info.seq_first then
        if ((block_at db i seq).getD zeroes).length < info.offset_first then out
        else read_loop info count (seq + 1) (select_blocks db i (seq + 1) e)
          (out ++ (((block_at db i seq).getD zeroes).drop info.offset_first).take
            info.length_first)
      else if seq = info.seq_last then
        read_loop info count (seq + 1) (select_blocks db i (seq + 1) e)
          (out ++ ((block_at db i seq).getD zeroes).take info.length_last)
      else
        read_loop info count (seq + 1) (select_blocks db i (seq + 1) e)
          (out ++ ((block_at db i seq).getD zeroes).take DATA_BLOCK_SIZE) := by
  cases hb : block_at db i seq with
  | none =>
    rw [select_blocks_absent e hb]
    cases hsel : select_blocks db i (seq + 1) e with
    | nil =>
      simp only [read_loop, Option.getD_none, zeroes_length, List.tail_nil]
      rw [take_min_of_length_le _ (by simp [zeroes_length]),
        take_min_of_length_le' _ (by simp [zeroes_length])]
      simp
    | cons r l =>
      have hne := select_blocks_head_ne hsel
      simp only [read_loop, hne, Option.getD_none, zeroes_length]
      rw [take_min_of_length_le _ (by simp [zeroes_length]),
        take_min_of_length_le' _ (by simp [zeroes_length])]
      simp
  | some d =>
    rw [select_blocks_present hpk hse hb]
    simp only [read_loop, beq_self_eq_true, Option.getD_some, List.tail_cons, if_true]
    rw [take_min_of_length_le _ (by simp), take_min_of_length_le' _ (le_refl _),
      take_min_of_length_le' _ (le_refl _)]

theorem block_at_update_block (db : DB) (i : Int) (s : Nat) (f : List Char → List Char)
    (i' : Int) (s' : Nat) :
    block_at (update_block db i s f) i' s' =
      if i' = i ∧ s' = s then (block_at db i s).map f else block_at db i' s' := by
  unfold block_at block_rows update_block
  simp only [List.filter_map]
  have hcomp : ((fun r : BlockRow => decide (r.inode = i' ∧ r.seq = s')) ∘ fun r : BlockRow =>
      if r.inode = i ∧ r.seq = s then { r with data := f r.data } else r) =
      fun r => decide (r.inode = i' ∧ r.seq = s') := by
    funext r
    simp only [Function.comp]
    split <;> rfl
  rw [hcomp]
  cases hfl : db.data_blocks.filter (fun r => decide (r.inode = i' ∧ r.seq = s')) with
  | nil =>
    by_cases hk' : i' = i ∧ s' = s
    · obtain ⟨rfl, rfl⟩ := hk'
      simp only [hfl, and_self, if_true, List.map_nil, List.head?_nil, Option.map_none']
    · simp only [hk', if_false, List.map_nil, List.head?_nil, Option.map_none']
  | cons a l =>
    have ha : a ∈ db.data_blocks.filter (fun r => decide (r.inode = i' ∧ r.seq = s')) := by
      rw [hfl]; exact List.mem_cons_self _ _
    have hka : a.inode = i' ∧ a.seq = s' := by simpa using (List.mem_filter.1 ha).2
    by_cases hk' : i' = i ∧ s' = s
    · obtain ⟨rfl, rfl⟩ := hk'
      simp only [hfl, and_self, if_true, List.map_cons, List.head?_cons, Option.map_some', hka]
    · have : ¬ (a.inode = i ∧ a.seq = s) := by
        rintro ⟨h1, h2⟩; exact hk' ⟨hka.1 ▸ h1, hka.2 ▸ h2⟩
      simp only [hk', this, if_false, List.map_cons, List.head?_cons, Option.map_some']

theorem block_at_insert_empty_block (db : DB) (i : Int) (s : Nat) (i' : Int) (s' : Nat) :
    block_at (insert_empty_block db i s) i' s' =
      match block_at db i' s' with
      | some d => some d
      | none => if i' = i ∧ s' = s then some [] else none := by
  unfold block_at block_rows insert_empty_block
  simp only [List.filter_append]
  cases h : db.data_blocks.filter (fun r => decide (r.inode = i' ∧ r.seq = s')) with
  | nil =>
    by_cases hk : i' = i ∧ s' = s
    · obtain ⟨rfl, rfl⟩ := hk
      simp
    · have : ¬ (i = i' ∧ s = s') := by
        rintro ⟨h1, h2⟩; exact hk ⟨h1.symm, h2.symm⟩
      simp [List.filter_cons, hk, this]
  | cons a l => simp

theorem query_size_block_eq (db : DB) (i : Int) (s : Nat) :
    query_size_block db i s =
      match block_at db i s with
      | none => - ENXIO
      | some d => (d.length : Int) := by
  unfold query_size_block block_at
  cases block_rows db i s <;> simp

theorem primaryKey_update_block {db : DB} (h : PrimaryKey db) (i : Int) (s : Nat)
    (f : List Char → List Char) : PrimaryKey (update_block db i s f) := by
  unfold PrimaryKey update_block at *
  simp only [List.map_map]
  have : ((fun r : BlockRow => (r.inode, r.seq)) ∘ fun r : BlockRow =>
      if r.inode = i ∧ r.seq = s then { r with data := f r.data } else r) =
      fun r => (r.inode, r.seq) := by
    funext r
    simp only [Function.comp]
    split <;> rfl
  rw [this]
  exact h

theorem primaryKey_insert_empty_block {db : DB} (h : PrimaryKey db) {i : Int} {s : Nat}
    (hn : block_at db i s = none) : PrimaryKey (insert_empty_block db i s) := by
  unfold PrimaryKey insert_empty_block at *
  simp only [List.map_append, List.map_cons, List.map_nil]
  rw [List.nodup_append]
  refine ⟨h, List.nodup_singleton _, ?_⟩
  intro k hk hk'
  rw [List.mem_singleton] at hk'
  subst hk'
  rw [List.mem_map] at hk
  obtain ⟨r, hr, hkey⟩ := hk
  simp only [Prod.mk.injEq] at hkey
  exact block_at_eq_none.1 hn r hr hkey

theorem block_at_refresh_size (db : DB) (i : Int) (i' : Int) (s' : Nat) :
    block_at (refresh_size db i) i' s' = block_at db i' s' := rfl

theorem sql_rpad_nil_zero (d : List Char) : sql_rpad d 0 = [] := by
  simp [sql_rpad]

theorem sql_rpad_length_self (d : List Char) : sql_rpad d d.length = d := by
  simp [sql_rpad]

/-- The data expression of the UPDATE chosen by `write_one_block` is one splice. -/
theorem update_shape_eq_splice (d blob : List Char) (offset size : Nat)
    (hblob : blob.length = size) :
    (if offset = 0 ∧ (d.length : Int) = 0 then blob
     else if (offset : Int) = (d.length : Int) then d ++ blob
     else (if offset > 0 then sql_rpad d offset else []) ++ blob ++
          (if ((offset + size : Nat) : Int) < (d.length : Int)
            then sql_substring_from d (offset + size + 1) else [])) =
      block_splice d offset blob := by
  unfold block_splice
  rw [hblob]
  by_cases h1 : offset = 0 ∧ (d.length : Int) = 0
  · obtain ⟨rfl, hd⟩ := h1
    have hd' : d = [] := List.length_eq_zero.1 (by exact_mod_cast hd)
    subst hd'
    simp [sql_rpad]
  · rw [if_neg h1]
    by_cases h2 : (offset : Int) = (d.length : Int)
    · have h2' : offset = d.length := by exact_mod_cast h2
      rw [if_pos h2, h2', sql_rpad_length_self]
      simp
    · rw [if_neg h2]
      have hsuffix : (if ((offset + size : Nat) : Int) < (d.length : Int)
            then sql_substring_from d (offset + size + 1) else []) = d.drop (offset + size) := by
        split
        · simp [sql_substring_from]
        · rename_i hlt
          have : d.length ≤ offset + size := by
            have := not_lt.1 hlt
            exact_mod_cast this
          rw [List.drop_of_length_le this]
      rw [hsuffix]
      by_cases h3 : offset > 0
      · rw [if_pos h3]
      · have : offset = 0 := by omega
        subst this
        simp [sql_rpad]

theorem primaryKey_refresh_size {db : DB} (h : PrimaryKey db) (i : Int) :
    PrimaryKey (refresh_size db i) := h

theorem write_one_block_spec (db : DB) (i : Int) (seq : Nat) (data : List Char)
    (size offset : Nat) (hs : size ≠ 0) (hb : offset + size ≤ DATA_BLOCK_SIZE)
    (hlen : size ≤ data.length) :
    (write_one_block db i seq data size offset).1 = (size : Int) ∧
    (∀ i' s', block_at (write_one_block db i seq data size offset).2 i' s' =
      if i' = i ∧ s' = seq then
        some (block_splice ((block_at db i seq).getD []) offset (data.take size))
      else block_at db i' s') ∧
    (PrimaryKey db → PrimaryKey (write_one_block db i seq data size offset).2) ∧
    (write_one_block db i seq data size offset).2.tree = db.tree := by
  have hblob : (data.take size).length = size := by
    rw [List.length_take]; omega
  have hb' : ¬ offset + size > DATA_BLOCK_SIZE := by omega
  have hnoblk : ∀ n : Nat, ¬ (n : Int) = - ENXIO := by
    intro n; unfold ENXIO; omega
  unfold write_one_block
  simp only [hs, hb', if_false]
  rw [query_size_block_eq]
  cases hba : block_at db i seq with
  | none =>
    simp only [if_true]
    rw [query_size_block_eq, block_at_insert_empty_block, hba]
    simp only [and_self, if_true, List.length_nil, Nat.cast_zero, Option.getD_none]
    have key := update_shape_eq_splice [] (data.take size) offset size hblob
    simp only [List.length_nil, Nat.cast_zero] at key
    refine ⟨trivial, ?_, ?_, ?_⟩
    · intro i' s'
      by_cases hk : i' = i ∧ s' = seq
      · rw [if_pos hk, ← key]
        obtain ⟨rfl, rfl⟩ := hk
        split_ifs <;>
          simp only [block_at_refresh_size, block_at_update_block, block_at_insert_empty_block,
            hba, and_self, if_true, Option.map_some']
      · rw [if_neg hk]
        split_ifs <;>
          simp only [block_at_refresh_size, block_at_update_block, block_at_insert_empty_block,
            hk, if_false] <;>
          cases block_at db i' s' <;> rfl
    · intro hpk
      have h1 := primaryKey_insert_empty_block hpk hba
      split_ifs <;> exact primaryKey_refresh_size (primaryKey_update_block h1 _ _ _) _
    · split_ifs <;> rfl
  | some d =>
    simp only [hnoblk, if_false, Option.getD_some]
    have key := update_shape_eq_splice d (data.take size) offset size hblob
    refine ⟨trivial, ?_, ?_, ?_⟩
    · intro i' s'
      by_cases hk : i' = i ∧ s' = seq
      · rw [if_pos hk, ← key]
        obtain ⟨rfl, rfl⟩ := hk
        split_ifs <;>
          simp only [block_at_refresh_size, block_at_update_block,
            hba, and_self, if_true, Option.map_some']
      · rw [if_neg hk]
        split_ifs <;>
          simp only [block_at_refresh_size, block_at_update_block, hk, if_false]
    · intro hpk
      split_ifs <;> exact primaryKey_refresh_size (primaryKey_update_block hpk _ _ _) _
    · split_ifs <;> rfl

theorem write_intermediate_spec (i : Int) (count : Nat) :
    ∀ (seq : Nat) (ptr : List Char) (ret : Int) (db : DB),
      count * DATA_BLOCK_SIZE ≤ ptr.length →
      (write_intermediate i count seq ptr ret db).1 =
        Sum.inr (ptr.drop (count * DATA_BLOCK_SIZE), ret + ((count * DATA_BLOCK_SIZE : Nat) : Int)) ∧
      (∀ i' s', block_at (write_intermediate i count seq ptr ret db).2 i' s' =
        if i' = i ∧ seq ≤ s' ∧ s' < seq + count then
          some (block_splice ((block_at db i s').getD []) 0
            ((ptr.drop ((s' - seq) * DATA_BLOCK_SIZE)).take DATA_BLOCK_SIZE))
        else block_at db i' s') ∧
      (PrimaryKey db → PrimaryKey (write_intermediate i count seq ptr ret db).2) ∧
      (write_intermediate i count seq ptr ret db).2.tree = db.tree := by
  induction count with
  | zero =>
    intro seq ptr ret db _
    refine ⟨by simp [write_intermediate], ?_, fun h => h, rfl⟩
    intro i' s'
    have : ¬ (i' = i ∧ seq ≤ s' ∧ s' < seq + 0) := by omega
    simp only [write_intermediate, this, if_false]
  | succ count ih =>
    intro seq ptr ret db hlen
    have hD : DATA_BLOCK_SIZE = 4096 := rfl
    have hlen1 : DATA_BLOCK_SIZE ≤ ptr.length := by
      rw [Nat.succ_mul] at hlen; omega
    obtain ⟨w1, w2, w3, w4⟩ := write_one_block_spec db i seq ptr DATA_BLOCK_SIZE 0
      (by rw [hD]; omega) (by omega) hlen1
    have hnot : ¬ (write_one_block db i seq ptr DATA_BLOCK_SIZE 0).1 < 0 := by
      rw [w1]; omega
    have hlen2 : count * DATA_BLOCK_SIZE ≤ (ptr.drop DATA_BLOCK_SIZE).length := by
      rw [List.length_drop]; rw [Nat.succ_mul] at hlen; omega
    obtain ⟨r1, r2, r3, r4⟩ := ih (seq + 1) (ptr.drop DATA_BLOCK_SIZE)
      (ret + (write_one_block db i seq ptr DATA_BLOCK_SIZE 0).1)
      (write_one_block db i seq ptr DATA_BLOCK_SIZE 0).2 hlen2
    simp only [write_intermediate, hnot, if_false]
    refine ⟨?_, ?_, fun h => r3 (w3 h), r4.trans w4⟩
    · have e1 : (count + 1) * DATA_BLOCK_SIZE = DATA_BLOCK_SIZE + count * DATA_BLOCK_SIZE := by
        ring
      rw [r1, w1, List.drop_drop, e1]
      congr 2
      push_cast; ring
    · intro i' s'
      rw [r2]
      by_cases hk : i' = i ∧ seq + 1 ≤ s' ∧ s' < seq + 1 + count
      · have hk2 : i' = i ∧ seq ≤ s' ∧ s' < seq + (count + 1) := ⟨hk.1, by omega, by omega⟩
        rw [if_pos hk, if_pos hk2, w2]
        have hne : ¬ (i = i ∧ s' = seq) := by omega
        rw [if_neg hne, List.drop_drop]
        have : DATA_BLOCK_SIZE + (s' - (seq + 1)) * DATA_BLOCK_SIZE = (s' - seq) * DATA_BLOCK_SIZE := by
          have : s' - seq = (s' - (seq + 1)) + 1 := by omega
          rw [this, Nat.succ_mul]; omega
        rw [this]
      · rw [if_neg hk, w2]
        by_cases hk1 : i' = i ∧ s' = seq
        · have hk2 : i' = i ∧ seq ≤ s' ∧ s' < seq + (count + 1) := ⟨hk1.1, by omega, by omega⟩
          rw [if_pos hk1, if_pos hk2]
          obtain ⟨_, rfl⟩ := hk1
          simp
        · have hk2 : ¬ (i' = i ∧ seq ≤ s' ∧ s' < seq + (count + 1)) := by
            rintro ⟨h1, h2, h3⟩
            by_cases hs : s' = seq
            · exact hk1 ⟨h1, hs⟩
            · exact hk ⟨h1, by omega, by omega⟩
          rw [if_neg hk1, if_neg hk2]

theorem fill_facts (n off : Nat) :
    (fill_data_blocks_info n off).offset_first < 4096 ∧
    (fill_data_blocks_info n off).length_last < 4096 ∧
    (fill_data_blocks_info n off).seq_first ≤ (fill_data_blocks_info n off).seq_last ∧
    ((fill_data_blocks_info n off).seq_first = (fill_data_blocks_info n off).seq_last →
      (fill_data_blocks_info n off).length_first = n ∧
      (fill_data_blocks_info n off).offset_first + n < 4096) ∧
    ((fill_data_blocks_info n off).seq_first ≠ (fill_data_blocks_info n off).seq_last →
      (fill_data_blocks_info n off).length_first =
        4096 - (fill_data_blocks_info n off).offset_first ∧
      n = (fill_data_blocks_info n off).length_first +
          ((fill_data_blocks_info n off).seq_last -
            ((fill_data_blocks_info n off).seq_first + 1)) * 4096 +
          (fill_data_blocks_info n off).length_last) := by
  simp only [fill_data_blocks_info, DATA_BLOCK_SIZE]
  refine ⟨by omega, by omega, by omega, ?_, ?_⟩
  · intro h
    have h0 : (off % 4096 + n) / 4096 = 0 := by omega
    simp only [h0, gt_iff_lt, Nat.lt_irrefl, if_false, true_and]
    omega
  · intro h
    have h0 : (off % 4096 + n) / 4096 > 0 := by omega
    simp only [h0, if_true, true_and]
    omega

theorem write_one_block_zero (db : DB) (i : Int) (seq : Nat) (data : List Char) (offset : Nat) :
    write_one_block db i seq data 0 offset = (0, db) := by
  simp [write_one_block]

theorem query_write_spec (db : DB) (i : Int) (data : List Char) (offset : Nat) :
    (query_write db i data data.length offset).1 = (data.length : Int) ∧
    (∀ i' s', block_at (query_write db i data data.length offset).2 i' s' =
      if i' = i ∧ (fill_data_blocks_info data.length offset).seq_first ≤ s' ∧
          s' ≤ (fill_data_blocks_info data.length offset).seq_last ∧
          write_piece (fill_data_blocks_info data.length offset) data s' ≠ [] then
        some (block_splice ((block_at db i s').getD [])
          (write_off (fill_data_blocks_info data.length offset) s')
          (write_piece (fill_data_blocks_info data.length offset) data s'))
      else block_at db i' s') ∧
    (PrimaryKey db → PrimaryKey (query_write db i data data.length offset).2) ∧
    (query_write db i data data.length offset).2.tree = db.tree := by
  obtain ⟨hof, hll, hle, hsame, hdiff⟩ := fill_facts data.length offset
  unfold query_write
  simp only
  generalize hinfo : fill_data_blocks_info data.length offset = info at *
  by_cases hseq : info.seq_first = info.seq_last
  · obtain ⟨hlf, hfit⟩ := hsame hseq
    by_cases hn : data.length = 0
    · have hd : data = [] := List.length_eq_zero.1 hn
      subst hd
      simp only [List.length_nil] at hlf
      simp only [hlf, write_one_block_zero, hseq, lt_self_iff_false, if_false, if_true,
        List.length_nil, Nat.cast_zero, true_and]
      refine ⟨?_, fun h => h, trivial⟩
      intro i' s'
      have : ¬ (i' = i ∧ info.seq_last ≤ s' ∧ s' ≤ info.seq_last ∧ write_piece info [] s' ≠ []) := by
        rintro ⟨_, _, _, h4⟩
        apply h4
        simp [write_piece]
      rw [if_neg this]
    · obtain ⟨w1, w2, w3, w4⟩ := write_one_block_spec db i info.seq_first data info.length_first
        info.offset_first (by omega) (by rw [show DATA_BLOCK_SIZE = 4096 from rfl]; omega)
        (by omega)
      have hnot : ¬ (write_one_block db i info.seq_first data info.length_first
          info.offset_first).1 < 0 := by rw [w1]; omega
      rw [if_neg hnot, if_pos hseq]
      refine ⟨by rw [w1, hlf], ?_, w3, w4⟩
      intro i' s'
      simp only
      rw [w2, hseq]
      have hp : write_piece info data info.seq_last = data.take info.length_first := by
        simp [write_piece, hseq]
      have hpne : data.take info.length_first ≠ [] := by
        rw [hlf, List.take_length]
        exact fun h => hn (by rw [h]; rfl)
      by_cases hk : i' = i ∧ s' = info.seq_last
      · obtain ⟨rfl, rfl⟩ := hk
        have : i' = i' ∧ info.seq_last ≤ info.seq_last ∧ info.seq_last ≤ info.seq_last ∧
            write_piece info data info.seq_last ≠ [] := ⟨rfl, le_refl _, le_refl _, by rw [hp]; exact hpne⟩
        rw [if_pos ⟨rfl, rfl⟩, if_pos this, hp]
        simp [write_off, hseq]
      · have : ¬ (i' = i ∧ info.seq_last ≤ s' ∧ s' ≤ info.seq_last ∧
            write_piece info data s' ≠ []) := by
          rintro ⟨h1, h2, h3, _⟩
          exact hk ⟨h1, by omega⟩
        rw [if_neg hk, if_neg this]
  · obtain ⟨hlf, hn⟩ := hdiff hseq
    have hlt : info.seq_first < info.seq_last := lt_of_le_of_ne hle hseq
    have hD : DATA_BLOCK_SIZE = 4096 := rfl
    obtain ⟨w1, w2, w3, w4⟩ := write_one_block_spec db i info.seq_first data info.length_first
      info.offset_first (by omega) (by rw [hD]; omega) (by omega)
    have hnot : ¬ (write_one_block db i info.seq_first data info.length_first
        info.offset_first).1 < 0 := by rw [w1]; omega
    rw [if_neg hnot, if_neg hseq]
    have hcnt : (info.seq_last - (info.seq_first + 1)) * DATA_BLOCK_SIZE ≤
        (data.drop info.length_first).length := by
      rw [List.length_drop, hD]; omega
    obtain ⟨m1, m2, m3, m4⟩ := write_intermediate_spec i (info.seq_last - (info.seq_first + 1))
      (info.seq_first + 1) (data.drop info.length_first)
      (write_one_block db i info.seq_first data info.length_first info.offset_first).1
      (write_one_block db i info.seq_first data info.length_first info.offset_first).2 hcnt
    rcases hwi : write_intermediate i (info.seq_last - (info.seq_first + 1))
      (info.seq_first + 1) (data.drop info.length_first)
      (write_one_block db i info.seq_first data info.length_first info.offset_first).1
      (write_one_block db i info.seq_first data info.length_first info.offset_first).2
      with ⟨res, db2⟩
    rw [hwi] at m1 m2 m3 m4
    simp only at m1 m2 m3 m4
    subst m1
    simp only
    have hptr : info.length_last ≤ (List.drop ((info.seq_last - (info.seq_first + 1)) * DATA_BLOCK_SIZE)
        (List.drop info.length_first data)).length := by
      rw [List.length_drop, List.length_drop, hD]; omega
    have hpiece_last : ∀ s', s' ≠ info.seq_first → ¬ s' < info.seq_last →
        write_piece info data s' = List.take info.length_last
          (List.drop ((info.seq_last - (info.seq_first + 1)) * DATA_BLOCK_SIZE)
            (List.drop info.length_first data)) ∨ s' ≠ info.seq_last := by
      intro s' h1 h2
      by_cases h3 : s' = info.seq_last
      · left
        subst h3
        simp only [write_piece, h1, if_false, h2, List.drop_drop, Nat.sub_sub]
      · right; exact h3
    have hpiece_mid : ∀ s', info.seq_first + 1 ≤ s' → s' < info.seq_last →
        write_piece info data s' = List.take DATA_BLOCK_SIZE
          (List.drop ((s' - (info.seq_first + 1)) * DATA_BLOCK_SIZE)
            (List.drop info.length_first data)) ∧ write_piece info data s' ≠ [] := by
      intro s' h1 h2
      have hne : s' ≠ info.seq_first := by omega
      have e : write_piece info data s' = List.take DATA_BLOCK_SIZE
          (List.drop ((s' - (info.seq_first + 1)) * DATA_BLOCK_SIZE)
            (List.drop info.length_first data)) := by
        simp only [write_piece, hne, if_false, h2, if_true, List.drop_drop, Nat.sub_sub]
      refine ⟨e, ?_⟩
      rw [e]
      apply List.ne_nil_of_length_pos
      rw [List.length_take, List.length_drop, List.length_drop, hD]
      omega
    have hpiece_first : write_piece info data info.seq_first = data.take info.length_first ∧
        write_piece info data info.seq_first ≠ [] := by
      have e : write_piece info data info.seq_first = data.take info.length_first := by
        simp only [write_piece, if_true]
      refine ⟨e, ?_⟩
      rw [e]
      apply List.ne_nil_of_length_pos
      rw [List.length_take]
      omega
    -- the state of every block after the first two phases
    have hmid : ∀ i' s', block_at db2 i' s' =
        if i' = i ∧ info.seq_first ≤ s' ∧ s' < info.seq_last then
          some (block_splice ((block_at db i s').getD []) (write_off info s')
            (write_piece info data s'))
        else block_at db i' s' := by
      intro i' s'
      rw [m2]
      by_cases hk : i' = i ∧ info.seq_first + 1 ≤ s' ∧ s' < info.seq_first + 1 +
          (info.seq_last - (info.seq_first + 1))
      · have hk2 : i' = i ∧ info.seq_first ≤ s' ∧ s' < info.seq_last := ⟨hk.1, by omega, by omega⟩
        have hne : ¬ (i = i ∧ s' = info.seq_first) := by omega
        have hne' : s' ≠ info.seq_first := by omega
        rw [if_pos hk, if_pos hk2, w2, if_neg hne, (hpiece_mid s' hk.2.1 hk2.2.2).1]
        simp only [write_off, hne', if_false]
      · rw [if_neg hk, w2]
        by_cases hk1 : i' = i ∧ s' = info.seq_first
        · have hk2 : i' = i ∧ info.seq_first ≤ s' ∧ s' < info.seq_last := ⟨hk1.1, by omega, by omega⟩
          rw [if_pos hk1, if_pos hk2]
          obtain ⟨_, rfl⟩ := hk1
          rw [hpiece_first.1]
          simp only [write_off, if_true]
        · have hk2 : ¬ (i' = i ∧ info.seq_first ≤ s' ∧ s' < info.seq_last) := by
            rintro ⟨h1, h2, h3⟩
            by_cases hs : s' = info.seq_first
            · exact hk1 ⟨h1, hs⟩
            · exact hk ⟨h1, by omega, by omega⟩
          rw [if_neg hk1, if_neg hk2]
    have hmid_ne : ∀ s', info.seq_first ≤ s' → s' < info.seq_last →
        write_piece info data s' ≠ [] := by
      intro s' h1 h2
      by_cases hs : s' = info.seq_first
      · rw [hs]; exact hpiece_first.2
      · exact (hpiece_mid s' (by omega) h2).2
    by_cases hl0 : info.length_last = 0
    · rw [hl0, write_one_block_zero]
      simp only [lt_self_iff_false, if_false, add_zero]
      refine ⟨?_, ?_, fun h => m3 (w3 h), m4.trans w4⟩
      · rw [w1, hD]; push_cast; omega
      · intro i' s'
        rw [hmid]
        by_cases hk : i' = i ∧ info.seq_first ≤ s' ∧ s' < info.seq_last
        · have hk2 : i' = i ∧ info.seq_first ≤ s' ∧ s' ≤ info.seq_last ∧
              write_piece info data s' ≠ [] :=
            ⟨hk.1, hk.2.1, by omega, hmid_ne s' hk.2.1 hk.2.2⟩
          rw [if_pos hk, if_pos hk2]
        · have hk2 : ¬ (i' = i ∧ info.seq_first ≤ s' ∧ s' ≤ info.seq_last ∧
              write_piece info data s' ≠ []) := by
            rintro ⟨h1, h2, h3, h4⟩
            have hs : s' = info.seq_last := by
              by_contra hs
              exact hk ⟨h1, h2, by omega⟩
            apply h4
            subst hs
            simp [write_piece, hseq, Ne.symm hseq, hl0]
          rw [if_neg hk, if_neg hk2]
    · obtain ⟨l1, l2, l3, l4⟩ := write_one_block_spec db2 i info.seq_last
        (List.drop ((info.seq_last - (info.seq_first + 1)) * DATA_BLOCK_SIZE)
          (List.drop info.length_first data)) info.length_last 0 hl0
        (by rw [hD]; omega) hptr
      have hnot2 : ¬ (write_one_block db2 i info.seq_last
          (List.drop ((info.seq_last - (info.seq_first + 1)) * DATA_BLOCK_SIZE)
            (List.drop info.length_first data)) info.length_last 0).1 < 0 := by
        rw [l1]; omega
      rw [if_neg hnot2]
      refine ⟨?_, ?_, fun h => l3 (m3 (w3 h)), l4.trans (m4.trans w4)⟩
      · simp only
        rw [l1, w1, hD]; push_cast; omega
      · intro i' s'
        simp only
        rw [l2]
        have hplast : write_piece info data info.seq_last = List.take info.length_last
            (List.drop ((info.seq_last - (info.seq_first + 1)) * DATA_BLOCK_SIZE)
              (List.drop info.length_first data)) := by
          rcases hpiece_last info.seq_last (Ne.symm hseq) (lt_irrefl _) with h | h
          · exact h
          · exact absurd rfl h
        have hplast_ne : write_piece info data info.seq_last ≠ [] := by
          rw [hplast]
          apply List.ne_nil_of_length_pos
          rw [List.length_take]
          omega
        by_cases hk : i' = i ∧ s' = info.seq_last
        · have hk2 : i' = i ∧ info.seq_first ≤ s' ∧ s' ≤ info.seq_last ∧
              write_piece info data s' ≠ [] := by
            obtain ⟨h1, rfl⟩ := hk
            exact ⟨h1, hle, le_refl _, hplast_ne⟩
          rw [if_pos hk, if_pos hk2]
          obtain ⟨_, rfl⟩ := hk
          have hold : block_at db2 i info.seq_last = block_at db i info.seq_last := by
            rw [hmid]
            have : ¬ (i = i ∧ info.seq_first ≤ info.seq_last ∧ info.seq_last < info.seq_last) := by
              omega
            rw [if_neg this]
          rw [hold, hplast]
          simp only [write_off, Ne.symm hseq, if_false]
        · rw [if_neg hk, hmid]
          by_cases hk1 : i' = i ∧ info.seq_first ≤ s' ∧ s' < info.seq_last
          · have hk2 : i' = i ∧ info.seq_first ≤ s' ∧ s' ≤ info.seq_last ∧
                write_piece info data s' ≠ [] :=
              ⟨hk1.1, hk1.2.1, by omega, hmid_ne s' hk1.2.1 hk1.2.2⟩
            rw [if_pos hk1, if_pos hk2]
          · have hk2 : ¬ (i' = i ∧ info.seq_first ≤ s' ∧ s' ≤ info.seq_last ∧
                write_piece info data s' ≠ []) := by
              rintro ⟨h1, h2, h3, _⟩
              by_cases hs : s' = info.seq_last
              · exact hk ⟨h1, hs⟩
              · exact hk1 ⟨h1, h2, by omega⟩
            rw [if_neg hk1, if_neg hk2]

theorem sql_rpad_length (d : List Char) (n : Nat) : (sql_rpad d n).length = n := by
  simp only [sql_rpad, List.length_append, List.length_take, List.length_replicate]
  omega

theorem block_splice_read (old : List Char) (o : Nat) (p : List Char) :
    ((block_splice old o p).drop o).take p.length = p ∧ o ≤ (block_splice old o p).length := by
  unfold block_splice
  constructor
  · rw [List.append_assoc, List.drop_append_of_le_length (by rw [sql_rpad_length]),
      List.drop_of_length_le (by rw [sql_rpad_length]), List.nil_append,
      List.take_left']
    rfl
  · simp only [List.length_append, sql_rpad_length]
    omega

theorem take_drop_append_drop (l : List Char) (a m : Nat) :
    (l.drop a).take m ++ l.drop (a + m) = l.drop a := by
  have h := List.take_append_drop m (l.drop a)
  rw [List.drop_drop] at h
  rw [Nat.add_comm a m]
  first
  | exact h
  | (rw [Nat.add_comm] at h; exact h)

theorem read_loop_tail {db : DB} (hpk : PrimaryKey db) (i : Int) (data : List Char) (off : Nat)
    (hne : (fill_data_blocks_info data.length off).seq_first ≠
      (fill_data_blocks_info data.length off).seq_last)
    (hrb : ReadsBack db i (fill_data_blocks_info data.length off) data) (k : Nat) :
    ∀ (s : Nat) (out : List Char),
      s + k = (fill_data_blocks_info data.length off).seq_last + 1 →
      (fill_data_blocks_info data.length off).seq_first < s →
      read_loop (fill_data_blocks_info data.length off) k s
        (select_blocks db i s (fill_data_blocks_info data.length off).seq_last) out =
      out ++ data.drop ((fill_data_blocks_info data.length off).length_first +
        (s - ((fill_data_blocks_info data.length off).seq_first + 1)) * 4096) := by
  obtain ⟨hof, hll, hle, hsame, hdiff⟩ := fill_facts data.length off
  generalize fill_data_blocks_info data.length off = info at *
  obtain ⟨hlf, hn⟩ := hdiff hne
  induction k with
  | zero =>
    intro s out hs hlt
    have : data.drop (info.length_first + (s - (info.seq_first + 1)) * 4096) = [] := by
      apply List.drop_of_length_le
      have : s = info.seq_last + 1 := by omega
      subst this
      omega
    simp [read_loop, this]
  | succ k ih =>
    intro s out hs hlt
    have hsl : s ≤ info.seq_last := by omega
    rw [read_loop_select hpk info i k s info.seq_last out hsl]
    have hsf : s ≠ info.seq_first := by omega
    rw [if_neg hsf]
    have hstep : info.length_first + (s + 1 - (info.seq_first + 1)) * 4096 =
        info.length_first + (s - (info.seq_first + 1)) * 4096 + 4096 := by omega
    by_cases hlast : s = info.seq_last
    · rw [if_pos hlast, ih (s + 1) _ (by omega) (by omega), hstep, List.append_assoc]
      congr 1
      have hdrop : data.drop (info.length_first + (s - (info.seq_first + 1)) * 4096 + 4096) = [] := by
        apply List.drop_of_length_le
        subst hlast
        omega
      rw [hdrop, List.append_nil]
      have hpiece : write_piece info data s =
          data.drop (info.length_first + (s - (info.seq_first + 1)) * 4096) := by
        have hnlt : ¬ s < info.seq_last := by omega
        simp only [write_piece, hsf, if_false, hnlt, Nat.sub_sub, DATA_BLOCK_SIZE]
        apply List.take_of_length_le
        rw [List.length_drop]
        subst hlast
        omega
      by_cases hl0 : info.length_last = 0
      · rw [hl0, List.take_zero]
        symm
        apply List.drop_of_length_le
        subst hlast
        omega
      · have hpl : (write_piece info data s).length = info.length_last := by
          rw [hpiece, List.length_drop]
          subst hlast
          omega
        have hpne : write_piece info data s ≠ [] := by
          apply List.ne_nil_of_length_pos
          omega
        obtain ⟨b, hb1, hb2, hb3⟩ := hrb s (by omega) hsl hpne
        rw [hb1, Option.getD_some, ← hpiece, ← hb2, hpl]
        simp [write_off, hsf]
    · rw [if_neg hlast, ih (s + 1) _ (by omega) (by omega), hstep, List.append_assoc]
      congr 1
      have hslt : s < info.seq_last := by omega
      have hpiece : write_piece info data s =
          (data.drop (info.length_first + (s - (info.seq_first + 1)) * 4096)).take 4096 := by
        simp only [write_piece, hsf, if_false, hslt, if_true, Nat.sub_sub, DATA_BLOCK_SIZE]
      have hpl : (write_piece info data s).length = 4096 := by
        rw [hpiece, List.length_take, List.length_drop]
        omega
      have hpne : write_piece info data s ≠ [] := by
        apply List.ne_nil_of_length_pos
        omega
      obtain ⟨b, hb1, hb2, hb3⟩ := hrb s (by omega) hsl hpne
      have hb2' : b.take 4096 = write_piece info data s := by
        rw [← hb2, hpl]
        simp [write_off, hsf]
      rw [hb1, Option.getD_some, show DATA_BLOCK_SIZE = 4096 from rfl, hb2', hpiece,
        take_drop_append_drop]

theorem query_read_bytes_of_readsBack {db : DB} (hpk : PrimaryKey db) (i : Int)
    (data : List Char) (off : Nat)
    (hrb : ReadsBack db i (fill_data_blocks_info data.length off) data) :
    query_read_bytes db i data.length off = data := by
  have htail := read_loop_tail hpk i data off
  obtain ⟨hof, hll, hle, hsame, hdiff⟩ := fill_facts data.length off
  unfold query_read_bytes
  simp only
  generalize fill_data_blocks_info data.length off = info at *
  have hcount : info.seq_last + 1 - info.seq_first = (info.seq_last - info.seq_first) + 1 := by
    omega
  rw [hcount, read_loop_select hpk info i _ info.seq_first info.seq_last [] hle, if_pos rfl]
  by_cases hn : data.length = 0
  · have hd : data = [] := List.length_eq_zero.1 hn
    subst hd
    have hseq : info.seq_first = info.seq_last := by
      by_contra hne
      have := (hdiff hne).2
      simp only [List.length_nil] at this
      have := (hdiff hne).1
      omega
    have hlf := (hsame hseq).1
    simp only [List.length_nil] at hlf
    split
    · rfl
    · rw [hseq, Nat.sub_self, hlf]
      simp [read_loop]
  · have hlfpos : 0 < info.length_first ∧ info.length_first ≤ data.length := by
      by_cases hseq : info.seq_first = info.seq_last
      · have := (hsame hseq).1; omega
      · have := hdiff hseq; omega
    have hp : write_piece info data info.seq_first = data.take info.length_first := by
      simp only [write_piece, if_true]
    have hpl : (write_piece info data info.seq_first).length = info.length_first := by
      rw [hp, List.length_take]; omega
    have hpne : write_piece info data info.seq_first ≠ [] := by
      apply List.ne_nil_of_length_pos; omega
    obtain ⟨b, hb1, hb2, hb3⟩ := hrb info.seq_first (le_refl _) hle hpne
    have hwo : write_off info info.seq_first = info.offset_first := by
      simp only [write_off, if_true]
    rw [hwo] at hb2 hb3
    rw [hpl, hp] at hb2
    rw [hb1, Option.getD_some, if_neg (by omega), hb2, List.nil_append]
    by_cases hseq : info.seq_first = info.seq_last
    · rw [hseq, Nat.sub_self]
      simp only [read_loop]
      apply List.take_of_length_le
      have := (hsame (by rw [hseq])).1
      omega
    · rw [htail hseq hrb (info.seq_last - info.seq_first) (info.seq_first + 1) _ (by omega)
        (by omega)]
      simp

theorem readsBack_query_write (db : DB) (i : Int) (data : List Char) (off : Nat) :
    ReadsBack (query_write db i data data.length off).2 i
      (fill_data_blocks_info data.length off) data := by
  intro s h1 h2 h3
  obtain ⟨_, q2, _, _⟩ := query_write_spec db i data off
  exact ⟨_, by rw [q2, if_pos ⟨rfl, h1, h2, h3⟩], block_splice_read _ _ _⟩

/-- C1: write/read round trip.  For every database whose `data_blocks` respects its
primary key (any stored blocks, of any length), every inode, every offset and every
buffer `B`, `query_write(inode, B, n, off)` with `n` the length of `B` returns `n`, and
the `query_read(inode, buf, n, off)` that follows returns `n` and leaves `B` in the
`n`-character buffer `buf`. -/
theorem write_read_round_trip (db : DB) (inode : Int) (B buf : List Char) (off : Nat)
    (hpk : PrimaryKey db) (hbuf : buf.length = B.length) :
    (query_write db inode B B.length off).1 = (B.length : Int) ∧
    query_read (query_write db inode B B.length off).2 inode buf B.length off =
      ((B.length : Int), B) := by
  obtain ⟨q1, _, q3, _⟩ := query_write_spec db inode B off
  refine ⟨q1, ?_⟩
  unfold query_read
  simp only
  rw [query_read_bytes_of_readsBack (q3 hpk) inode B off (readsBack_query_write db inode B off)]
  rw [List.drop_of_length_le (le_of_eq hbuf), List.append_nil]

/-- Witness of C1: "hello", n = 5, off = 0 on a fresh file. -/
theorem write_read_round_trip_witness :
    (query_write db_fresh 2 "hello".toList 5 0).1 = 5 ∧
    query_read (query_write db_fresh 2 "hello".toList 5 0).2 2 (List.replicate 5 NUL) 5 0 =
      (5, "hello".toList) :=
  write_read_round_trip db_fresh 2 "hello".toList (List.replicate 5 NUL) 0
    (by decide) (by decide)

theorem sql_max_eq_none {l : List Nat} : sql_max l = none ↔ l = [] := by
  cases l with
  | nil => simp [sql_max]
  | cons x xs =>
    simp only [sql_max]
    cases sql_max xs <;> simp

theorem sql_max_eq_some {l : List Nat} {m : Nat} (h : sql_max l = some m) :
    m ∈ l ∧ ∀ x ∈ l, x ≤ m := by
  induction l generalizing m with
  | nil => simp [sql_max] at h
  | cons x xs ih =>
    simp only [sql_max] at h
    cases hxs : sql_max xs with
    | none =>
      rw [hxs] at h
      simp only [Option.some.injEq] at h
      subst h
      have := sql_max_eq_none.1 hxs
      subst this
      simp
    | some m' =>
      rw [hxs] at h
      simp only [Option.some.injEq] at h
      obtain ⟨h1, h2⟩ := ih hxs
      subst h
      constructor
      · rcases Nat.le_total x m' with hle | hle
        · rw [Nat.max_eq_right hle]; exact List.mem_cons_of_mem _ h1
        · rw [Nat.max_eq_left hle]; exact List.mem_cons_self _ _
      · intro y hy
        rcases List.mem_cons.1 hy with rfl | hy
        · exact Nat.le_max_left _ _
        · exact le_trans (h2 y hy) (Nat.le_max_right _ _)

theorem block_at_isSome {db : DB} {i : Int} {s : Nat} :
    (block_at db i s).isSome ↔ ∃ r ∈ db.data_blocks, r.inode = i ∧ r.seq = s := by
  rw [← Option.ne_none_iff_isSome, Ne, block_at_eq_none]
  push_neg
  rfl

theorem mem_seqs {db : DB} {i : Int} {s : Nat} :
    s ∈ (db.data_blocks.filter (fun r => decide (r.inode = i))).map (fun r => r.seq) ↔
      (block_at db i s).isSome := by
  rw [block_at_isSome, List.mem_map]
  constructor
  · rintro ⟨r, hr, rfl⟩
    have := List.mem_filter.1 hr
    exact ⟨r, this.1, by simpa using this.2, rfl⟩
  · rintro ⟨r, hr, hi, hs⟩
    exact ⟨r, List.mem_filter.2 ⟨hr, by simpa using hi⟩, hs⟩

theorem max_seq_eq_none {db : DB} {i : Int} :
    max_seq db i = none ↔ ∀ s, block_at db i s = none := by
  unfold max_seq
  rw [sql_max_eq_none]
  constructor
  · intro h s
    by_contra hne
    have : s ∈ (db.data_blocks.filter (fun r => decide (r.inode = i))).map (fun r => r.seq) :=
      mem_seqs.2 (Option.ne_none_iff_isSome.1 hne)
    rw [h] at this
    exact absurd this (List.not_mem_nil _)
  · intro h
    apply List.eq_nil_iff_forall_not_mem.2
    intro s hs
    have := mem_seqs.1 hs
    rw [h s] at this
    simp at this

theorem max_seq_eq_some {db : DB} {i : Int} {m : Nat} :
    max_seq db i = some m ↔
      (block_at db i m).isSome ∧ ∀ s, m < s → block_at db i s = none := by
  constructor
  · intro h
    obtain ⟨h1, h2⟩ := sql_max_eq_some h
    refine ⟨mem_seqs.1 h1, ?_⟩
    intro s hs
    by_contra hne
    have := h2 s (mem_seqs.2 (Option.ne_none_iff_isSome.1 hne))
    omega
  · rintro ⟨h1, h2⟩
    cases hm : max_seq db i with
    | none =>
      rw [max_seq_eq_none.1 hm m] at h1
      simp at h1
    | some m' =>
      obtain ⟨h3, h4⟩ := sql_max_eq_some hm
      have h5 := h4 m (mem_seqs.2 h1)
      have h6 : ¬ m < m' := by
        intro hlt
        have := mem_seqs.1 h3
        rw [h2 m' hlt] at this
        simp at this
      congr 1
      omega

theorem size_of_blocks_eq {db : DB} {i : Int} {m : Nat} {d : List Char}
    (h1 : block_at db i m = some d) (h2 : ∀ s, m < s → block_at db i s = none) :
    size_of_blocks db i = some ((m * DATA_BLOCK_SIZE + d.length : Nat) : Int) := by
  have hm : max_seq db i = some m := max_seq_eq_some.2 ⟨by rw [h1]; rfl, h2⟩
  unfold size_of_blocks
  rw [hm]
  simp only
  unfold block_at at h1
  cases hr : block_rows db i m with
  | nil => rw [hr] at h1; simp at h1
  | cons r l =>
    rw [hr] at h1
    simp only [List.head?_cons, Option.map_some', Option.some.injEq] at h1
    have hmem : r ∈ block_rows db i m := by rw [hr]; exact List.mem_cons_self _ _
    have hk : r.inode = i ∧ r.seq = m := by
      simpa [block_rows] using (List.mem_filter.1 hmem).2
    simp only [hk.2, h1]

theorem write_intermediate_chain (i : Int) (P : DB → Prop)
    (hstep : ∀ db' seq d size o, P db' → P (write_one_block db' i seq d size o).2)
    (count : Nat) : ∀ (seq : Nat) (ptr : List Char) (ret : Int) (db : DB),
      P db → P (write_intermediate i count seq ptr ret db).2 := by
  induction count with
  | zero => intro seq ptr ret db h; exact h
  | succ count ih =>
    intro seq ptr ret db h
    simp only [write_intermediate]
    split
    · exact hstep _ _ _ _ _ h
    · exact ih _ _ _ _ (hstep _ _ _ _ _ h)

theorem query_write_chain (db : DB) (i : Int) (data : List Char) (size offset : Nat)
    (P : DB → Prop)
    (hfirst : P (write_one_block db i (fill_data_blocks_info size offset).seq_first data
      (fill_data_blocks_info size offset).length_first
      (fill_data_blocks_info size offset).offset_first).2)
    (hstep : ∀ db' seq d sz o, P db' → P (write_one_block db' i seq d sz o).2) :
    P (query_write db i data size offset).2 := by
  unfold query_write
  simp only
  split
  · exact hfirst
  · split
    · exact hfirst
    · have hmid := write_intermediate_chain i P hstep
        ((fill_data_blocks_info size offset).seq_last -
          ((fill_data_blocks_info size offset).seq_first + 1))
        ((fill_data_blocks_info size offset).seq_first + 1)
        (data.drop (fill_data_blocks_info size offset).length_first)
        (write_one_block db i (fill_data_blocks_info size offset).seq_first data
          (fill_data_blocks_info size offset).length_first
          (fill_data_blocks_info size offset).offset_first).1 _ hfirst
      split
      · rename_i ret db2 heq
        rw [heq] at hmid
        exact hmid
      · rename_i ptr ret db2 heq
        rw [heq] at hmid
        split
        · exact hstep _ _ _ _ _ hmid
        · exact hstep _ _ _ _ _ hmid

theorem refreshed_trans {db db1 db2 : DB} {i : Int} (h1 : Refreshed db db1 i)
    (h2 : Refreshed db1 db2 i) : Refreshed db db2 i := by
  unfold Refreshed at *
  rw [h2, h1, List.map_map]
  apply List.map_congr_left
  intro r _
  simp only [Function.comp]
  by_cases hr : r.inode = i
  · simp [hr]
  · simp [hr]

theorem write_one_block_refreshed (db : DB) (i : Int) (seq : Nat) (data : List Char)
    (size offset : Nat) (hs : size ≠ 0) (hb : offset + size ≤ DATA_BLOCK_SIZE) :
    Refreshed db (write_one_block db i seq data size offset).2 i := by
  have hb' : ¬ offset + size > DATA_BLOCK_SIZE := by omega
  unfold write_one_block Refreshed
  simp only [hs, hb', if_false]
  split_ifs <;> rfl

theorem write_one_block_refreshed_step (db0 db : DB) (i : Int) (seq : Nat) (data : List Char)
    (size offset : Nat) (h : Refreshed db0 db i) :
    Refreshed db0 (write_one_block db i seq data size offset).2 i := by
  by_cases hs : size = 0
  · subst hs
    rw [write_one_block_zero]
    exact h
  · by_cases hb : offset + size ≤ DATA_BLOCK_SIZE
    · exact refreshed_trans h (write_one_block_refreshed db i seq data size offset hs hb)
    · have hb' : offset + size > DATA_BLOCK_SIZE := by omega
      have : write_one_block db i seq data size offset = (- EIO, db) := by
        unfold write_one_block
        simp only [hs, hb', if_false, if_true]
      rw [this]
      exact h

theorem query_write_refreshed (db : DB) (i : Int) (data : List Char) (offset : Nat)
    (hn : data.length ≠ 0) :
    Refreshed db (query_write db i data data.length offset).2 i := by
  apply query_write_chain db i data data.length offset (fun db' => Refreshed db db' i)
  · obtain ⟨hof, hll, hle, hsame, hdiff⟩ := fill_facts data.length offset
    apply write_one_block_refreshed
    · by_cases hseq : (fill_data_blocks_info data.length offset).seq_first =
          (fill_data_blocks_info data.length offset).seq_last
      · have := (hsame hseq).1; omega
      · have := (hdiff hseq).1; omega
    · rw [show DATA_BLOCK_SIZE = 4096 from rfl]
      by_cases hseq : (fill_data_blocks_info data.length offset).seq_first =
          (fill_data_blocks_info data.length offset).seq_last
      · have := hsame hseq; omega
      · have := (hdiff hseq).1; omega
  · intro db' seq d sz o h
    exact write_one_block_refreshed_step db db' i seq d sz o h

theorem block_splice_length (old : List Char) (o : Nat) (p : List Char) :
    (block_splice old o p).length = max old.length (o + p.length) := by
  simp only [block_splice, List.length_append, sql_rpad_length, List.length_drop]
  omega

theorem size_of_blocks_congr {db db' : DB} {j : Int}
    (h : ∀ s, block_at db' j s = block_at db j s) :
    max_seq db' j = max_seq db j ∧ size_of_blocks db' j = size_of_blocks db j := by
  cases hm : max_seq db j with
  | none =>
    have hall := max_seq_eq_none.1 hm
    have hm' : max_seq db' j = none := max_seq_eq_none.2 (fun s => by rw [h s, hall s])
    refine ⟨hm', ?_⟩
    unfold size_of_blocks
    rw [hm, hm']
  | some m =>
    obtain ⟨h1, h2⟩ := max_seq_eq_some.1 hm
    have hm' : max_seq db' j = some m :=
      max_seq_eq_some.2 ⟨by rw [h m]; exact h1, fun s hs => by rw [h s, h2 s hs]⟩
    refine ⟨hm', ?_⟩
    obtain ⟨d, hd⟩ := Option.isSome_iff_exists.1 h1
    rw [size_of_blocks_eq hd h2,
      size_of_blocks_eq (by rw [h m, hd]) (fun s hs => by rw [h s, h2 s hs])]

theorem size_of_blocks_isSome {db : DB} {i : Int} (h : max_seq db i ≠ none) :
    ∃ v, size_of_blocks db i = some v := by
  cases hm : max_seq db i with
  | none => exact absurd hm h
  | some m =>
    obtain ⟨h1, h2⟩ := max_seq_eq_some.1 hm
    obtain ⟨d, hd⟩ := Option.isSome_iff_exists.1 h1
    exact ⟨_, size_of_blocks_eq hd h2⟩

theorem query_write_zero (db : DB) (i : Int) (data : List Char) (off : Nat) :
    query_write db i data 0 off = (0, db) := by
  obtain ⟨hof, hll, hle, hsame, hdiff⟩ := fill_facts 0 off
  have hseq : (fill_data_blocks_info 0 off).seq_first = (fill_data_blocks_info 0 off).seq_last := by
    by_contra hne
    have := hdiff hne
    omega
  have hlf := (hsame hseq).1
  unfold query_write
  simp only [hlf, write_one_block_zero, lt_self_iff_false, if_false, hseq, if_true]

theorem sizeInv_query_write (db : DB) (i : Int) (data : List Char) (off : Nat)
    (h : SizeInv db) : SizeInv (query_write db i data data.length off).2 := by
  by_cases hn : data.length = 0
  · rw [hn, query_write_zero]; exact h
  · have hr := query_write_refreshed db i data off hn
    obtain ⟨_, q2, _, _⟩ := query_write_spec db i data off
    intro r' hr' hmax
    rw [hr, List.mem_map] at hr'
    obtain ⟨r, hrmem, rfl⟩ := hr'
    by_cases hri : r.inode = i
    · simp only [hri, if_true] at hmax ⊢
      obtain ⟨v, hv⟩ := size_of_blocks_isSome hmax
      rw [hv]; rfl
    · simp only [hri, if_false] at hmax ⊢
      have hsame : ∀ s, block_at (query_write db i data data.length off).2 r.inode s =
          block_at db r.inode s := by
        intro s
        rw [q2, if_neg (fun hc => hri hc.1)]
      obtain ⟨c1, c2⟩ := size_of_blocks_congr hsame
      rw [c2]
      rw [c1] at hmax
      exact h r hrmem hmax

theorem block_at_filter (db : DB) (p : BlockRow → Bool) (j : Int) (s : Nat) (b : Bool)
    (hp : ∀ r, r.inode = j → r.seq = s → p r = b) :
    block_at { db with data_blocks := db.data_blocks.filter p } j s =
      if b then block_at db j s else none := by
  unfold block_at block_rows
  simp only [List.filter_filter]
  cases b with
  | true =>
    simp only [if_true]
    congr 2
    apply List.filter_congr
    intro r _
    by_cases hk : r.inode = j ∧ r.seq = s
    · simp [hk, hp r hk.1 hk.2]
    · simp [hk]
  | false =>
    have : db.data_blocks.filter (fun a => decide (a.inode = j ∧ a.seq = s) && p a) = [] := by
      apply List.filter_eq_nil_iff.2
      intro r _
      by_cases hk : r.inode = j ∧ r.seq = s
      · simp [hk, hp r hk.1 hk.2]
      · simp [hk]
    rw [this]
    simp

theorem block_at_query_truncate (db : DB) (i : Int) (L now : Nat) (j : Int) (s : Nat) :
    block_at (query_truncate db i L now).2 j s =
      if j = i ∧ s > L / 4096 then none
      else if j = i ∧ s = L / 4096 then (block_at db i s).map (fun d => sql_rpad d (L % 4096))
      else block_at db j s := by
  have hsl : (fill_data_blocks_info L 0).seq_last = L / 4096 := by
    simp [fill_data_blocks_info, DATA_BLOCK_SIZE]
  have hll : (fill_data_blocks_info L 0).length_last = L % 4096 := by
    simp [fill_data_blocks_info, DATA_BLOCK_SIZE]
  unfold query_truncate
  simp only [hsl, hll]
  show block_at (update_block { db with data_blocks := db.data_blocks.filter (fun r =>
      !decide (r.inode = i ∧ r.seq > L / 4096)) } i (L / 4096)
      (fun d => sql_rpad d (L % 4096))) j s = _
  rw [block_at_update_block]
  by_cases h1 : j = i ∧ s > L / 4096
  · have h2 : ¬ (j = i ∧ s = L / 4096) := by omega
    rw [if_neg h2, if_pos h1]
    rw [block_at_filter db _ j s false]
    · simp
    · intro r hr hs
      simp [hr, hs, h1.1, h1.2]
  · rw [if_neg h1]
    by_cases h2 : j = i ∧ s = L / 4096
    · rw [if_pos h2, if_pos h2]
      obtain ⟨rfl, rfl⟩ := h2
      rw [block_at_filter db _ j (L / 4096) true]
      · simp
      · intro r hr hs
        simp [hr, hs]
    · rw [if_neg h2, if_neg h2]
      rw [block_at_filter db _ j s true]
      · simp
      · intro r hr hs
        have : ¬ (j = i ∧ L / 4096 < s) := h1
        simp [hr, hs, this]

theorem sizeInv_query_truncate (db : DB) (i : Int) (L now : Nat) (h : SizeInv db)
    (hblk : (block_at db i (L / 4096)).isSome ∨ ∀ s, s ≤ L / 4096 → block_at db i s = none) :
    SizeInv (query_truncate db i L now).2 := by
  have hb := block_at_query_truncate db i L now
  have hinodes : (query_truncate db i L now).2.inodes = db.inodes.map (fun r =>
      if r.inode = i then { r with size := (L : Int), mtime := now, ctime := now } else r) := rfl
  intro r' hr' hmax
  rw [hinodes, List.mem_map] at hr'
  obtain ⟨r, hrmem, rfl⟩ := hr'
  by_cases hri : r.inode = i
  · simp only [hri, if_true] at hmax ⊢
    rcases hblk with hsome | hnone
    · obtain ⟨d, hd⟩ := Option.isSome_iff_exists.1 hsome
      have h1 : block_at (query_truncate db i L now).2 i (L / 4096) =
          some (sql_rpad d (L % 4096)) := by
        rw [hb, if_neg (by omega), if_pos ⟨rfl, rfl⟩, hd]; rfl
      have h2 : ∀ s, L / 4096 < s → block_at (query_truncate db i L now).2 i s = none := by
        intro s hs
        rw [hb, if_pos ⟨rfl, hs⟩]
      rw [size_of_blocks_eq h1 h2, sql_rpad_length, show DATA_BLOCK_SIZE = 4096 from rfl]
      congr 2
      omega
    · exfalso
      apply hmax
      apply max_seq_eq_none.2
      intro s
      rw [hb]
      by_cases h1 : i = i ∧ s > L / 4096
      · rw [if_pos h1]
      · rw [if_neg h1]
        have hs : s ≤ L / 4096 := by omega
        by_cases h2 : i = i ∧ s = L / 4096
        · rw [if_pos h2, hnone s hs]; rfl
        · rw [if_neg h2, hnone s hs]
  · simp only [hri, if_false] at hmax ⊢
    have hsame : ∀ s, block_at (query_truncate db i L now).2 r.inode s = block_at db r.inode s := by
      intro s
      rw [hb, if_neg (fun hc => hri hc.1), if_neg (fun hc => hri hc.1)]
    obtain ⟨c1, c2⟩ := size_of_blocks_congr hsame
    rw [c2]
    rw [c1] at hmax
    exact h r hrmem hmax

/-- C3 (evaluation at the failing input): after `write("a", 1, 0)` and `write("X", 1, 4096)`
on a fresh file, `query_read` of 4096 characters from offset 0 returns 1 and copies only
`a`: the short block 0 is not extended with NULs up to the block boundary. -/
theorem sparse_read_short_block (buf : List Char) :
    (query_write db_a 2 ['X'] 1 4096).1 = 1 ∧
    (query_read (query_write db_a 2 ['X'] 1 4096).2 2 buf 4096 0).1 = 1 ∧
    query_read_bytes (query_write db_a 2 ['X'] 1 4096).2 2 4096 0 = ['a'] := by
  have h : query_read_bytes (query_write db_a 2 ['X'] 1 4096).2 2 4096 0 = ['a'] := by decide
  refine ⟨by decide, ?_, h⟩
  unfold query_read
  simp only [h]
  rfl

/-- C5 (counterexample): the file holding the single block "a" with size 1 satisfies the
size invariant; after `query_truncate` to 10000 it has the same block and size 10000. -/
theorem size_invariant_counterexample :
    SizeInv db_a ∧ ¬ SizeInv (query_truncate db_a 2 10000 0).2 := by decide

/-- C5 (amended): `query_write` preserves the size invariant, and
`query_truncate(inode, L)` preserves it when the inode has a block with `seq = L / 4096`
or has no block with `seq ≤ L / 4096`. -/
theorem size_invariant_preserved (db : DB) (i : Int) (data : List Char) (off L now : Nat)
    (h : SizeInv db)
    (hblk : (block_at db i (L / 4096)).isSome ∨ ∀ s, s ≤ L / 4096 → block_at db i s = none) :
    SizeInv (query_write db i data data.length off).2 ∧
    SizeInv (query_truncate db i L now).2 :=
  ⟨sizeInv_query_write db i data off h, sizeInv_query_truncate db i L now h hblk⟩

/-- Witness of C5: writing "X" at offset 5 of, and truncating to 3 characters, the file
that holds the block "a". -/
theorem size_invariant_preserved_witness :
    SizeInv (query_write db_a 2 ['X'] 1 5).2 ∧ SizeInv (query_truncate db_a 2 3 0).2 :=
  size_invariant_preserved db_a 2 ['X'] 5 3 0 (by decide) (Or.inl (by decide))

/-! ### Lemmas on directory entries and the inode life cycle -/

theorem mysqlfs_unlink_notempty (db : DB) (path : List Char) (r : inode_full)
    (hres : query_inode_full db path = Except.ok r)
    (hchild : ∃ t ∈ db.tree, t.parent = some r.inode) :
    mysqlfs_unlink db path = (-ENOTEMPTY, db) := by
  obtain ⟨t, ht, hp⟩ := hchild
  have hne : db.tree.filter (fun t => decide (t.parent = some r.inode)) ≠ [] := by
    intro h
    have : t ∈ db.tree.filter (fun t => decide (t.parent = some r.inode)) :=
      List.mem_filter.2 ⟨ht, by simpa using hp⟩
    rw [h] at this
    exact absurd this (List.not_mem_nil _)
  unfold mysqlfs_unlink
  rw [hres]
  simp only [query_rmdirentry, hne, ne_eq, not_false_eq_true, if_true]
  have : (-ENOTEMPTY : Int) < 0 := by decide
  simp only [this, if_true]

theorem query_getattr_ok {db : DB} {path : List Char} {st : stat}
    (h : query_getattr db path = Except.ok st) :
    ∃ r, query_inode_full db path = Except.ok r ∧ r.inode = st.st_ino := by
  unfold query_getattr at h
  cases hq : query_inode_full db path with
  | error e => rw [hq] at h; simp at h
  | ok r =>
    rw [hq] at h
    simp only at h
    split at h
    · simp only [Except.ok.injEq] at h
      exact ⟨r, rfl, by rw [← h]⟩
    · simp at h

theorem query_inode_full_ok {db : DB} {path : List Char} {r : inode_full}
    (h : query_inode_full db path = Except.ok r) :
    ∃ row, resolve_rows db.tree (path_components path) = [row] ∧
      r = { inode := row.inode, name := row.name, parent := row.parent.getD (-1),
            nlinks := count_links db.tree row.inode } := by
  unfold query_inode_full at h
  split at h
  · simp at h
  · split at h
    · rename_i row hrow
      simp only [Except.ok.injEq] at h
      exact ⟨row, hrow, h.symm⟩
    · simp at h

theorem walk_mem (tree : List TreeRow) (cs : List (List Char)) :
    ∀ (rows : List TreeRow) (t : TreeRow), cs ≠ [] → t ∈ walk tree cs rows →
      t ∈ tree ∧ ∃ q, t.parent = some q := by
  induction cs with
  | nil => intro rows t h; exact absurd rfl h
  | cons c cs ih =>
    intro rows t _ ht
    simp only [walk] at ht
    cases cs with
    | nil =>
      simp only [walk, List.mem_flatMap, List.mem_filter, decide_eq_true_eq] at ht
      obtain ⟨a, _, h1, h2, _⟩ := ht
      exact ⟨h1, _, h2⟩
    | cons c2 cs2 => exact ih _ t (by simp) ht

theorem resolve_rows_mem {tree : List TreeRow} {cs : List (List Char)} {t : TreeRow}
    (ht : t ∈ resolve_rows tree cs) : t ∈ tree := by
  unfold resolve_rows at ht
  cases cs with
  | nil =>
    simp only [walk] at ht
    exact (List.mem_filter.1 ht).1
  | cons c cs => exact (walk_mem tree (c :: cs) _ t (by simp) ht).1

/-- What a successful resolution tells about the entry found. -/
theorem resolved_row {db : DB} {path : List Char} {r : inode_full}
    (h : query_inode_full db path = Except.ok r) :
    ∃ row, resolve_rows db.tree (path_components path) = [row] ∧ row ∈ db.tree ∧
      row.inode = r.inode ∧ row.name = r.name ∧ r.nlinks = count_links db.tree r.inode ∧
      r.parent = row.parent.getD (-1) ∧
      (path_components path ≠ [] → row.parent = some r.parent) := by
  obtain ⟨row, hrow, hr⟩ := query_inode_full_ok h
  have hmem : row ∈ resolve_rows db.tree (path_components path) := by
    rw [hrow]; exact List.mem_cons_self _ _
  refine ⟨row, hrow, resolve_rows_mem hmem, by rw [hr], by rw [hr], by rw [hr], by rw [hr], ?_⟩
  intro hne
  obtain ⟨_, q, hq⟩ := walk_mem db.tree _ _ row hne hmem
  rw [hr, hq]
  rfl

theorem mysqlfs_unlink_empty (db : DB) (path : List Char) (r : inode_full)
    (hres : query_inode_full db path = Except.ok r)
    (hnochild : ∀ t ∈ db.tree, t.parent ≠ some r.inode) :
    (mysqlfs_unlink db path).1 = 0 ∧
    (mysqlfs_unlink db path).2.tree =
      db.tree.filter (fun t => !decide (t.name = r.name ∧ t.parent = some r.parent)) ∧
    (mysqlfs_unlink db path).2.data_blocks = db.data_blocks ∧
    (r.nlinks > 1 → (mysqlfs_unlink db path).2.inodes = db.inodes) := by
  have hnil : db.tree.filter (fun t => decide (t.parent = some r.inode)) = [] := by
    apply List.filter_eq_nil_iff.2
    intro t ht
    simpa using hnochild t ht
  unfold mysqlfs_unlink
  rw [hres]
  simp only [query_rmdirentry, hnil, ne_eq, not_true_eq_false, if_false, lt_self_iff_false]
  by_cases hn : r.nlinks > 1
  · simp only [hn, if_true, true_and]
    exact fun _ => trivial
  · simp only [hn, if_false, true_and, query_set_deleted, query_purge_deleted]
    exact fun h => absurd h (by simp)

theorem filter_inode_eq_singleton {tree : List TreeRow} {i : Int} {row : TreeRow}
    (hcount : count_links tree i = 1) (hmem : row ∈ tree) (hi : row.inode = i) :
    tree.filter (fun t => decide (t.inode = i)) = [row] := by
  unfold count_links at hcount
  have hlen : (tree.filter (fun t => decide (t.inode = i))).length = 1 := by
    exact_mod_cast hcount
  obtain ⟨x, hx⟩ := List.length_eq_one.1 hlen
  have : row ∈ tree.filter (fun t => decide (t.inode = i)) :=
    List.mem_filter.2 ⟨hmem, by simpa using hi⟩
  rw [hx, List.mem_singleton] at this
  rw [hx, this]

theorem no_links_after_unlink {db : DB} {path : List Char} {r : inode_full}
    (hres : query_inode_full db path = Except.ok r) (hlast : r.nlinks = 1)
    (hne : path_components path ≠ []) :
    (db.tree.filter (fun t => !decide (t.name = r.name ∧ t.parent = some r.parent))).filter
      (fun t => decide (t.inode = r.inode)) = [] := by
  obtain ⟨row, _, hmem, hi, hname, hnl, _, hpar⟩ := resolved_row hres
  have hcount : count_links db.tree r.inode = 1 := by rw [← hnl, hlast]
  rw [List.filter_filter]
  have : db.tree.filter (fun a => decide (a.inode = r.inode) &&
      !decide (a.name = r.name ∧ a.parent = some r.parent)) =
      (db.tree.filter (fun t => decide (t.inode = r.inode))).filter
        (fun t => !decide (t.name = r.name ∧ t.parent = some r.parent)) := by
    rw [List.filter_filter]
    apply List.filter_congr
    intro x _
    exact Bool.and_comm _ _
  rw [this, filter_inode_eq_singleton hcount hmem hi]
  simp [hname, hpar hne]

theorem inode_rows_unlink_last (l : List InodeRow) (i : Int) (k : Int)
    (hk : ∀ row ∈ l, row.inode = i → row.inuse = k) :
    ((l.map (fun row => if row.inode = i then { row with deleted := 1 } else row)).filter
      (fun row => !decide (row.inode = i ∧ row.inuse = 0 ∧ row.deleted = 1))).filter
      (fun row => decide (row.inode = i)) =
    if k = 0 then []
    else (l.filter (fun row => decide (row.inode = i))).map
      (fun row => { row with deleted := 1, inuse := k }) := by
  induction l with
  | nil => simp
  | cons a l ih =>
    have ih' := ih (fun row hrow => hk row (List.mem_cons_of_mem _ hrow))
    by_cases ha : a.inode = i
    · have hak := hk a (List.mem_cons_self _ _) ha
      by_cases hk0 : k = 0
      · simp only [hk0, if_true] at ih' ⊢
        simp only [List.map_cons, ha, if_true, List.filter_cons, hak, hk0, and_self,
          decide_True, Bool.not_true, Bool.false_eq_true, if_false]
        exact ih'
      · simp only [hk0, if_false] at ih' ⊢
        simp only [List.map_cons, ha, if_true, List.filter_cons, hak, hk0, false_and,
          and_false, decide_False, Bool.not_false, decide_True, List.map_cons]
        rw [ih']
    · simp only [List.map_cons, ha, if_false, List.filter_cons, false_and, decide_False,
        Bool.not_false, if_true, Bool.false_eq_true]
      exact ih'

theorem inode_rows_release (l : List InodeRow) (i : Int) (m : Int)
    (hm : ∀ row ∈ l, row.inode = i → row.inuse = m ∧ row.deleted = 1) :
    ((l.map (fun row => if row.inode = i then { row with inuse := row.inuse + -1 } else row)).filter
      (fun row => !decide (row.inode = i ∧ row.inuse = 0 ∧ row.deleted = 1))).filter
      (fun row => decide (row.inode = i)) =
    if m = 1 then []
    else (l.filter (fun row => decide (row.inode = i))).map
      (fun row => { row with inuse := m - 1 }) := by
  induction l with
  | nil => simp
  | cons a l ih =>
    have ih' := ih (fun row hrow => hm row (List.mem_cons_of_mem _ hrow))
    by_cases ha : a.inode = i
    · obtain ⟨hak, had⟩ := hm a (List.mem_cons_self _ _) ha
      by_cases hm1 : m = 1
      · simp only [hm1, if_true] at ih' ⊢
        simp only [List.map_cons, ha, if_true, List.filter_cons, hak, hm1, had, and_self,
          decide_True, Bool.not_true, Bool.false_eq_true, if_false]
        exact ih'
      · simp only [hm1, if_false] at ih' ⊢
        have hne : ¬ (m + -1 = 0) := by omega
        simp only [List.map_cons, ha, if_true, List.filter_cons, hak, hne, false_and,
          and_false, decide_False, Bool.not_false, decide_True, List.map_cons]
        rw [ih']
        rfl
    · simp only [List.map_cons, ha, if_false, List.filter_cons, false_and, decide_False,
        Bool.not_false, if_true, Bool.false_eq_true]
      exact ih'

theorem inode_rows_mysqlfs_release (d : DB) (i : Int) (m : Int)
    (hm : ∀ row ∈ inode_rows d i, row.inuse = m ∧ row.deleted = 1) :
    inode_rows (mysqlfs_release d i).2 i =
      if m = 1 then [] else (inode_rows d i).map (fun row => { row with inuse := m - 1 }) := by
  have := inode_rows_release d.inodes i m (by
    intro row hrow hi
    exact hm row (List.mem_filter.2 ⟨hrow, by simpa using hi⟩))
  exact this

theorem release_times_rows (base : List InodeRow) (i : Int) (j : Nat) :
    ∀ (m : Nat) (d : DB),
      inode_rows d i = base.map (fun row => { row with deleted := 1, inuse := (m : Int) }) →
      (j < m → inode_rows (release_times i j d) i =
        base.map (fun row => { row with deleted := 1, inuse := ((m - j : Nat) : Int) })) ∧
      (j = m → 0 < m → inode_rows (release_times i j d) i = []) := by
  induction j with
  | zero =>
    intro m d hd
    refine ⟨fun _ => ?_, fun h1 h2 => by omega⟩
    simpa [release_times] using hd
  | succ j ih =>
    intro m d hd
    have hall : ∀ row ∈ inode_rows d i, row.inuse = (m : Int) ∧ row.deleted = 1 := by
      intro row hrow
      rw [hd, List.mem_map] at hrow
      obtain ⟨a, _, rfl⟩ := hrow
      exact ⟨rfl, rfl⟩
    have hrel := inode_rows_mysqlfs_release d i m hall
    simp only [release_times]
    by_cases hm0 : m = 0
    · exact ⟨fun h => by omega, fun h1 h2 => by omega⟩
    by_cases hm1 : m = 1
    · subst hm1
      simp only [Nat.cast_one, if_true] at hrel
      refine ⟨fun h => by omega, fun h1 _ => ?_⟩
      have hj : j = 0 := by omega
      subst hj
      simpa [release_times] using hrel
    · have hne : ¬ ((m : Int) = 1) := by exact_mod_cast hm1
      rw [if_neg hne, hd, List.map_map] at hrel
      have hrel' : inode_rows (mysqlfs_release d i).2 i =
          base.map (fun row => { row with deleted := 1, inuse := ((m - 1 : Nat) : Int) }) := by
        rw [hrel]
        apply List.map_congr_left
        intro a _
        have hcast : ((m - 1 : Nat) : Int) = (m : Int) - 1 := by omega
        simp only [Function.comp, hcast]
      obtain ⟨ih1, ih2⟩ := ih (m - 1) (mysqlfs_release d i).2 hrel'
      refine ⟨fun h => ?_, fun h1 h2 => ?_⟩
      · rw [ih1 (by omega)]
        have hcast : m - 1 - j = m - (j + 1) := by omega
        rw [hcast]
      · exact ih2 (by omega) (by omega)

theorem mysqlfs_unlink_last_inodes (db : DB) (path : List Char) (r : inode_full)
    (hres : query_inode_full db path = Except.ok r)
    (hnochild : ∀ t ∈ db.tree, t.parent ≠ some r.inode) (hlast : r.nlinks = 1)
    (hne : path_components path ≠ []) :
    (mysqlfs_unlink db path).2.inodes =
      (db.inodes.map (fun row => if row.inode = r.inode then { row with deleted := 1 }
        else row)).filter
        (fun row => !decide (row.inode = r.inode ∧ row.inuse = 0 ∧ row.deleted = 1)) := by
  have hnil : db.tree.filter (fun t => decide (t.parent = some r.inode)) = [] := by
    apply List.filter_eq_nil_iff.2
    intro t ht
    simpa using hnochild t ht
  have hn : ¬ r.nlinks > 1 := by rw [hlast]; decide
  have hno := no_links_after_unlink hres hlast hne
  unfold mysqlfs_unlink
  rw [hres]
  simp only [query_rmdirentry, hnil, ne_eq, not_true_eq_false, if_false, lt_self_iff_false,
    hn, query_set_deleted, query_purge_deleted]
  congr 1
  apply List.map_congr_left
  intro row _
  by_cases hi : row.inode = r.inode
  · rw [if_pos hi, if_pos ⟨hi, by rw [hi]; exact hno⟩]
  · rw [if_neg hi, if_neg (fun h => hi h.1)]

theorem strtok_all_nil (cur : List Char) :
    strtok_all [] cur = if cur = [] then [] else [cur] := by
  simp [strtok_all]

theorem strtok_all_noslash (w : List Char) (hw : ∀ c ∈ w, c ≠ SLASH) :
    ∀ (s cur : List Char), strtok_all (w ++ s) cur = strtok_all s (cur ++ w) := by
  induction w with
  | nil => intro s cur; simp
  | cons c w ih =>
    intro s cur
    have hc : c ≠ SLASH := hw c (List.mem_cons_self _ _)
    have h := ih (fun x hx => hw x (List.mem_cons_of_mem _ hx)) s (cur ++ [c])
    simp only [List.cons_append, strtok_all, hc, if_false]
    simpa using h

theorem strtok_all_snoc_slash (a : List Char) :
    ∀ cur : List Char, strtok_all (a ++ [SLASH]) cur = strtok_all a cur := by
  induction a with
  | nil =>
    intro cur
    by_cases h : cur = [] <;> simp [strtok_all, h]
  | cons c a ih =>
    intro cur
    simp only [List.cons_append, strtok_all]
    split_ifs <;> simp [ih]

theorem strtok_all_trailing (a : List Char) (k : Nat) (cur : List Char) :
    strtok_all (a ++ List.replicate k SLASH) cur = strtok_all a cur := by
  induction k with
  | zero => simp
  | succ k ih =>
    rw [List.replicate_succ', ← List.append_assoc, strtok_all_snoc_slash, ih]

theorem strtok_all_split (a : List Char) :
    ∀ (rest cur : List Char),
      strtok_all (a ++ SLASH :: rest) cur = strtok_all a cur ++ strtok_all rest [] := by
  induction a with
  | nil =>
    intro rest cur
    by_cases h : cur = [] <;> simp [strtok_all, h]
  | cons c a ih =>
    intro rest cur
    simp only [List.cons_append, strtok_all]
    split_ifs <;> simp [ih]

theorem strip_trailing_slashes_spec (p : List Char) :
    ∃ k, p = strip_trailing_slashes p ++ List.replicate k SLASH := by
  refine ⟨(p.reverse.takeWhile (fun c => c == SLASH)).length, ?_⟩
  have h := List.takeWhile_append_dropWhile (fun c => c == SLASH) p.reverse
  have h2 : p = (p.reverse.dropWhile (fun c => c == SLASH)).reverse ++
      (p.reverse.takeWhile (fun c => c == SLASH)).reverse := by
    rw [← List.reverse_append, h, List.reverse_reverse]
  have h3 : (p.reverse.takeWhile (fun c => c == SLASH)).reverse =
      List.replicate (p.reverse.takeWhile (fun c => c == SLASH)).length SLASH := by
    rw [List.eq_replicate_iff]
    refine ⟨by simp, ?_⟩
    intro b hb
    have := List.mem_takeWhile_imp (List.mem_reverse.1 hb)
    simpa using this
  unfold strip_trailing_slashes
  rw [← h3]
  exact h2

theorem path_components_strip (p : List Char) :
    path_components (strip_trailing_slashes p) = path_components p := by
  obtain ⟨k, hk⟩ := strip_trailing_slashes_spec p
  conv_rhs => rw [hk]
  unfold path_components
  rw [strtok_all_trailing]

theorem path_components_dirname_basename (p : List Char) (habs : p.head? = some SLASH) :
    (path_components p = [] ∧ path_components (dirname p) = []) ∨
    (path_components p = path_components (dirname p) ++ [basename p]) := by
  have hp : p ≠ [] := by
    intro h; rw [h] at habs; simp at habs
  obtain ⟨k, hk⟩ := strip_trailing_slashes_spec p
  by_cases hq : strip_trailing_slashes p = []
  · left
    constructor
    · rw [← path_components_strip, hq]; rfl
    · simp only [dirname, hp, hq, if_false, if_true]
      decide
  · right
    have hsplit := List.takeWhile_append_dropWhile (fun c => c != SLASH)
      (strip_trailing_slashes p).reverse
    -- the last component
    have hw : (strip_trailing_slashes p).reverse.takeWhile (fun c => c != SLASH) ≠ [] := by
      have hne : p.reverse.dropWhile (fun c => c == SLASH) ≠ [] := by
        intro h
        apply hq
        simp [strip_trailing_slashes, h]
      have hhead := List.head_dropWhile_not (fun c => c == SLASH) p.reverse hne
      have hrev : (strip_trailing_slashes p).reverse = p.reverse.dropWhile (fun c => c == SLASH) := by
        simp [strip_trailing_slashes]
      rw [hrev]
      cases hd : p.reverse.dropWhile (fun c => c == SLASH) with
      | nil => exact absurd hd hne
      | cons x rest =>
        simp only [hd, List.head_cons] at hhead
        have hxs : x ≠ SLASH := fun h => by simp [h] at hhead
        simp [List.takeWhile_cons, hxs]
    have hnoslash : ∀ c ∈ ((strip_trailing_slashes p).reverse.takeWhile
        (fun c => c != SLASH)).reverse, c ≠ SLASH := by
      intro c hc
      have := List.mem_takeWhile_imp (List.mem_reverse.1 hc)
      simpa using this
    -- the part before it ends with a slash
    have hd : (strip_trailing_slashes p).reverse.dropWhile (fun c => c != SLASH) ≠ [] := by
      intro h
      rw [h, List.append_nil] at hsplit
      have hall : ∀ c ∈ strip_trailing_slashes p, c ≠ SLASH := by
        intro c hc
        have hc' : c ∈ (strip_trailing_slashes p).reverse.takeWhile (fun c => c != SLASH) := by
          rw [hsplit]; exact List.mem_reverse.2 hc
        simpa using List.mem_takeWhile_imp hc'
      cases hqq : strip_trailing_slashes p with
      | nil => exact hq hqq
      | cons x rest =>
        rw [hqq] at hk
        rw [hk] at habs
        simp only [List.cons_append, List.head?_cons, Option.some.injEq] at habs
        exact hall x (by rw [hqq]; exact List.mem_cons_self _ _) habs
    obtain ⟨x, rest, hxr⟩ := List.exists_cons_of_ne_nil hd
    have hx : x = SLASH := by
      have := List.head_dropWhile_not (fun c => c != SLASH) (strip_trailing_slashes p).reverse hd
      simp only [hxr, List.head_cons] at this
      simpa using this
    subst hx
    have hqdecomp : strip_trailing_slashes p = rest.reverse ++ SLASH ::
        ((strip_trailing_slashes p).reverse.takeWhile (fun c => c != SLASH)).reverse := by
      have := congrArg List.reverse hsplit
      rw [List.reverse_append, List.reverse_reverse, hxr, List.reverse_cons,
        List.append_assoc] at this
      simpa using this.symm
    have hbase : basename p =
        ((strip_trailing_slashes p).reverse.takeWhile (fun c => c != SLASH)).reverse := by
      simp only [basename, hp, hq, if_false]
    have hcomp : path_components p = path_components rest.reverse ++ [basename p] := by
      rw [← path_components_strip p]
      conv_lhs => rw [hqdecomp]
      unfold path_components
      rw [strtok_all_split, hbase]
      congr 1
      have := strtok_all_noslash _ hnoslash [] []
      rw [List.append_nil, List.nil_append, strtok_all_nil] at this
      rw [this, if_neg]
      simpa using hw
    have hdir : path_components (dirname p) = path_components rest.reverse := by
      have hstrip : strip_trailing_slashes (rest.reverse ++ [SLASH]) =
          ((SLASH :: rest).dropWhile (fun c => c == SLASH)).reverse := by
        simp [strip_trailing_slashes]
      have : path_components (rest.reverse ++ [SLASH]) = path_components rest.reverse := by
        unfold path_components
        rw [strtok_all_snoc_slash]
      have h1 : path_components rest.reverse =
          path_components ((SLASH :: rest).dropWhile (fun c => c == SLASH)).reverse := by
        rw [← hstrip, path_components_strip, this]
      by_cases he : ((SLASH :: rest).dropWhile (fun c => c == SLASH)).reverse = []
      · simp only [dirname, hp, hq, if_false, hxr, he, if_true, reduceCtorEq]
        rw [h1, he]
        decide
      · simp only [dirname, hp, hq, if_false, hxr, he, reduceCtorEq]
        rw [h1]
    rw [hcomp, hdir]

theorem walk_append (tree : List TreeRow) (cs ds : List (List Char)) :
    ∀ rows, walk tree (cs ++ ds) rows = walk tree ds (walk tree cs rows) := by
  induction cs with
  | nil => intro rows; rfl
  | cons c cs ih =>
    intro rows
    rw [List.cons_append]
    simp only [walk]
    exact ih _

theorem walk_nil_rows (tree : List TreeRow) (cs : List (List Char)) :
    walk tree cs [] = [] := by
  induction cs with
  | nil => rfl
  | cons c cs ih => simp only [walk, List.flatMap_nil, ih]

theorem walk_mono (tree l : List TreeRow) (cs : List (List Char)) :
    ∀ rows rows' : List TreeRow, (∀ t ∈ rows, t ∈ rows') →
      ∀ t ∈ walk tree cs rows, t ∈ walk (tree ++ l) cs rows' := by
  induction cs with
  | nil => intro rows rows' h t ht; exact h t ht
  | cons c cs ih =>
    intro rows rows' h t ht
    simp only [walk] at ht ⊢
    refine ih _ _ ?_ t ht
    intro u hu
    rw [List.mem_flatMap] at hu ⊢
    obtain ⟨a, ha, hua⟩ := hu
    refine ⟨a, h a ha, ?_⟩
    rw [List.mem_filter] at hua ⊢
    exact ⟨List.mem_append_left _ hua.1, hua.2⟩

theorem flatMap_filter_of_nil {α β : Type} (l : List α) (keep : α → Bool) (g : α → List β)
    (h : ∀ a ∈ l, keep a = false → g a = []) :
    l.flatMap g = (l.filter keep).flatMap g := by
  induction l with
  | nil => rfl
  | cons a l ih =>
    have ih' := ih (fun x hx => h x (List.mem_cons_of_mem _ hx))
    by_cases hk : keep a = true
    · simp only [List.flatMap_cons, List.filter_cons, hk, if_true, ih']
    · have hk' : keep a = false := by simpa using hk
      simp only [List.flatMap_cons, List.filter_cons, hk', Bool.false_eq_true, if_false,
        h a (List.mem_cons_self _ _) hk', List.nil_append, ih']

/-- Resolution in a tree with one more entry, when the new entry has no children:
the chains that do not end in the new entry are those of the old tree. -/
theorem walk_insert (tree : List TreeRow) (new : TreeRow) (hnew : new ∉ tree)
    (hnc : ∀ t ∈ tree, t.parent ≠ some new.inode) (cs : List (List Char)) :
    ∀ rows' : List TreeRow,
      (walk (tree ++ [new]) cs rows').filter (fun t => decide (t ≠ new)) =
        walk tree cs (rows'.filter (fun t => decide (t ≠ new))) := by
  induction cs with
  | nil => intro rows'; rfl
  | cons c cs ih =>
    intro rows'
    simp only [walk]
    rw [ih, List.filter_flatMap]
    congr 1
    have h1 : ∀ r : TreeRow, List.filter (fun t => decide (t ≠ new))
        (List.filter (fun t => decide (t.parent = some r.inode ∧ t.name = c)) (tree ++ [new])) =
        List.filter (fun t => decide (t.parent = some r.inode ∧ t.name = c)) tree := by
      intro r
      rw [List.filter_append, List.filter_append]
      have ha : List.filter (fun t => decide (t ≠ new))
          (List.filter (fun t => decide (t.parent = some r.inode ∧ t.name = c)) tree) =
          List.filter (fun t => decide (t.parent = some r.inode ∧ t.name = c)) tree := by
        apply List.filter_eq_self.2
        intro t ht
        have : t ∈ tree := (List.mem_filter.1 ht).1
        simp only [ne_eq, decide_eq_true_eq]
        intro h; exact hnew (h ▸ this)
      have hb : List.filter (fun t => decide (t ≠ new))
          (List.filter (fun t => decide (t.parent = some r.inode ∧ t.name = c)) [new]) = [] := by
        apply List.filter_eq_nil_iff.2
        intro t ht
        have : t ∈ [new] := (List.mem_filter.1 ht).1
        simp only [List.mem_singleton] at this
        simp [this]
      rw [ha, hb, List.append_nil]
    simp only [h1]
    apply flatMap_filter_of_nil
    intro a _ hka
    have : a = new := by simpa using hka
    subst this
    apply List.filter_eq_nil_iff.2
    intro t ht
    simp only [decide_eq_true_eq, not_and]
    intro hp
    exact absurd hp (hnc t ht)

/-- Resolution in a tree from which entries without children were removed. -/
theorem walk_remove (tree : List TreeRow) (q : TreeRow → Bool)
    (hq : ∀ r ∈ tree, q r = false → ∀ t ∈ tree, t.parent ≠ some r.inode)
    (cs : List (List Char)) :
    ∀ rows : List TreeRow, (∀ r ∈ rows, r ∈ tree) →
      walk (tree.filter q) cs (rows.filter q) = (walk tree cs rows).filter q := by
  induction cs with
  | nil => intro rows _; rfl
  | cons c cs ih =>
    intro rows hrows
    simp only [walk]
    rw [← ih, List.filter_flatMap]
    · congr 1
      rw [← flatMap_filter_of_nil rows q]
      · congr 1
        funext r
        rw [List.filter_filter, List.filter_filter]
        apply List.filter_congr
        intro x _
        exact Bool.and_comm _ _
      · intro a ha hqa
        apply List.filter_eq_nil_iff.2
        intro t ht
        have htt : t ∈ tree := (List.mem_filter.1 ht).1
        simp only [decide_eq_true_eq, not_and]
        intro hp
        exact absurd hp (hq a (hrows a ha) hqa t htt)
    · intro r hr
      rw [List.mem_flatMap] at hr
      obtain ⟨a, _, hra⟩ := hr
      exact (List.mem_filter.1 hra).1

theorem length_le_length_flatMap {α β : Type} (l : List α) (g : α → List β) (a : α)
    (ha : a ∈ l) : (g a).length ≤ (l.flatMap g).length := by
  induction l with
  | nil => exact absurd ha (List.not_mem_nil _)
  | cons x l ih =>
    simp only [List.flatMap_cons, List.length_append]
    rcases List.mem_cons.1 ha with rfl | h
    · omega
    · have := ih h; omega

theorem length_filter_partition {α : Type} (l : List α) (q : α → Bool) :
    l.length = (l.filter q).length + (l.filter (fun x => !q x)).length := by
  induction l with
  | nil => rfl
  | cons x l ih =>
    by_cases hx : q x = true
    · simp only [List.filter_cons, hx, if_true, Bool.not_true, Bool.false_eq_true, if_false,
        List.length_cons]
      omega
    · have hx' : q x = false := by simpa using hx
      simp only [List.filter_cons, hx', Bool.false_eq_true, if_false, Bool.not_false, if_true,
        List.length_cons]
      omega

theorem query_inode_full_error_neg {db : DB} {path : List Char} {e : Int}
    (h : query_inode_full db path = Except.error e) : e < 0 := by
  unfold query_inode_full at h
  split at h
  · simp only [Except.error.injEq] at h
    rw [← h]; decide
  · split at h
    · simp at h
    · simp only [Except.error.injEq] at h
      rw [← h]; decide

theorem query_inode_nonneg {db : DB} {path : List Char} (h : 0 ≤ query_inode db path) :
    ∃ r, query_inode_full db path = Except.ok r ∧ r.inode = query_inode db path := by
  unfold query_inode at h ⊢
  split at h
  · exact absurd h (by decide)
  · rename_i hlen
    rw [if_neg hlen]
    cases hq : query_inode_full db path with
    | error e =>
      rw [hq] at h
      simp only at h
      have := query_inode_full_error_neg hq
      omega
    | ok r => exact ⟨r, rfl, rfl⟩

theorem mysqlfs_link_ok {db : DB} {from_ to_ : List Char}
    (h : (mysqlfs_link db from_ to_).1 = 0) :
    0 ≤ query_inode db from_ ∧ 0 ≤ query_inode db (dirname to_) ∧
    (mysqlfs_link db from_ to_).2.tree = db.tree ++
      [{ name := mysql_real_escape_string (basename to_),
         parent := some (query_inode db (dirname to_)), inode := query_inode db from_ }] ∧
    (mysqlfs_link db from_ to_).2.inodes = db.inodes ∧
    (mysqlfs_link db from_ to_).2.data_blocks = db.data_blocks := by
  unfold mysqlfs_link at h ⊢
  simp only at h ⊢
  by_cases h1 : query_inode db from_ < 0
  · rw [if_pos h1] at h
    simp only at h
    omega
  · rw [if_neg h1] at h ⊢
    by_cases h2 : query_inode db (dirname to_) < 0
    · rw [if_pos h2] at h
      simp only at h
      omega
    · rw [if_neg h2]
      exact ⟨by omega, by omega, rfl, rfl, rfl⟩

/-- C6: deferred purge.  When `mysqlfs_unlink` removes the only directory entry of an
inode whose rows carry `inuse = k` (the path is not the root and the inode has no
child entry), it returns 0; for `k = 0` no row of the inode is left; for `k > 0` the
rows of the inode are kept with `deleted = 1`, after `j < k` calls of
`mysqlfs_release` they are still there with `inuse = k - j`, and after the `k`-th call
none is left. -/
theorem unlink_deferred_purge (db : DB) (path : List Char) (r : inode_full) (k : Nat)
    (hres : query_inode_full db path = Except.ok r) (hlast : r.nlinks = 1)
    (hne : path_components path ≠ [])
    (hnochild : ∀ t ∈ db.tree, t.parent ≠ some r.inode)
    (hk : ∀ row ∈ inode_rows db r.inode, row.inuse = (k : Int)) :
    (mysqlfs_unlink db path).1 = 0 ∧
    (k = 0 → inode_rows (mysqlfs_unlink db path).2 r.inode = []) ∧
    (0 < k →
      (∀ j, j < k →
        inode_rows (release_times r.inode j (mysqlfs_unlink db path).2) r.inode =
          (inode_rows db r.inode).map
            (fun row => { row with deleted := 1, inuse := ((k - j : Nat) : Int) })) ∧
      inode_rows (release_times r.inode k (mysqlfs_unlink db path).2) r.inode = []) := by
  have hrows : inode_rows (mysqlfs_unlink db path).2 r.inode =
      if (k : Int) = 0 then []
      else (inode_rows db r.inode).map (fun row => { row with deleted := 1, inuse := (k : Int) }) := by
    unfold inode_rows
    rw [mysqlfs_unlink_last_inodes db path r hres hnochild hlast hne]
    exact inode_rows_unlink_last db.inodes r.inode k (by
      intro row hrow hi
      exact hk row (List.mem_filter.2 ⟨hrow, by simpa using hi⟩))
  refine ⟨(mysqlfs_unlink_empty db path r hres hnochild).1, ?_, ?_⟩
  · intro hk0
    rw [hrows, if_pos (by exact_mod_cast hk0)]
  · intro hkpos
    have hk0 : ¬ ((k : Int) = 0) := by omega
    rw [if_neg hk0] at hrows
    obtain ⟨h1, h2⟩ := release_times_rows (inode_rows db r.inode) r.inode k k
      (mysqlfs_unlink db path).2 hrows
    refine ⟨?_, h2 rfl hkpos⟩
    intro j hj
    exact (release_times_rows (inode_rows db r.inode) r.inode j k
      (mysqlfs_unlink db path).2 hrows).1 hj

/-- Witness of C6: open, unlink, write, release on `/a`: after `unlink` the inode row
is kept with `deleted = 1` and `inuse = 1`, after the release it is gone, also when a
write goes through the handle in between. -/
theorem unlink_deferred_purge_witness :
    (mysqlfs_unlink db_open "/a".toList).1 = 0 ∧
    inode_rows (mysqlfs_unlink db_open "/a".toList).2 2 =
      [{ inode := 2, mode := 0o100644, uid := 0, gid := 0, atime := 0, mtime := 0,
         ctime := 0, size := 0, inuse := 1, deleted := 1 }] ∧
    inode_rows (mysqlfs_release (mysqlfs_unlink db_open "/a".toList).2 2).2 2 = [] ∧
    inode_rows (mysqlfs_release (mysqlfs_write (mysqlfs_unlink db_open "/a".toList).2 2
      ['z'] 1 0).2 2).2 2 = [] := by
  have h := unlink_deferred_purge db_open "/a".toList
    { inode := 2, name := ['a'], parent := 1, nlinks := 1 } 1
    (by decide) (by decide) (by decide) (by decide) (by decide)
  exact ⟨h.1, (h.2.2 (by decide)).1 0 (by decide), (h.2.2 (by decide)).2, by decide⟩

/-- C8 (counterexample): in the file system holding `/` and `/a`, `unlink("/")` is
rejected with `-ENOTEMPTY`; once `/a` is unlinked no entry has the root as parent and
`unlink("/")` returns 0, but the root entry is still in `tree`. -/
theorem unlink_root_counterexample :
    mysqlfs_unlink db_fresh "/".toList = (-ENOTEMPTY, db_fresh) ∧
    (mysqlfs_unlink db_fresh "/a".toList).1 = 0 ∧
    (∀ t ∈ (mysqlfs_unlink db_fresh "/a".toList).2.tree, t.parent ≠ some 1) ∧
    (mysqlfs_unlink (mysqlfs_unlink db_fresh "/a".toList).2 "/".toList).1 = 0 ∧
    (mysqlfs_unlink (mysqlfs_unlink db_fresh "/a".toList).2 "/".toList).2.tree =
      [{ name := ['/'], parent := none, inode := 1 }] := by decide

/-- C8 (amended): for every path that resolves, `mysqlfs_unlink` returns `-ENOTEMPTY`
and leaves the database unchanged when the inode is the parent of a `tree` row; when
no `tree` row has the inode as parent it returns 0 and, the path not being the root,
the entry found (name, parent, inode) was in `tree` and no entry with that name and
parent is left. -/
theorem unlink_directory (db : DB) (path : List Char) (r : inode_full)
    (hres : query_inode_full db path = Except.ok r) :
    ((∃ t ∈ db.tree, t.parent = some r.inode) →
      mysqlfs_unlink db path = (-ENOTEMPTY, db)) ∧
    ((∀ t ∈ db.tree, t.parent ≠ some r.inode) →
      (mysqlfs_unlink db path).1 = 0 ∧
      (path_components path ≠ [] →
        ({ name := r.name, parent := some r.parent, inode := r.inode } : TreeRow) ∈ db.tree ∧
        ∀ t ∈ (mysqlfs_unlink db path).2.tree,
          ¬ (t.name = r.name ∧ t.parent = some r.parent))) := by
  refine ⟨mysqlfs_unlink_notempty db path r hres, ?_⟩
  intro hnochild
  obtain ⟨h1, h2, _, _⟩ := mysqlfs_unlink_empty db path r hres hnochild
  refine ⟨h1, ?_⟩
  intro hne
  obtain ⟨row, _, hmem, hi, hname, _, _, hpar⟩ := resolved_row hres
  constructor
  · have hp := hpar hne
    have : row = { name := r.name, parent := some r.parent, inode := r.inode } := by
      rcases row with ⟨n, p, ino⟩
      simp only at hi hname hp
      rw [hi, hname, hp]
    rw [← this]; exact hmem
  · intro t ht
    rw [h2] at ht
    have := (List.mem_filter.1 ht).2
    simp only [Bool.not_eq_true', decide_eq_false_iff_not] at this
    exact this

/-- Witness of C8: `mkdir /d`, `mknod /d/f`; `unlink /d` fails with `-ENOTEMPTY` and
changes nothing; `unlink /d/f` and then `unlink /d` return 0 and the entry `d` is
gone. -/
theorem unlink_directory_witness :
    mysqlfs_unlink db_df "/d".toList = (-ENOTEMPTY, db_df) ∧
    (mysqlfs_unlink db_df "/d/f".toList).1 = 0 ∧
    (mysqlfs_unlink (mysqlfs_unlink db_df "/d/f".toList).2 "/d".toList).1 = 0 ∧
    ∀ t ∈ (mysqlfs_unlink (mysqlfs_unlink db_df "/d/f".toList).2 "/d".toList).2.tree,
      ¬ (t.name = ['d'] ∧ t.parent = some 1) :=
  ⟨(unlink_directory db_df "/d".toList { inode := 2, name := ['d'], parent := 1, nlinks := 1 }
      (by decide)).1 ⟨{ name := ['f'], parent := some 2, inode := 3 }, by decide, rfl⟩,
    by decide,
    ((unlink_directory (mysqlfs_unlink db_df "/d/f".toList).2 "/d".toList
      { inode := 2, name := ['d'], parent := 1, nlinks := 1 } (by decide)).2 (by decide)).1,
    (((unlink_directory (mysqlfs_unlink db_df "/d/f".toList).2 "/d".toList
      { inode := 2, name := ['d'], parent := 1, nlinks := 1 } (by decide)).2 (by decide)).2
      (by decide)).2⟩

/-- C9 (evaluation at the failing input): `rename("/a", "/a")` on the file system
holding the file `/a` returns 0, and afterwards `/a` does not resolve and its inode row
is gone: the preliminary `mysqlfs_unlink(to)` has removed the file. -/
theorem rename_same_path_removes_entry :
    query_inode_full db_fresh "/a".toList =
      Except.ok { inode := 2, name := ['a'], parent := 1, nlinks := 1 } ∧
    (mysqlfs_rename db_fresh "/a".toList "/a".toList stat_zero).1 = 0 ∧
    query_inode_full (mysqlfs_rename db_fresh "/a".toList "/a".toList stat_zero).2
      "/a".toList = Except.error (-ENOENT) ∧
    inode_rows (mysqlfs_rename db_fresh "/a".toList "/a".toList stat_zero).2 2 = [] := by
  decide

/-- C10 (counterexample): `/d` exists and is an (empty) directory, and
`rename("/a", "/d")` returns 0, not `-EEXIST`. -/
theorem rename_onto_empty_directory_counterexample :
    query_getattr db_dir "/d".toList = Except.ok
      { st_ino := 3, st_mode := 0o040755, st_uid := 0, st_gid := 0, st_ctime := 0,
        st_atime := 0, st_mtime := 0, st_size := 0, st_nlink := 1 } ∧
    S_ISDIR 0o040755 = true ∧
    (mysqlfs_rename db_dir "/a".toList "/d".toList stat_zero).1 = 0 ∧
    (mysqlfs_rename db_dir "/a".toList "/d".toList stat_zero).1 ≠ -EEXIST := by decide

/-- C10 (amended): for every path `to_` that exists, is a directory and has at least
one child entry, and every `from_`, `mysqlfs_rename(from_, to_)` returns `-EEXIST` and
leaves the database as it was, so `to_` is still there. -/
theorem rename_onto_nonempty_directory (db : DB) (from_ to_ : List Char) (junk st : stat)
    (hget : query_getattr db to_ = Except.ok st) (hdir : S_ISDIR st.st_mode = true)
    (hchild : ∃ t ∈ db.tree, t.parent = some st.st_ino) :
    mysqlfs_rename db from_ to_ junk = (-EEXIST, db) ∧
    query_getattr (mysqlfs_rename db from_ to_ junk).2 to_ = Except.ok st := by
  obtain ⟨r, hr, hri⟩ := query_getattr_ok hget
  have hun := mysqlfs_unlink_notempty db to_ r hr (by rw [hri]; exact hchild)
  have h1 : mysqlfs_rename db from_ to_ junk = (-EEXIST, db) := by
    unfold mysqlfs_rename
    simp only [hun]
    unfold query_rename
    simp only [hget, hdir]
    simp
  rw [h1]
  exact ⟨rfl, hget⟩

/-- Witness of C10: renaming `/d/f` onto its non-empty parent directory `/d`. -/
theorem rename_onto_nonempty_directory_witness :
    mysqlfs_rename db_df "/d/f".toList "/d".toList stat_zero = (-EEXIST, db_df) ∧
    query_getattr (mysqlfs_rename db_df "/d/f".toList "/d".toList stat_zero).2 "/d".toList =
      Except.ok
        { st_ino := 2, st_mode := 0o040755, st_uid := 0, st_gid := 0, st_ctime := 0,
          st_atime := 0, st_mtime := 0, st_size := 0, st_nlink := 1 } :=
  rename_onto_nonempty_directory db_df "/d/f".toList "/d".toList stat_zero _
    (by decide) (by decide) ⟨{ name := ['f'], parent := some 2, inode := 3 }, by decide, rfl⟩

/-! ### Lemmas on hard links -/

theorem resolve_rows_insert_start (tree : List TreeRow) (new : TreeRow)
    (hp : new.parent ≠ none) :
    (tree ++ [new]).filter (fun t => decide (t.parent = none)) =
      tree.filter (fun t => decide (t.parent = none)) := by
  rw [List.filter_append]
  simp [hp]

/-- The entry found for a path with at least one component: every entry of the tree
with its name and parent is that entry, and the tree holds it once. -/
theorem resolved_row_unique {tree : List TreeRow} {cs : List (List Char)} {rx : TreeRow}
    (hcs : cs ≠ []) (h : resolve_rows tree cs = [rx]) :
    tree.filter (fun t => decide (t.name = rx.name ∧ t.parent = rx.parent)) = [rx] := by
  obtain ⟨cs', cx, rfl⟩ : ∃ cs' cx, cs = cs' ++ [cx] :=
    ⟨cs.dropLast, cs.getLast hcs, (List.dropLast_append_getLast hcs).symm⟩
  unfold resolve_rows at h
  rw [walk_append] at h
  simp only [walk] at h
  have hmem : rx ∈ (walk tree cs' (tree.filter (fun t => decide (t.parent = none)))).flatMap
      (fun r => tree.filter (fun t => decide (t.parent = some r.inode ∧ t.name = cx))) := by
    rw [h]; exact List.mem_cons_self _ _
  rw [List.mem_flatMap] at hmem
  obtain ⟨r0, hr0, hrx⟩ := hmem
  have hkey : rx.parent = some r0.inode ∧ rx.name = cx := by
    simpa using (List.mem_filter.1 hrx).2
  have hlen := length_le_length_flatMap _
    (fun r => tree.filter (fun t => decide (t.parent = some r.inode ∧ t.name = cx))) r0 hr0
  rw [h] at hlen
  simp only [List.length_singleton] at hlen
  have hfil : tree.filter (fun t => decide (t.parent = some r0.inode ∧ t.name = cx)) = [rx] := by
    cases hf : tree.filter (fun t => decide (t.parent = some r0.inode ∧ t.name = cx)) with
    | nil => rw [hf] at hrx; exact absurd hrx (List.not_mem_nil _)
    | cons a l =>
      rw [hf] at hlen hrx
      cases l with
      | nil =>
        simp only [List.mem_singleton] at hrx
        rw [hrx]
      | cons b l2 => simp at hlen
  rw [← hfil]
  apply List.filter_congr
  intro t _
  rw [hkey.1, hkey.2]
  simp only [decide_eq_decide]
  exact ⟨fun ⟨a, b⟩ => ⟨b, a⟩, fun ⟨a, b⟩ => ⟨b, a⟩⟩

theorem query_inode_full_ok_any {db : DB} {path : List Char} {r : inode_full}
    (h : query_inode_full db path = Except.ok r) :
    (path_components path).any (fun c => decide (c.length > 255)) = false := by
  unfold query_inode_full at h
  split at h
  · simp at h
  · rename_i hany
    simpa using hany

theorem query_inode_full_of_rows {db : DB} {path : List Char} {row : TreeRow}
    (hany : (path_components path).any (fun c => decide (c.length > 255)) = false)
    (hrows : resolve_rows db.tree (path_components path) = [row]) :
    query_inode_full db path = Except.ok
      { inode := row.inode, name := row.name, parent := row.parent.getD (-1),
        nlinks := count_links db.tree row.inode } := by
  unfold query_inode_full
  rw [hany, hrows]
  simp

theorem query_read_congr {db db' : DB} (h : db'.data_blocks = db.data_blocks) (i : Int)
    (buf : List Char) (n off : Nat) : query_read db' i buf n off = query_read db i buf n off := by
  unfold query_read query_read_bytes select_blocks
  rw [h]

/-- The tree after `link(x, y)` then `unlink(x)`, under the conditions of the claim. -/
theorem link_unlink_core (tree : List TreeRow) (csx csd : List (List Char)) (b : List Char)
    (rx rd new : TreeRow) (hcsx : csx ≠ [])
    (hRx : resolve_rows tree csx = [rx]) (hRd : resolve_rows tree csd = [rd])
    (hy0 : resolve_rows tree (csd ++ [b]) = [])
    (hnn : new.name = b) (hnp : new.parent = some rd.inode) (hni : new.inode = rx.inode)
    (H : ∀ t ∈ tree ++ [new], t.parent ≠ some rx.inode) :
    resolve_rows ((tree ++ [new]).filter
        (fun t => !decide (t.name = rx.name ∧ t.parent = rx.parent))) (csd ++ [b]) = [new] ∧
    count_links ((tree ++ [new]).filter
        (fun t => !decide (t.name = rx.name ∧ t.parent = rx.parent))) rx.inode =
      count_links tree rx.inode := by
  have hHtree : ∀ t ∈ tree, t.parent ≠ some rx.inode :=
    fun t ht => H t (List.mem_append_left _ ht)
  -- no old entry is called `b` in the directory of `y`
  have hfil : tree.filter (fun t => decide (t.parent = some rd.inode ∧ t.name = b)) = [] := by
    unfold resolve_rows at hy0 hRd
    rw [walk_append, hRd] at hy0
    simpa [walk] using hy0
  have hnew : new ∉ tree := by
    intro hmem
    have : new ∈ tree.filter (fun t => decide (t.parent = some rd.inode ∧ t.name = b)) :=
      List.mem_filter.2 ⟨hmem, by simp [hnn, hnp]⟩
    rw [hfil] at this
    exact absurd this (List.not_mem_nil _)
  have hrxmem : rx ∈ tree := resolve_rows_mem (by rw [hRx]; exact List.mem_cons_self _ _)
  have huniq := resolved_row_unique hcsx hRx
  -- the new entry is not the one `unlink` removes
  have hqnew : ¬ (new.name = rx.name ∧ new.parent = rx.parent) := by
    rintro ⟨h1, h2⟩
    have : rx ∈ tree.filter (fun t => decide (t.parent = some rd.inode ∧ t.name = b)) :=
      List.mem_filter.2 ⟨hrxmem, by simp [← h1, ← h2, hnn, hnp]⟩
    rw [hfil] at this
    exact absurd this (List.not_mem_nil _)
  -- resolution of `y` after the link
  have hstart : (tree ++ [new]).filter (fun t => decide (t.parent = none)) =
      tree.filter (fun t => decide (t.parent = none)) :=
    resolve_rows_insert_start tree new (by rw [hnp]; simp)
  have hG1 : resolve_rows (tree ++ [new]) (csd ++ [b]) = [new] := by
    unfold resolve_rows
    rw [walk_append, hstart]
    simp only [walk]
    rw [flatMap_filter_of_nil _ (fun t => decide (t ≠ new))]
    · rw [walk_insert tree new hnew (by rw [hni]; exact hHtree)]
      have hs : (tree.filter (fun t => decide (t.parent = none))).filter
          (fun t => decide (t ≠ new)) = tree.filter (fun t => decide (t.parent = none)) := by
        apply List.filter_eq_self.2
        intro t ht
        have : t ∈ tree := (List.mem_filter.1 ht).1
        simp only [ne_eq, decide_eq_true_eq]
        intro h; exact hnew (h ▸ this)
      rw [hs]
      unfold resolve_rows at hRd
      rw [hRd]
      simp only [List.flatMap_cons, List.flatMap_nil, List.append_nil, List.filter_append, hfil,
        List.nil_append]
      simp [hnn, hnp]
    · intro a _ hka
      have : a = new := by simpa using hka
      subst this
      apply List.filter_eq_nil_iff.2
      intro t ht
      simp only [decide_eq_true_eq, not_and]
      intro hp
      rw [hni] at hp
      exact absurd hp (H t ht)
  -- the entries `unlink` removes have no children
  have hq : ∀ r ∈ tree ++ [new],
      (!decide (r.name = rx.name ∧ r.parent = rx.parent)) = false →
      ∀ t ∈ tree ++ [new], t.parent ≠ some r.inode := by
    intro r hr hqr
    have hkey : r.name = rx.name ∧ r.parent = rx.parent := by simpa using hqr
    rcases List.mem_append.1 hr with hrt | hrn
    · have : r ∈ tree.filter (fun t => decide (t.name = rx.name ∧ t.parent = rx.parent)) :=
        List.mem_filter.2 ⟨hrt, by simpa using hkey⟩
      rw [huniq, List.mem_singleton] at this
      rw [this]
      exact H
    · rw [List.mem_singleton] at hrn
      rw [hrn] at hkey
      exact absurd hkey hqnew
  constructor
  · unfold resolve_rows
    have hcomm : ((tree ++ [new]).filter
        (fun t => !decide (t.name = rx.name ∧ t.parent = rx.parent))).filter
        (fun t => decide (t.parent = none)) =
        ((tree ++ [new]).filter (fun t => decide (t.parent = none))).filter
        (fun t => !decide (t.name = rx.name ∧ t.parent = rx.parent)) := by
      rw [List.filter_filter, List.filter_filter]
      apply List.filter_congr
      intro t _
      exact Bool.and_comm _ _
    rw [hcomm, walk_remove (tree ++ [new]) _ hq (csd ++ [b]) _
      (fun r hr => (List.mem_filter.1 hr).1)]
    unfold resolve_rows at hG1
    rw [hG1]
    have hqb : (!decide (new.name = rx.name ∧ new.parent = rx.parent)) = true := by
      rw [decide_eq_false hqnew]; rfl
    simp only [List.filter_cons, hqb, if_true, List.filter_nil]
  · unfold count_links
    have hqb : (!decide (new.name = rx.name ∧ new.parent = rx.parent)) = true := by
      rw [decide_eq_false hqnew]; rfl
    have hpart := length_filter_partition (tree.filter (fun t => decide (t.inode = rx.inode)))
      (fun t => !decide (t.name = rx.name ∧ t.parent = rx.parent))
    have hrem : (tree.filter (fun t => decide (t.inode = rx.inode))).filter
        (fun x => !(!decide (x.name = rx.name ∧ x.parent = rx.parent))) = [rx] := by
      rw [List.filter_filter]
      have : tree.filter (fun a => (!(!decide (a.name = rx.name ∧ a.parent = rx.parent))) &&
          decide (a.inode = rx.inode)) =
          (tree.filter (fun t => decide (t.name = rx.name ∧ t.parent = rx.parent))).filter
            (fun t => decide (t.inode = rx.inode)) := by
        rw [List.filter_filter]
        apply List.filter_congr
        intro t _
        rw [Bool.not_not, Bool.and_comm]
      rw [this, huniq]
      simp
    rw [hrem] at hpart
    have hcomm : (tree.filter (fun t => !decide (t.name = rx.name ∧ t.parent = rx.parent))).filter
        (fun t => decide (t.inode = rx.inode)) =
        (tree.filter (fun t => decide (t.inode = rx.inode))).filter
        (fun t => !decide (t.name = rx.name ∧ t.parent = rx.parent)) := by
      rw [List.filter_filter, List.filter_filter]
      apply List.filter_congr
      intro t _
      exact Bool.and_comm _ _
    rw [List.filter_append, List.filter_append, hcomm]
    simp only [List.filter_cons, hqb, if_true, List.filter_nil, hni, decide_True,
      List.length_append, List.length_singleton]
    rw [hpart]
    simp

theorem mysqlfs_unlink_zero {db : DB} {path : List Char} (h : (mysqlfs_unlink db path).1 = 0) :
    ∃ r, query_inode_full db path = Except.ok r ∧ ∀ t ∈ db.tree, t.parent ≠ some r.inode := by
  cases hq : query_inode_full db path with
  | error e =>
    have hneg := query_inode_full_error_neg hq
    unfold mysqlfs_unlink at h
    rw [hq] at h
    simp only at h
    omega
  | ok r =>
    refine ⟨r, rfl, ?_⟩
    intro t ht hp
    have := mysqlfs_unlink_notempty db path r hq ⟨t, ht, hp⟩
    rw [this] at h
    simp only [ENOTEMPTY] at h
    omega

/-- C7 (counterexample): `/a` is an existing file that has a second name `/z`; after
`link("/a", "/y")` and `unlink("/a")` both succeed, `/y` resolves to the inode with link
count 2, not 1. -/
theorem link_count_counterexample :
    (mysqlfs_link db_two "/a".toList "/y".toList).1 = 0 ∧
    (mysqlfs_unlink (mysqlfs_link db_two "/a".toList "/y".toList).2 "/a".toList).1 = 0 ∧
    query_inode_full (mysqlfs_unlink (mysqlfs_link db_two "/a".toList "/y".toList).2
      "/a".toList).2 "/y".toList =
      Except.ok { inode := 2, name := ['y'], parent := 1, nlinks := 2 } := by decide

/-- C7 (amended): let `x` resolve to an inode with `c` links, and let `y` be an absolute
path that names no entry and whose base name has at most 255 characters, none of which
`mysql_real_escape_string` rewrites.  When `link(x, y)` and then `unlink(x)` succeed,
`y` resolves to the inode `x` had, with link count `c`; the `inodes` and `data_blocks`
relations are as before, so every read of the inode returns what it returned before. -/
theorem link_unlink (db : DB) (x y : List Char) (r : inode_full)
    (hx : query_inode_full db x = Except.ok r)
    (hy0 : resolve_rows db.tree (path_components y) = [])
    (habs : y.head? = some SLASH)
    (hesc : mysql_real_escape_string (basename y) = basename y)
    (hlen : (basename y).length ≤ 255)
    (hlink : (mysqlfs_link db x y).1 = 0)
    (hunlink : (mysqlfs_unlink (mysqlfs_link db x y).2 x).1 = 0) :
    query_inode_full (mysqlfs_unlink (mysqlfs_link db x y).2 x).2 y =
      Except.ok { inode := r.inode, name := basename y,
                  parent := query_inode db (dirname y), nlinks := r.nlinks } ∧
    (mysqlfs_unlink (mysqlfs_link db x y).2 x).2.inodes = db.inodes ∧
    (mysqlfs_unlink (mysqlfs_link db x y).2 x).2.data_blocks = db.data_blocks ∧
    ∀ buf n off, query_read (mysqlfs_unlink (mysqlfs_link db x y).2 x).2 r.inode buf n off =
      query_read db r.inode buf n off := by
  obtain ⟨hi0, hnp0, htree1, hino1, hblk1⟩ := mysqlfs_link_ok hlink
  obtain ⟨r', hr', hri'⟩ := query_inode_nonneg hi0
  rw [hx] at hr'
  have hrr : r = r' := Except.ok.inj hr'
  subst hrr
  obtain ⟨rdi, hrd, hrdi⟩ := query_inode_nonneg hnp0
  obtain ⟨rx, hRx, hrxmem, hrxi, hrxname, hnl, hrpar, hrxpar⟩ := resolved_row hx
  obtain ⟨rd, hRd, _, hrdi2, _, _, _, _⟩ := resolved_row hrd
  have hnp : query_inode db (dirname y) = rd.inode := by rw [← hrdi, hrdi2]
  have hinode : query_inode db x = rx.inode := by rw [← hri', hrxi]
  rw [hesc, hnp, hinode] at htree1
  generalize hnewdef : ({ name := basename y, parent := some rd.inode, inode := rx.inode } :
    TreeRow) = new at htree1
  have hnn : new.name = basename y := by rw [← hnewdef]
  have hnpar : new.parent = some rd.inode := by rw [← hnewdef]
  have hni : new.inode = rx.inode := by rw [← hnewdef]
  -- the components of `y`
  have hcomp : path_components y = path_components (dirname y) ++ [basename y] := by
    rcases path_components_dirname_basename y habs with ⟨h1, h2⟩ | h
    · rw [h1] at hy0
      rw [h2, hy0] at hRd
      simp at hRd
    · exact h
  rw [hcomp] at hy0
  -- `unlink(x)` after the link
  obtain ⟨r1, hx1, H⟩ := mysqlfs_unlink_zero hunlink
  obtain ⟨row1, hR1, _, hrow1i, hrow1n, hnl1, hr1par, _⟩ := resolved_row hx1
  have hrow1 : row1 = rx := by
    have hsub : rx ∈ resolve_rows (mysqlfs_link db x y).2.tree (path_components x) := by
      rw [htree1]
      unfold resolve_rows
      apply walk_mono db.tree [new] _ _ _ _ rx
      · have : rx ∈ resolve_rows db.tree (path_components x) := by
          rw [hRx]; exact List.mem_cons_self _ _
        exact this
      · intro t ht
        rw [List.mem_filter] at ht ⊢
        exact ⟨List.mem_append_left _ ht.1, ht.2⟩
    rw [hR1, List.mem_singleton] at hsub
    exact hsub.symm
  subst hrow1
  rw [htree1, ← hrow1i] at H
  -- `x` is not the root path
  have hcsx : path_components x ≠ [] := by
    intro hnil
    rw [hnil] at hRx
    unfold resolve_rows at hRx hRd
    simp only [walk] at hRx
    cases hcd : path_components (dirname y) with
    | nil =>
      rw [hcd] at hRd
      simp only [walk] at hRd
      rw [hRx] at hRd
      have : row1 = rd := by simpa using hRd
      apply H new (List.mem_append_right _ (List.mem_singleton.2 rfl))
      rw [hnpar, this]
    | cons c cs =>
      rw [hcd, hRx] at hRd
      simp only [walk, List.flatMap_cons, List.flatMap_nil, List.append_nil] at hRd
      have hnil2 : db.tree.filter (fun t => decide (t.parent = some row1.inode ∧ t.name = c)) = [] := by
        apply List.filter_eq_nil_iff.2
        intro t ht
        simp only [decide_eq_true_eq, not_and]
        intro hp
        exact absurd hp (H t (List.mem_append_left _ ht))
      rw [hnil2, walk_nil_rows] at hRd
      simp at hRd
  have hrxp := hrxpar hcsx
  obtain ⟨hcore1, hcore2⟩ := link_unlink_core db.tree (path_components x)
    (path_components (dirname y)) (basename y) row1 rd new hcsx hRx hRd hy0 hnn hnpar hni H
  -- the database after the unlink
  have hnl2 : r1.nlinks > 1 := by
    rw [hnl1, htree1, ← hrow1i]
    unfold count_links
    rw [List.filter_append]
    have h1 : 1 ≤ (db.tree.filter (fun t => decide (t.inode = row1.inode))).length := by
      apply List.length_pos_of_mem
      exact List.mem_filter.2 ⟨hrxmem, by simp⟩
    simp only [List.length_append, List.filter_cons, hni, decide_True, if_true,
      List.length_singleton, List.filter_nil]
    omega
  obtain ⟨_, u2, u3, u4⟩ := mysqlfs_unlink_empty (mysqlfs_link db x y).2 x r1 hx1
    (by rw [htree1, ← hrow1i]; exact H)
  have hkey : (fun t : TreeRow => !decide (t.name = r1.name ∧ t.parent = some r1.parent)) =
      (fun t => !decide (t.name = row1.name ∧ t.parent = row1.parent)) := by
    funext t
    have hr1p : r1.parent = r.parent := by
      rw [hr1par, hrpar]
    rw [← hrow1n, hr1p, hrxp]
  rw [htree1, hkey] at u2
  refine ⟨?_, (u4 hnl2).trans hino1, u3.trans hblk1, ?_⟩
  · have hany : (path_components y).any (fun c => decide (c.length > 255)) = false := by
      rw [hcomp, List.any_append, query_inode_full_ok_any hrd]
      simp
      omega
    have hrows : resolve_rows (mysqlfs_unlink (mysqlfs_link db x y).2 x).2.tree
        (path_components y) = [new] := by
      rw [u2, hcomp]; exact hcore1
    have e1 : count_links (mysqlfs_unlink (mysqlfs_link db x y).2 x).2.tree new.inode =
        r.nlinks := by
      rw [u2, hni, hcore2, hnl, hrxi]
    rw [query_inode_full_of_rows hany hrows, e1, hni, hnn, hnpar, hnp, hrxi]
    rfl
  · intro buf n off
    exact query_read_congr (u3.trans hblk1) _ _ _ _

/-- Witness of C7: the file `/a` holding "a": `link("/a", "/y")`, `unlink("/a")`; `/y`
resolves to inode 2 with one link, and reading one character returns `a`. -/
theorem link_unlink_witness :
    query_inode_full (mysqlfs_unlink (mysqlfs_link db_a "/a".toList "/y".toList).2
      "/a".toList).2 "/y".toList =
      Except.ok { inode := 2, name := ['y'], parent := 1, nlinks := 1 } ∧
    (mysqlfs_unlink (mysqlfs_link db_a "/a".toList "/y".toList).2 "/a".toList).2.inodes =
      db_a.inodes ∧
    query_read (mysqlfs_unlink (mysqlfs_link db_a "/a".toList "/y".toList).2 "/a".toList).2
      2 ['q'] 1 0 = (1, ['a']) := by
  have h := link_unlink db_a "/a".toList "/y".toList
    { inode := 2, name := ['a'], parent := 1, nlinks := 1 }
    (by decide) (by decide) (by decide) (by decide) (by decide) (by decide) (by decide)
  exact ⟨h.1, h.2.1, (h.2.2.2 ['q'] 1 0).trans (by decide)⟩

/-! ### Truncation -/

/-- C11 (counterexample): truncating the file that holds the single block "a" to length 0
returns 0 and leaves the row of block 0 in `data_blocks`, with empty data. -/
theorem truncate_zero_counterexample :
    (query_truncate db_a 2 0 0).1 = 0 ∧
    (query_truncate db_a 2 0 0).2.data_blocks = [{ inode := 2, seq := 0, data := [] }] := by
  decide

/-- C11 (amended): `query_truncate(inode, 0)` returns 0; the rows of the inode that remain
are those of block 0, in their order, each with empty data (every row with `seq > 0` is
deleted, so no row remains exactly when block 0 was not stored); the rows of every other
inode are left as they were. -/
theorem truncate_zero_blocks (db : DB) (inode : Int) (now : Nat) :
    (query_truncate db inode 0 now).1 = 0 ∧
    (query_truncate db inode 0 now).2.data_blocks.filter (fun r => decide (r.inode = inode)) =
      (db.data_blocks.filter (fun r => decide (r.inode = inode ∧ r.seq = 0))).map
        (fun r => { r with data := [] }) ∧
    (query_truncate db inode 0 now).2.data_blocks.filter (fun r => !decide (r.inode = inode)) =
      db.data_blocks.filter (fun r => !decide (r.inode = inode)) := by
  have hsl : (fill_data_blocks_info 0 0).seq_last = 0 := by decide
  have hll : (fill_data_blocks_info 0 0).length_last = 0 := by decide
  refine ⟨rfl, ?_, ?_⟩
  · unfold query_truncate update_block
    simp only [hsl, hll, sql_rpad_nil_zero]
    induction db.data_blocks with
    | nil => rfl
    | cons r l ih =>
      by_cases hi : r.inode = inode
      · by_cases hs : r.seq = 0
        · simp [List.filter_cons, hi, hs] at ih ⊢
          exact ih
        · have : 0 < r.seq := Nat.pos_of_ne_zero hs
          simp [List.filter_cons, hi, hs, this] at ih ⊢
          exact ih
      · simp [List.filter_cons, hi] at ih ⊢
        exact ih
  · unfold query_truncate update_block
    simp only [hsl, hll, sql_rpad_nil_zero]
    induction db.data_blocks with
    | nil => rfl
    | cons r l ih =>
      by_cases hi : r.inode = inode
      · by_cases hs : r.seq = 0
        · simp [List.filter_cons, hi, hs] at ih ⊢
          exact ih
        · have : 0 < r.seq := Nat.pos_of_ne_zero hs
          simp [List.filter_cons, hi, hs, this] at ih ⊢
          exact ih
      · simp [List.filter_cons, hi] at ih ⊢
        exact ih

/-- After `query_truncate(inode, L)` every row of the inode has `seq ≤ L / 4096`, and a row
with `seq = L / 4096` holds exactly `L % 4096` characters. -/
theorem mem_query_truncate {db : DB} {i : Int} {L now : Nat} {r' : BlockRow}
    (h : r' ∈ (query_truncate db i L now).2.data_blocks) (hi : r'.inode = i) :
    r'.seq ≤ L / 4096 ∧ (r'.seq = L / 4096 → r'.data.length = L % 4096) := by
  have hsl : (fill_data_blocks_info L 0).seq_last = L / 4096 := by
    simp [fill_data_blocks_info, DATA_BLOCK_SIZE]
  have hll : (fill_data_blocks_info L 0).length_last = L % 4096 := by
    simp [fill_data_blocks_info, DATA_BLOCK_SIZE]
  unfold query_truncate update_block at h
  simp only [hsl, hll, List.mem_map, List.mem_filter] at h
  obtain ⟨r, ⟨_, hk⟩, rfl⟩ := h
  by_cases hc : r.inode = i ∧ r.seq = L / 4096
  · rw [if_pos hc]
    refine ⟨le_of_eq hc.2, fun _ => ?_⟩
    exact sql_rpad_length _ _
  · rw [if_neg hc] at hi ⊢
    have hk' : ¬ (r.inode = i ∧ r.seq > L / 4096) := by
      intro hc'
      simp [hc'.1, hc'.2] at hk
    constructor
    · by_contra hgt
      exact hk' ⟨hi, by omega⟩
    · intro hs
      exact absurd ⟨hi, hs⟩ hc

/-- C12 (counterexample): a fresh file without blocks is truncated to length 0; a read of
one character at offset 0 (at the truncation point) returns 1 and copies a NUL: the block
is not stored and is read as a block of zeroes. -/
theorem read_past_truncation_counterexample :
    (query_truncate db_fresh 2 0 0).1 = 0 ∧
    query_read (query_truncate db_fresh 2 0 0).2 2 ['x'] 1 0 = (1, [NUL]) := by
  decide

/-- C12 (amended): when block `L / 4096` of the inode is stored, after
`query_truncate(inode, L)` a `query_read` that starts at `off ≥ L` inside that block and
either starts beyond `L` or ends inside the block returns 0 and leaves the buffer as it
was. -/
theorem read_past_truncation (db : DB) (inode : Int) (L now n off : Nat) (buf : List Char)
    (hblk : (block_at db inode (L / 4096)).isSome)
    (hoff : L ≤ off) (hsame : off / 4096 = L / 4096)
    (hin : L < off ∨ off % 4096 + n < 4096) :
    (query_truncate db inode L now).1 = 0 ∧
    query_read (query_truncate db inode L now).2 inode buf n off = (0, buf) := by
  refine ⟨rfl, ?_⟩
  have hD : DATA_BLOCK_SIZE = 4096 := rfl
  have hsf : (fill_data_blocks_info n off).seq_first = L / 4096 := by
    simp [fill_data_blocks_info, hD, hsame]
  have hof : (fill_data_blocks_info n off).offset_first = off % 4096 := by
    simp [fill_data_blocks_info, hD]
  have hle : (fill_data_blocks_info n off).seq_first ≤ (fill_data_blocks_info n off).seq_last :=
    (fill_facts n off).2.2.1
  -- the stored block after the truncation
  have hex : ∃ r ∈ (query_truncate db inode L now).2.data_blocks,
      r.inode = inode ∧ r.seq = L / 4096 := by
    apply block_at_isSome.1
    rw [block_at_query_truncate, if_neg (by omega), if_pos ⟨rfl, rfl⟩]
    obtain ⟨d, hd⟩ := Option.isSome_iff_exists.1 hblk
    rw [hd]; rfl
  obtain ⟨r0, hr0, hr0i, hr0s⟩ := hex
  have hmem0 : r0 ∈ select_blocks (query_truncate db inode L now).2 inode
      (fill_data_blocks_info n off).seq_first (fill_data_blocks_info n off).seq_last :=
    mem_select_blocks.2 ⟨hr0, hr0i, by omega, by omega⟩
  have hbytes : query_read_bytes (query_truncate db inode L now).2 inode n off = [] := by
    unfold query_read_bytes
    simp only []
    cases hsel : select_blocks (query_truncate db inode L now).2 inode
        (fill_data_blocks_info n off).seq_first (fill_data_blocks_info n off).seq_last with
    | nil => rw [hsel] at hmem0; cases hmem0
    | cons r rest =>
      have hr : r ∈ select_blocks (query_truncate db inode L now).2 inode
          (fill_data_blocks_info n off).seq_first (fill_data_blocks_info n off).seq_last := by
        rw [hsel]; exact List.mem_cons_self _ _
      obtain ⟨hrm, hri, hrs1, _⟩ := mem_select_blocks.1 hr
      obtain ⟨hrs2, hrl⟩ := mem_query_truncate hrm hri
      have hrs : r.seq = (fill_data_blocks_info n off).seq_first := by omega
      have hlen : r.data.length = L % 4096 := hrl (by omega)
      have hcount : (fill_data_blocks_info n off).seq_last + 1 -
          (fill_data_blocks_info n off).seq_first =
          ((fill_data_blocks_info n off).seq_last - (fill_data_blocks_info n off).seq_first) + 1 := by
        omega
      rw [hcount]
      simp only [read_loop, hrs, beq_self_eq_true, if_true, hlen, hof]
      by_cases hlt : L % 4096 < off % 4096
      · rw [if_pos hlt]
      · rw [if_neg hlt]
        have heq : off = L := by omega
        have hn : off % 4096 + n < 4096 := by
          rcases hin with h | h
          · omega
          · exact h
        have hlast : (fill_data_blocks_info n off).seq_last =
            (fill_data_blocks_info n off).seq_first := by
          simp [fill_data_blocks_info, hD, Nat.div_eq_of_lt hn]
        rw [hlast, Nat.sub_self, heq, Nat.sub_self]
        simp [read_loop]
  unfold query_read
  simp only [hbytes]
  rfl

/-- Witness of C12: the file holding the block "a", truncated to 0, read at offset 0. -/
theorem read_past_truncation_witness :
    (query_truncate db_a 2 0 0).1 = 0 ∧
    query_read (query_truncate db_a 2 0 0).2 2 ['x'] 1 0 = (0, ['x']) :=
  read_past_truncation db_a 2 0 0 1 0 ['x'] (by decide) (by decide) (by decide) (by decide)

/-! ### Symbolic links -/

theorem fill_zero_offset (size : Nat) :
    (fill_data_blocks_info size 0).seq_first = 0 ∧
    (fill_data_blocks_info size 0).offset_first = 0 ∧
    (fill_data_blocks_info size 0).seq_last = size / 4096 ∧
    (fill_data_blocks_info size 0).length_last = size % 4096 ∧
    (fill_data_blocks_info size 0).length_first = (if size / 4096 > 0 then 4096 else size) := by
  simp [fill_data_blocks_info, DATA_BLOCK_SIZE]

theorem zeroes_take (n : Nat) (h : n ≤ 4096) : zeroes.take n = List.replicate n NUL := by
  unfold zeroes
  rw [List.take_replicate, show DATA_BLOCK_SIZE = 4096 from rfl, Nat.min_eq_left h]

theorem read_loop_dense {db : DB} (hpk : PrimaryKey db) (i : Int) (t : List Char) (size : Nat)
    (hblk : ∀ s, block_at db i s =
      if (t.drop (s * 4096)).take 4096 = [] then none
      else some ((t.drop (s * 4096)).take 4096))
    (hsize : t.length ≤ size) (k : Nat) :
    ∀ (s : Nat) (out : List Char), s + k = size / 4096 + 1 → 1 ≤ s →
      ∃ z, read_loop (fill_data_blocks_info size 0) k s (select_blocks db i s (size / 4096)) out
             = out ++ t.drop (s * 4096) ++ List.replicate z NUL ∧
           (t.length - s * 4096) + z ≤ size - s * 4096 := by
  obtain ⟨hsf, hof, hsl, hll, hlf⟩ := fill_zero_offset size
  have hdm := Nat.div_add_mod size 4096
  have hml := Nat.mod_lt size (show 4096 > 0 by decide)
  induction k with
  | zero =>
    intro s out hs _
    refine ⟨0, ?_, by omega⟩
    have : t.drop (s * 4096) = [] := by
      apply List.drop_eq_nil_of_le
      omega
    simp [read_loop, this]
  | succ k ih =>
    intro s out hs h1
    have hle : s ≤ size / 4096 := by omega
    rw [read_loop_select hpk _ i k s (size / 4096) out hle, hsf, hsl, hll]
    rw [if_neg (by omega)]
    obtain ⟨z, hz, hzb⟩ := ih (s + 1)
      (out ++ (if s = size / 4096 then ((block_at db i s).getD zeroes).take (size % 4096)
        else ((block_at db i s).getD zeroes).take DATA_BLOCK_SIZE)) (by omega) (by omega)
    have hD : DATA_BLOCK_SIZE = 4096 := rfl
    by_cases hlast : s = size / 4096
    · rw [if_pos hlast] at hz ⊢
      rw [hz]
      by_cases hc : (t.drop (s * 4096)).take 4096 = []
      · rw [hblk s, if_pos hc]
        have hd : t.drop (s * 4096) = [] := by
          rcases List.take_eq_nil_iff.1 hc with h | h
          · omega
          · exact h
        have hd1 : t.drop ((s + 1) * 4096) = [] := by
          have := List.drop_eq_nil_iff.1 hd
          apply List.drop_eq_nil_of_le; omega
        have hlen := List.drop_eq_nil_iff.1 hd
        refine ⟨size % 4096 + z, ?_, by omega⟩
        simp only [Option.getD_none, hd, hd1, List.append_nil]
        rw [zeroes_take _ (le_of_lt hml), List.append_assoc, ← List.replicate_add]
      · rw [hblk s, if_neg hc]
        refine ⟨z, ?_, by omega⟩
        simp only [Option.getD_some]
        have hlen : (t.drop (s * 4096)).length ≤ size % 4096 := by
          rw [List.length_drop]; omega
        have e1 : ((t.drop (s * 4096)).take 4096).take (size % 4096) = t.drop (s * 4096) := by
          rw [List.take_take, List.take_of_length_le]
          omega
        have e2 : t.drop ((s + 1) * 4096) = [] := by
          apply List.drop_eq_nil_of_le; omega
        rw [e1, e2]
        simp
    · rw [if_neg hlast] at hz ⊢
      rw [hz, hD]
      by_cases hc : (t.drop (s * 4096)).take 4096 = []
      · rw [hblk s, if_pos hc]
        have hd : t.drop (s * 4096) = [] := by
          rcases List.take_eq_nil_iff.1 hc with h | h
          · omega
          · exact h
        have hlen := List.drop_eq_nil_iff.1 hd
        have hd1 : t.drop ((s + 1) * 4096) = [] := by
          apply List.drop_eq_nil_of_le; omega
        refine ⟨4096 + z, ?_, by omega⟩
        simp only [Option.getD_none, hd, hd1, List.append_nil]
        rw [zeroes_take _ (le_refl _), List.append_assoc, ← List.replicate_add]
      · rw [hblk s, if_neg hc]
        refine ⟨z, ?_, by omega⟩
        simp only [Option.getD_some, List.take_take, Nat.min_self]
        have e : (t.drop (s * 4096)).take 4096 ++ t.drop ((s + 1) * 4096) = t.drop (s * 4096) := by
          have := take_drop_append_drop t (s * 4096) 4096
          rw [show (s + 1) * 4096 = s * 4096 + 4096 by ring]
          exact this
        rw [List.append_assoc out, e]

theorem query_read_bytes_dense {db : DB} (hpk : PrimaryKey db) (i : Int) (t : List Char)
    (size : Nat)
    (hblk : ∀ s, block_at db i s =
      if (t.drop (s * 4096)).take 4096 = [] then none
      else some ((t.drop (s * 4096)).take 4096))
    (hsize : t.length ≤ size) :
    ∃ z, query_read_bytes db i size 0 = t ++ List.replicate z NUL ∧ t.length + z ≤ size := by
  obtain ⟨hsf, hof, hsl, hll, hlf⟩ := fill_zero_offset size
  have hdm := Nat.div_add_mod size 4096
  have hml := Nat.mod_lt size (show 4096 > 0 by decide)
  unfold query_read_bytes
  simp only [hsf, hsl, Nat.sub_zero]
  rw [read_loop_select hpk _ i (size / 4096) 0 (size / 4096) [] (Nat.zero_le _), hsf, hof, hlf,
    if_pos rfl, if_neg (Nat.not_lt_zero _)]
  obtain ⟨z, hz, hzb⟩ := read_loop_dense hpk i t size hblk hsize (size / 4096) 1
    ([] ++ (((block_at db i 0).getD zeroes).drop 0).take (if size / 4096 > 0 then 4096 else size))
    (by omega) (le_refl _)
  rw [hz]
  have hlfle : (if size / 4096 > 0 then 4096 else size) ≤ 4096 := by
    split_ifs with h
    · exact le_refl _
    · have : size / 4096 = 0 := by omega
      omega
  by_cases hc : (t.drop (0 * 4096)).take 4096 = []
  · have hd : t.drop (0 * 4096) = [] := by
      rcases List.take_eq_nil_iff.1 hc with h | h
      · omega
      · exact h
    have ht : t = [] := by simpa using hd
    subst ht
    rw [hblk 0, if_pos hc]
    refine ⟨(if size / 4096 > 0 then 4096 else size) + z, ?_, ?_⟩
    · simp only [Option.getD_none, List.drop_zero, List.nil_append, List.drop_nil,
        List.append_nil]
      rw [zeroes_take _ hlfle, ← List.replicate_add]
    · simp only [List.length_nil, Nat.zero_sub, Nat.zero_add] at hzb ⊢
      split_ifs with h
      · omega
      · have : size / 4096 = 0 := by omega
        omega
  · rw [hblk 0, if_neg hc]
    refine ⟨z, ?_, ?_⟩
    · simp only [Option.getD_some, List.drop_zero, List.nil_append, Nat.zero_mul, List.take_take]
      have e : t.take (min (if size / 4096 > 0 then 4096 else size) 4096) = t.take 4096 := by
        split_ifs with h
        · simp
        · have h0 : size / 4096 = 0 := by omega
          have hlt : size < 4096 := by omega
          rw [Nat.min_eq_left (le_of_lt hlt), List.take_of_length_le hsize,
            List.take_of_length_le (by omega)]
      rw [e, one_mul]
      have := take_drop_append_drop t 0 4096
      simp only [List.drop_zero, Nat.zero_add] at this
      rw [this]
    · omega

theorem path_components_dirname_of_slash (p : List Char)
    (hsl : SLASH ∈ strip_trailing_slashes p) :
    path_components p = path_components (dirname p) ++ [basename p] := by
  have hq : strip_trailing_slashes p ≠ [] := by
    intro h; rw [h] at hsl; cases hsl
  have hp : p ≠ [] := by
    intro h; apply hq; rw [h]; rfl
  have hsplit := List.takeWhile_append_dropWhile (fun c => c != SLASH)
    (strip_trailing_slashes p).reverse
  have hw : (strip_trailing_slashes p).reverse.takeWhile (fun c => c != SLASH) ≠ [] := by
    have hne : p.reverse.dropWhile (fun c => c == SLASH) ≠ [] := by
      intro h
      apply hq
      simp [strip_trailing_slashes, h]
    have hhead := List.head_dropWhile_not (fun c => c == SLASH) p.reverse hne
    have hrev : (strip_trailing_slashes p).reverse = p.reverse.dropWhile (fun c => c == SLASH) := by
      simp [strip_trailing_slashes]
    rw [hrev]
    cases hd : p.reverse.dropWhile (fun c => c == SLASH) with
    | nil => exact absurd hd hne
    | cons x rest =>
      simp only [hd, List.head_cons] at hhead
      have hxs : x ≠ SLASH := fun h => by simp [h] at hhead
      simp [List.takeWhile_cons, hxs]
  have hnoslash : ∀ c ∈ ((strip_trailing_slashes p).reverse.takeWhile
      (fun c => c != SLASH)).reverse, c ≠ SLASH := by
    intro c hc
    have := List.mem_takeWhile_imp (List.mem_reverse.1 hc)
    simpa using this
  have hd : (strip_trailing_slashes p).reverse.dropWhile (fun c => c != SLASH) ≠ [] := by
    intro h
    rw [h, List.append_nil] at hsplit
    have hc' : SLASH ∈ (strip_trailing_slashes p).reverse.takeWhile (fun c => c != SLASH) := by
      rw [hsplit]; exact List.mem_reverse.2 hsl
    have := List.mem_takeWhile_imp hc'
    simp at this
  obtain ⟨x, rest, hxr⟩ := List.exists_cons_of_ne_nil hd
  have hx : x = SLASH := by
    have := List.head_dropWhile_not (fun c => c != SLASH) (strip_trailing_slashes p).reverse hd
    simp only [hxr, List.head_cons] at this
    simpa using this
  subst hx
  have hqdecomp : strip_trailing_slashes p = rest.reverse ++ SLASH ::
      ((strip_trailing_slashes p).reverse.takeWhile (fun c => c != SLASH)).reverse := by
    have := congrArg List.reverse hsplit
    rw [List.reverse_append, List.reverse_reverse, hxr, List.reverse_cons,
      List.append_assoc] at this
    simpa using this.symm
  have hbase : basename p =
      ((strip_trailing_slashes p).reverse.takeWhile (fun c => c != SLASH)).reverse := by
    simp only [basename, hp, hq, if_false]
  have hcomp : path_components p = path_components rest.reverse ++ [basename p] := by
    rw [← path_components_strip p]
    conv_lhs => rw [hqdecomp]
    unfold path_components
    rw [strtok_all_split, hbase]
    congr 1
    have := strtok_all_noslash _ hnoslash [] []
    rw [List.append_nil, List.nil_append, strtok_all_nil] at this
    rw [this, if_neg]
    simpa using hw
  have hdir : path_components (dirname p) = path_components rest.reverse := by
    have hstrip : strip_trailing_slashes (rest.reverse ++ [SLASH]) =
        ((SLASH :: rest).dropWhile (fun c => c == SLASH)).reverse := by
      simp [strip_trailing_slashes]
    have : path_components (rest.reverse ++ [SLASH]) = path_components rest.reverse := by
      unfold path_components
      rw [strtok_all_snoc_slash]
    have h1 : path_components rest.reverse =
        path_components ((SLASH :: rest).dropWhile (fun c => c == SLASH)).reverse := by
      rw [← hstrip, path_components_strip, this]
    by_cases he : ((SLASH :: rest).dropWhile (fun c => c == SLASH)).reverse = []
    · simp only [dirname, hp, hq, if_false, hxr, he, if_true, reduceCtorEq]
      rw [h1, he]
      decide
    · simp only [dirname, hp, hq, if_false, hxr, he, reduceCtorEq]
      rw [h1]
  rw [hcomp, hdir]

theorem after_last_slash_some {p name : List Char} (h : after_last_slash p = some name)
    (hne : name ≠ []) :
    SLASH ∈ p ∧ strip_trailing_slashes p = p ∧ basename p = name := by
  unfold after_last_slash at h
  by_cases hs : SLASH ∈ p
  · rw [if_pos hs] at h
    have hn : name = (p.reverse.takeWhile (fun c => c != SLASH)).reverse := by
      simpa using h.symm
    have hp : p ≠ [] := by intro h0; rw [h0] at hs; cases hs
    have hstrip : strip_trailing_slashes p = p := by
      unfold strip_trailing_slashes
      cases hr : p.reverse with
      | nil => simp at hr; exact absurd hr hp
      | cons x rest =>
        have hx : x ≠ SLASH := by
          intro hx
          apply hne
          rw [hn, hr, hx]
          simp [List.takeWhile_cons]
        have : (x :: rest).dropWhile (fun c => c == SLASH) = x :: rest := by
          simp [List.dropWhile_cons, hx]
        rw [this, ← hr, List.reverse_reverse]
    refine ⟨hs, hstrip, ?_⟩
    simp only [basename, hp, hstrip, if_false]
    exact hn.symm
  · rw [if_neg hs] at h
    cases h

theorem path_components_mknod {p name : List Char} (h : after_last_slash p = some name)
    (hne : name ≠ []) :
    path_components p = path_components (dirname_in_place p) ++ [name] := by
  obtain ⟨hs, hstrip, hb⟩ := after_last_slash_some h hne
  have := path_components_dirname_of_slash p (by rw [hstrip]; exact hs)
  rw [hb] at this
  unfold dirname_in_place
  rw [if_pos hs]
  exact this

theorem write_piece_zero_offset (t : List Char) (s : Nat) :
    (s ≤ (fill_data_blocks_info t.length 0).seq_last →
      write_piece (fill_data_blocks_info t.length 0) t s = (t.drop (s * 4096)).take 4096) ∧
    ((fill_data_blocks_info t.length 0).seq_last < s → (t.drop (s * 4096)).take 4096 = []) := by
  obtain ⟨hsf, hof, hsl, hll, hlf⟩ := fill_zero_offset t.length
  have hdm := Nat.div_add_mod t.length 4096
  have hml := Nat.mod_lt t.length (show 4096 > 0 by decide)
  have hD : DATA_BLOCK_SIZE = 4096 := rfl
  constructor
  · intro hs
    rw [hsl] at hs
    unfold write_piece
    rw [hsf, hsl, hll, hlf, hD]
    by_cases h0 : s = 0
    · subst h0
      rw [if_pos rfl]
      simp only [Nat.zero_mul, List.drop_zero]
      split_ifs with h
      · rfl
      · have : t.length / 4096 = 0 := by omega
        rw [List.take_of_length_le (le_refl _), List.take_of_length_le (by omega)]
    · rw [if_neg h0]
      have hpos : t.length / 4096 > 0 := by omega
      rw [if_pos hpos]
      have e : 4096 + (s - 0 - 1) * 4096 = s * 4096 := by
        have : s - 0 - 1 + 1 = s := by omega
        calc 4096 + (s - 0 - 1) * 4096 = (s - 0 - 1 + 1) * 4096 := by ring
          _ = s * 4096 := by rw [this]
      rw [e]
      split_ifs with h
      · rfl
      · have hs' : s = t.length / 4096 := by omega
        have hlen : (t.drop (s * 4096)).length = t.length % 4096 := by
          rw [List.length_drop]; omega
        rw [List.take_of_length_le (le_of_eq hlen), List.take_of_length_le (by omega)]
  · intro hs
    rw [hsl] at hs
    have : t.drop (s * 4096) = [] := by
      apply List.drop_eq_nil_of_le
      have : (t.length / 4096 + 1) * 4096 ≤ s * 4096 := Nat.mul_le_mul_right _ hs
      omega
    rw [this]; rfl

theorem block_at_write_fresh (db : DB) (i : Int) (t : List Char)
    (hnone : ∀ s, block_at db i s = none) (s : Nat) :
    block_at (query_write db i t t.length 0).2 i s =
      if (t.drop (s * 4096)).take 4096 = [] then none
      else some ((t.drop (s * 4096)).take 4096) := by
  obtain ⟨hsf, hof, hsl, hll, hlf⟩ := fill_zero_offset t.length
  rw [(query_write_spec db i t 0).2.1 i s]
  obtain ⟨hp1, hp2⟩ := write_piece_zero_offset t s
  by_cases hs : s ≤ (fill_data_blocks_info t.length 0).seq_last
  · rw [hp1 hs]
    by_cases hc : (t.drop (s * 4096)).take 4096 = []
    · rw [if_pos hc, if_neg (fun h => h.2.2.2 hc), hnone]
    · rw [if_neg hc, if_pos ⟨rfl, by omega, hs, hc⟩, hnone]
      have hwo : write_off (fill_data_blocks_info t.length 0) s = 0 := by
        unfold write_off
        split_ifs
        · exact hof
        · rfl
      rw [hwo]
      simp [block_splice, sql_rpad]
  · rw [if_neg (fun h => hs h.2.2.1), hnone, if_pos (hp2 (by omega))]

theorem query_inode_congr {db db' : DB} (h : db'.tree = db.tree) (p : List Char) :
    query_inode db' p = query_inode db p := by
  unfold query_inode query_inode_full
  rw [h]

theorem resolve_rows_new_entry (tree : List TreeRow) (cs : List (List Char)) (rd new : TreeRow)
    (hRd : rd ∈ resolve_rows tree cs) (hnp : new.parent = some rd.inode) :
    new ∈ resolve_rows (tree ++ [new]) (cs ++ [new.name]) := by
  unfold resolve_rows at hRd ⊢
  rw [walk_append]
  have hrd : rd ∈ walk (tree ++ [new]) cs
      ((tree ++ [new]).filter (fun t => decide (t.parent = none))) := by
    apply walk_mono tree [new] cs _ _ _ rd hRd
    intro t ht
    rw [List.filter_append]
    exact List.mem_append_left _ ht
  simp only [walk, List.mem_flatMap, List.mem_filter]
  exact ⟨rd, hrd, by simp, by simp [hnp]⟩

theorem mysqlfs_mknod_nonneg {db : DB} {p : List Char} {mode uid gid now : Nat}
    (h : 0 ≤ (mysqlfs_mknod db p mode uid gid now).1) :
    0 ≤ query_inode db (dirname_in_place p) ∧
    (mysqlfs_mknod db p mode uid gid now).2.data_blocks = db.data_blocks ∧
    ((p = [SLASH] ∧ (mysqlfs_mknod db p mode uid gid now).2.tree =
        db.tree ++ [{ name := [SLASH], parent := none, inode := db.auto_inc }]) ∨
     (∃ name, after_last_slash p = some name ∧ name ≠ [] ∧
        (mysqlfs_mknod db p mode uid gid now).2.tree =
          db.tree ++ [{ name := name, parent := some (query_inode db (dirname_in_place p)),
                        inode := db.auto_inc }])) := by
  have e1 : ¬ (0 : Int) ≤ -ENAMETOOLONG := by decide
  have e2 : ¬ (0 : Int) ≤ -ENOENT := by decide
  unfold mysqlfs_mknod at h ⊢
  by_cases hl : ¬ (p.length < PATH_MAX)
  · rw [if_pos hl] at h; exact absurd h e1
  · rw [if_neg hl] at h ⊢
    simp only [] at h ⊢
    by_cases hpar : query_inode db (dirname_in_place p) < 0
    · rw [if_pos hpar] at h; exact absurd h e2
    · rw [if_neg hpar] at h ⊢
      refine ⟨by omega, ?_⟩
      unfold query_mknod at h ⊢
      simp only [] at h ⊢
      by_cases hroot : p = [SLASH]
      · rw [if_pos hroot] at h ⊢
        by_cases hneg : db.auto_inc < 0
        · rw [if_pos hneg] at h; simp only [] at h; omega
        · rw [if_neg hneg]
          exact ⟨rfl, Or.inl ⟨hroot, rfl⟩⟩
      · rw [if_neg hroot] at h ⊢
        cases hals : after_last_slash p with
        | none => rw [hals] at h; exact absurd h e2
        | some name =>
          rw [hals] at h
          simp only [] at h ⊢
          by_cases hn : name = []
          · rw [if_pos hn] at h; exact absurd h e2
          · rw [if_neg hn] at h ⊢
            by_cases hlen : name.length > 255
            · rw [if_pos hlen] at h; exact absurd h e1
            · rw [if_neg hlen] at h ⊢
              by_cases hneg : db.auto_inc < 0
              · rw [if_pos hneg] at h; simp only [] at h; omega
              · rw [if_neg hneg]
                exact ⟨rfl, Or.inr ⟨name, rfl, hn, rfl⟩⟩

theorem symlink_target_inode {db : DB} {l : List Char} {uid gid now : Nat}
    (hmk : 0 ≤ (mysqlfs_mknod db l (S_IFLNK ||| 0o755) uid gid now).1)
    (hres : 0 ≤ query_inode (mysqlfs_mknod db l (S_IFLNK ||| 0o755) uid gid now).2 l) :
    query_inode (mysqlfs_mknod db l (S_IFLNK ||| 0o755) uid gid now).2 l = db.auto_inc := by
  obtain ⟨hpar, _, htree⟩ := mysqlfs_mknod_nonneg hmk
  obtain ⟨r, hr, hri⟩ := query_inode_nonneg hres
  obtain ⟨row, hrows, _, hrow, _⟩ := resolved_row hr
  obtain ⟨rd0, hrd0, hrd0i⟩ := query_inode_nonneg hpar
  obtain ⟨rd, hrdrows, _, hrdi, _⟩ := resolved_row hrd0
  rcases htree with ⟨hroot, ht⟩ | ⟨name, hals, hne, ht⟩
  · exfalso
    subst hroot
    rw [ht] at hrows
    have hd : dirname_in_place [SLASH] = [SLASH] := by decide
    have hc : path_components [SLASH] = [] := by decide
    rw [hd, hc] at hrdrows
    rw [hc] at hrows
    simp only [resolve_rows, walk] at hrdrows hrows
    rw [List.filter_append, hrdrows] at hrows
    simp at hrows
  · rw [ht, path_components_mknod hals hne] at hrows
    have hmem := resolve_rows_new_entry db.tree (path_components (dirname_in_place l)) rd
      { name := name, parent := some (query_inode db (dirname_in_place l)),
        inode := db.auto_inc }
      (by rw [hrdrows]; exact List.mem_singleton_self _)
      (by simp only []; rw [← hrd0i, hrdi])
    rw [hrows] at hmem
    have := List.mem_singleton.1 hmem
    rw [← hri, ← hrow, ← this]

/-- C13: for every target `t` and link path `l`, when `mysqlfs_symlink(t, l)` returns 0
(the path named no entry and lies in an existing directory, otherwise the call fails) on a
database that respects the primary key of `data_blocks` and holds no block under the
inode number the new entry receives, `mysqlfs_readlink(l, buf, size)` with
`size ≥ length(t)` returns 0 and leaves in the first `size` characters of `buf` the
characters of `t` followed by NULs only. -/
theorem symlink_readlink_round_trip (db : DB) (t l buf : List Char) (uid gid now size : Nat)
    (hpk : PrimaryKey db) (hfresh : ∀ b ∈ db.data_blocks, b.inode ≠ db.auto_inc)
    (hok : (mysqlfs_symlink db t l uid gid now).1 = 0) (hsize : t.length ≤ size) :
    mysqlfs_readlink (mysqlfs_symlink db t l uid gid now).2 l buf size =
      (0, t ++ List.replicate (size - t.length) NUL ++ buf.drop size) := by
  unfold mysqlfs_symlink at hok ⊢
  simp only [] at hok ⊢
  by_cases hmk : (mysqlfs_mknod db l (S_IFLNK ||| 0o755) uid gid now).1 < 0
  · rw [if_pos hmk] at hok; omega
  rw [if_neg hmk] at hok ⊢
  by_cases hres : query_inode (mysqlfs_mknod db l (S_IFLNK ||| 0o755) uid gid now).2 l < 0
  · rw [if_pos hres] at hok
    have hne : (-ENOENT : Int) ≠ 0 := by decide
    exact absurd hok hne
  rw [if_neg hres] at hok ⊢
  have hX := symlink_target_inode (not_lt.1 hmk) (not_lt.1 hres)
  obtain ⟨_, hblocks, _⟩ := mysqlfs_mknod_nonneg (not_lt.1 hmk)
  rw [hX] at hres ⊢
  simp only []
  -- the database after the write
  have hnone : ∀ s, block_at (mysqlfs_mknod db l (S_IFLNK ||| 0o755) uid gid now).2
      db.auto_inc s = none := by
    intro s
    apply block_at_eq_none.2
    intro b hb hc
    rw [hblocks] at hb
    exact hfresh b hb hc.1
  have hpk1 : PrimaryKey (mysqlfs_mknod db l (S_IFLNK ||| 0o755) uid gid now).2 := by
    unfold PrimaryKey; rw [hblocks]; exact hpk
  obtain ⟨_, _, hpkw, htw⟩ :=
    query_write_spec (mysqlfs_mknod db l (S_IFLNK ||| 0o755) uid gid now).2 db.auto_inc t 0
  have hblk := block_at_write_fresh _ db.auto_inc t hnone
  obtain ⟨z, hz, hzb⟩ := query_read_bytes_dense (hpkw hpk1) db.auto_inc t size hblk hsize
  unfold mysqlfs_readlink
  simp only []
  rw [query_inode_congr htw, hX, if_neg (not_lt.2 (not_lt.1 hres))]
  unfold query_read
  simp only [hz]
  have hlen : (t ++ List.replicate z NUL).length = t.length + z := by simp
  have hbuf : t ++ List.replicate z NUL ++
      (List.replicate size NUL ++ buf.drop size).drop (t ++ List.replicate z NUL).length =
      t ++ List.replicate (size - t.length) NUL ++ buf.drop size := by
    rw [hlen, List.drop_append_of_le_length (by simp; omega), List.drop_replicate,
      List.append_assoc t, ← List.append_assoc (List.replicate z NUL), ← List.replicate_add,
      show z + (size - (t.length + z)) = size - t.length by omega, List.append_assoc]
  rw [hbuf]
  congr 1
  split_ifs <;> omega

/-- Witness of C13: `symlink("/target", "/link")` on the file system that holds the root
alone, then `readlink("/link", buf, 7)`. -/
theorem symlink_readlink_round_trip_witness :
    mysqlfs_readlink (mysqlfs_symlink db_root "/target".toList "/link".toList 0 0 0).2
      "/link".toList "xxxxxxx".toList 7 = (0, "/target".toList) :=
  symlink_readlink_round_trip db_root "/target".toList "/link".toList "xxxxxxx".toList 0 0 0 7
    (by decide) (by decide) (by decide) (by decide)

/-! ### Effect of the entries on the three relations -/

theorem write_one_block_frame (db : DB) (i : Int) (seq : Nat) (d : List Char) (sz o : Nat) :
    (write_one_block db i seq d sz o).2.inodes.map (fun r => (r.inode, r.inuse)) =
      db.inodes.map (fun r => (r.inode, r.inuse)) ∧
    (∀ b ∈ (write_one_block db i seq d sz o).2.data_blocks,
      b.inode = i ∨ ∃ b0 ∈ db.data_blocks, b0.inode = b.inode) ∧
    (write_one_block db i seq d sz o).2.tree = db.tree := by
  have hmap : ∀ (l : List InodeRow) (v : Int),
      (l.map (fun r => if r.inode = i then { r with size := v } else r)).map
        (fun r => (r.inode, r.inuse)) = l.map (fun r => (r.inode, r.inuse)) := by
    intro l v
    rw [List.map_map]
    apply List.map_congr_left
    intro r _
    simp only [Function.comp]
    split_ifs <;> rfl
  have hupd : ∀ (db1 : DB) (f : List Char → List Char) (b : BlockRow),
      b ∈ (update_block db1 i seq f).data_blocks → ∃ b0 ∈ db1.data_blocks, b0.inode = b.inode := by
    intro db1 f b hb
    unfold update_block at hb
    simp only [List.mem_map] at hb
    obtain ⟨b0, hb0, rfl⟩ := hb
    refine ⟨b0, hb0, ?_⟩
    split_ifs <;> rfl
  unfold write_one_block
  simp only []
  by_cases h0 : sz = 0
  · rw [if_pos h0]
    exact ⟨rfl, fun b hb => Or.inr ⟨b, hb, rfl⟩, rfl⟩
  rw [if_neg h0]
  by_cases h1 : o + sz > DATA_BLOCK_SIZE
  · rw [if_pos h1]
    exact ⟨rfl, fun b hb => Or.inr ⟨b, hb, rfl⟩, rfl⟩
  rw [if_neg h1]
  refine ⟨?_, ?_, ?_⟩
  · simp only [refresh_size]
    rw [hmap]
    split_ifs <;> simp [update_block, insert_empty_block]
  · intro b hb
    simp only [refresh_size] at hb
    split_ifs at hb
    all_goals
      obtain ⟨b0, hb0, hbi⟩ := hupd _ _ b hb
      first
        | exact Or.inr ⟨b0, hb0, hbi⟩
        | (unfold insert_empty_block at hb0
           simp only [List.mem_append, List.mem_singleton] at hb0
           rcases hb0 with hb0 | hb0
           · exact Or.inr ⟨b0, hb0, hbi⟩
           · left; rw [← hbi, hb0])
  · simp only [refresh_size]
    split_ifs <;> rfl

theorem query_write_frame (db : DB) (i : Int) (data : List Char) (size offset : Nat) :
    (query_write db i data size offset).2.inodes.map (fun r => (r.inode, r.inuse)) =
      db.inodes.map (fun r => (r.inode, r.inuse)) ∧
    (∀ b ∈ (query_write db i data size offset).2.data_blocks,
      b.inode = i ∨ ∃ b0 ∈ db.data_blocks, b0.inode = b.inode) ∧
    (query_write db i data size offset).2.tree = db.tree := by
  apply query_write_chain db i data size offset
    (fun d => d.inodes.map (fun r => (r.inode, r.inuse)) =
        db.inodes.map (fun r => (r.inode, r.inuse)) ∧
      (∀ b ∈ d.data_blocks, b.inode = i ∨ ∃ b0 ∈ db.data_blocks, b0.inode = b.inode) ∧
      d.tree = db.tree)
  · exact write_one_block_frame db i _ data _ _
  · intro db' seq d sz o hP
    obtain ⟨h1, h2, h3⟩ := write_one_block_frame db' i seq d sz o
    refine ⟨h1.trans hP.1, ?_, h3.trans hP.2.2⟩
    intro b hb
    rcases h2 b hb with h | ⟨b0, hb0, h⟩
    · exact Or.inl h
    · rcases hP.2.1 b0 hb0 with h' | ⟨b1, hb1, h'⟩
      · left; rw [← h, h']
      · right; exact ⟨b1, hb1, by rw [h', h]⟩

theorem mysqlfs_mkdir_eq (db : DB) (p : List Char) (mode uid gid now : Nat) :
    mysqlfs_mkdir db p mode uid gid now = mysqlfs_mknod db p (S_IFDIR ||| mode) uid gid now :=
  rfl

theorem mysqlfs_mknod_effect (db : DB) (p : List Char) (mode uid gid now : Nat) :
    (mysqlfs_mknod db p mode uid gid now).2 = db ∨
    ∃ trow irow, trow.inode = db.auto_inc ∧ irow.inode = db.auto_inc ∧ irow.inuse = 0 ∧
      (trow.parent = none → p = [SLASH]) ∧
      (mysqlfs_mknod db p mode uid gid now).2 =
        { tree := db.tree ++ [trow], inodes := db.inodes ++ [irow],
          data_blocks := db.data_blocks, auto_inc := db.auto_inc + 1 } := by
  unfold mysqlfs_mknod
  by_cases hl : ¬ (p.length < PATH_MAX)
  · rw [if_pos hl]; exact Or.inl rfl
  rw [if_neg hl]
  simp only []
  by_cases hpar : query_inode db (dirname_in_place p) < 0
  · rw [if_pos hpar]; exact Or.inl rfl
  rw [if_neg hpar]
  have hsame : ∀ r : Int × DB, (if r.1 < 0 then r else (0, r.2)).2 = r.2 := by
    intro r; split_ifs <;> rfl
  rw [hsame]
  unfold query_mknod
  simp only []
  by_cases hroot : p = [SLASH]
  · rw [if_pos hroot]
    exact Or.inr ⟨{ name := [SLASH], parent := none, inode := db.auto_inc },
      { inode := db.auto_inc, mode := mode, uid := uid, gid := gid, atime := now,
        mtime := now, ctime := now, size := 0, inuse := 0, deleted := 0 },
      rfl, rfl, rfl, fun _ => hroot, rfl⟩
  rw [if_neg hroot]
  cases after_last_slash p with
  | none => exact Or.inl rfl
  | some name =>
    simp only []
    by_cases hn : name = []
    · rw [if_pos hn]; exact Or.inl rfl
    rw [if_neg hn]
    by_cases hlen : name.length > 255
    · rw [if_pos hlen]; exact Or.inl rfl
    rw [if_neg hlen]
    exact Or.inr ⟨⟨name, some (query_inode db (dirname_in_place p)), db.auto_inc⟩,
      { inode := db.auto_inc, mode := mode, uid := uid, gid := gid, atime := now,
        mtime := now, ctime := now, size := 0, inuse := 0, deleted := 0 },
      rfl, rfl, rfl, fun h => Option.noConfusion h, rfl⟩

theorem mysqlfs_unlink_frame (db : DB) (path : List Char) :
    (mysqlfs_unlink db path).2.data_blocks = db.data_blocks ∧
    (∃ q : TreeRow → Bool, (∀ t, t.parent = none → q t = true) ∧
      (mysqlfs_unlink db path).2.tree = db.tree.filter q) ∧
    (∀ j ∈ (mysqlfs_unlink db path).2.inodes,
      ∃ r ∈ db.inodes, r.inode = j.inode ∧ r.inuse = j.inuse) ∧
    (∀ r ∈ db.inodes, (∀ rr, query_inode_full db path = Except.ok rr → r.inode ≠ rr.inode) →
      ∃ j ∈ (mysqlfs_unlink db path).2.inodes, j.inode = r.inode) := by
  have hid : ∃ q : TreeRow → Bool, (∀ t, t.parent = none → q t = true) ∧
      db.tree = db.tree.filter q :=
    ⟨fun _ => true, fun _ _ => rfl, by simp⟩
  unfold mysqlfs_unlink
  cases hres : query_inode_full db path with
  | error e =>
    exact ⟨rfl, hid, fun j hj => ⟨j, hj, rfl, rfl⟩, fun r hr _ => ⟨r, hr, rfl⟩⟩
  | ok rr =>
    simp only []
    unfold query_rmdirentry
    by_cases hch : db.tree.filter (fun t => decide (t.parent = some rr.inode)) ≠ []
    · rw [if_pos hch]
      have hneg : (-ENOTEMPTY : Int) < 0 := by decide
      simp only [hneg, if_true]
      exact ⟨by first | rfl | trivial, hid, fun j hj => ⟨j, hj, rfl, rfl⟩, fun r hr _ => ⟨r, hr, rfl⟩⟩
    rw [if_neg hch]
    simp only [lt_self_iff_false, if_false]
    have hq : ∃ q : TreeRow → Bool, (∀ t, t.parent = none → q t = true) ∧
        db.tree.filter (fun t => !decide (t.name = rr.name ∧ t.parent = some rr.parent)) =
          db.tree.filter q :=
      ⟨_, fun t ht => by simp [ht], rfl⟩
    by_cases hn : rr.nlinks > 1
    · rw [if_pos hn]
      exact ⟨rfl, hq, fun j hj => ⟨j, hj, rfl, rfl⟩, fun r hr _ => ⟨r, hr, rfl⟩⟩
    rw [if_neg hn]
    refine ⟨rfl, hq, ?_, ?_⟩
    · intro j hj
      simp only [query_purge_deleted, query_set_deleted, List.mem_filter, List.mem_map] at hj
      obtain ⟨⟨r, hr, rfl⟩, _⟩ := hj
      refine ⟨r, hr, ?_⟩
      split_ifs <;> exact ⟨rfl, rfl⟩
    · intro r hr hne
      have hri : r.inode ≠ rr.inode := hne rr rfl
      refine ⟨r, ?_, rfl⟩
      simp only [query_purge_deleted, query_set_deleted, List.mem_filter, List.mem_map]
      refine ⟨⟨r, hr, ?_⟩, ?_⟩
      · rw [if_neg (fun h => hri h.1)]
      · simp [hri]

theorem query_rename_frame (db : DB) (from_ to_ : List Char) (st : stat) :
    (query_rename db from_ to_ st).2.data_blocks = db.data_blocks ∧
    (query_rename db from_ to_ st).2.inodes = db.inodes ∧
    root_rows (query_rename db from_ to_ st).2 = root_rows db := by
  have hmap : ∀ (l : List TreeRow) (c : TreeRow → Prop) [DecidablePred c] (n : List Char)
      (p q : Int), (∀ t, c t → t.parent = some q) →
      (l.map (fun t => if c t then { t with name := n, parent := some p } else t)).filter
        (fun t => decide (t.parent = none)) = l.filter (fun t => decide (t.parent = none)) := by
    intro l c _ n p q hc
    induction l with
    | nil => rfl
    | cons t l ih =>
      by_cases hct : c t
      · have := hc t hct
        simp [List.filter_cons, hct, this, ih]
      · simp [List.filter_cons, hct, ih]
  unfold query_rename
  simp only []
  split_ifs
  · exact ⟨rfl, rfl, rfl⟩
  · refine ⟨rfl, rfl, ?_⟩
    unfold root_rows
    simp only [List.filter_filter]
    rw [← hmap db.tree (fun t => t.inode = query_inode db from_ ∧ t.name = basename from_ ∧
        t.parent = some (query_inode db (dirname from_))) (basename to_)
        (query_inode db (dirname to_)) (query_inode db (dirname from_)) (fun t h => h.2.2)]
    apply List.filter_congr
    intro t _
    by_cases hp : t.parent = none
    · simp [hp]
    · simp [hp]
  · refine ⟨rfl, rfl, ?_⟩
    unfold root_rows
    exact hmap db.tree _ (basename to_) (query_inode db (dirname to_))
      (query_inode db (dirname from_)) (fun t h => h.2.2)

/-! ### The in-use counter -/

theorem inuseNonneg_of_map {db db' : DB}
    (h : db'.inodes.map (fun r => (r.inode, r.inuse)) =
      db.inodes.map (fun r => (r.inode, r.inuse))) (hn : InuseNonneg db) : InuseNonneg db' := by
  intro r hr
  have : (r.inode, r.inuse) ∈ db'.inodes.map (fun r => (r.inode, r.inuse)) :=
    List.mem_map_of_mem _ hr
  rw [h, List.mem_map] at this
  obtain ⟨r0, hr0, he⟩ := this
  have h2 : r0.inuse = r.inuse := congrArg Prod.snd he
  rw [← h2]
  exact hn r0 hr0

theorem inuseNonneg_map {l : List InodeRow} (f : InodeRow → InodeRow)
    (hf : ∀ r, (f r).inuse = r.inuse) (hn : ∀ r ∈ l, 0 ≤ r.inuse) :
    ∀ r ∈ l.map f, 0 ≤ r.inuse := by
  intro r hr
  obtain ⟨r0, hr0, rfl⟩ := List.mem_map.1 hr
  rw [hf]
  exact hn r0 hr0

theorem inuseNonneg_mknod (db : DB) (p : List Char) (mode uid gid now : Nat)
    (h : InuseNonneg db) : InuseNonneg (mysqlfs_mknod db p mode uid gid now).2 := by
  rcases mysqlfs_mknod_effect db p mode uid gid now with he | ⟨trow, irow, _, _, hz, _, he⟩
  · rw [he]; exact h
  · rw [he]
    intro r hr
    simp only [List.mem_append, List.mem_singleton] at hr
    rcases hr with hr | hr
    · exact h r hr
    · rw [hr, hz]

theorem inuseNonneg_unlink (db : DB) (p : List Char) (h : InuseNonneg db) :
    InuseNonneg (mysqlfs_unlink db p).2 := by
  intro j hj
  obtain ⟨r, hr, _, hu⟩ := (mysqlfs_unlink_frame db p).2.2.1 j hj
  rw [← hu]
  exact h r hr

/-- C16 (counterexample): on a file that is not open (`inuse = 0`) `mysqlfs_release`
returns 0 and leaves `inuse = -1`. -/
theorem inuse_counterexample :
    InuseNonneg db_fresh ∧ (dispatch db_fresh (Op.release 2)).1 = 0 ∧
    (dispatch db_fresh (Op.release 2)).2.inodes.map (fun r => (r.inode, r.inuse)) =
      [(1, 0), (2, -1)] ∧
    ¬ InuseNonneg (dispatch db_fresh (Op.release 2)).2 := by decide

/-- C16 (amended): every entry of the operation table preserves `inuse ≥ 0` in every row
of `inodes`, `mysqlfs_release` included when every row of the released inode has
`inuse ≥ 1`. -/
theorem inuse_nonneg_preserved (db : DB) (op : Op) (h : InuseNonneg db)
    (hrel : ∀ fh, op = Op.release fh → ∀ r ∈ db.inodes, r.inode = fh → 1 ≤ r.inuse) :
    InuseNonneg (dispatch db op).2 := by
  cases op with
  | getattr path => exact h
  | readdir path => exact h
  | read fh buf size offset => exact h
  | readlink path buf size => exact h
  | mknod path mode uid gid now => exact inuseNonneg_mknod db path mode uid gid now h
  | mkdir path mode uid gid now => exact inuseNonneg_mknod db path _ uid gid now h
  | unlink path => exact inuseNonneg_unlink db path h
  | chmod path mode now =>
    show InuseNonneg (mysqlfs_chmod db path mode now).2
    unfold mysqlfs_chmod query_chmod
    simp only []
    split_ifs
    · exact h
    all_goals exact inuseNonneg_map _ (fun r => by split_ifs <;> rfl) h
  | chown path uid gid now =>
    show InuseNonneg (mysqlfs_chown db path uid gid now).2
    unfold mysqlfs_chown query_chown
    simp only []
    split_ifs
    all_goals first
      | exact h
      | exact inuseNonneg_map _ (fun r => by split_ifs <;> rfl) h
  | truncate path_value length now =>
    show InuseNonneg (mysqlfs_truncate db path_value length now).2
    unfold mysqlfs_truncate query_truncate
    simp only []
    split_ifs
    all_goals exact inuseNonneg_map _ (fun r => by split_ifs <;> rfl) h
  | utime path actime past_end =>
    show InuseNonneg (mysqlfs_utime db path actime past_end).2
    unfold mysqlfs_utime query_utime
    simp only []
    split_ifs
    all_goals first
      | exact h
      | exact inuseNonneg_map _ (fun r => by split_ifs <;> rfl) h
  | open_ path =>
    show InuseNonneg (mysqlfs_open db path).2.2
    unfold mysqlfs_open query_inuse_inc
    simp only []
    split_ifs
    · exact h
    · intro r hr
      obtain ⟨r0, hr0, rfl⟩ := List.mem_map.1 hr
      have := h r0 hr0
      split_ifs
      · show 0 ≤ r0.inuse + 1
        omega
      · exact this
  | write fh buf size offset =>
    exact inuseNonneg_of_map (query_write_frame db fh buf size offset).1 h
  | release fh =>
    show InuseNonneg (mysqlfs_release db fh).2
    unfold mysqlfs_release query_purge_deleted query_inuse_inc
    simp only []
    intro r hr
    obtain ⟨hr1, _⟩ := List.mem_filter.1 hr
    obtain ⟨r0, hr0, rfl⟩ := List.mem_map.1 hr1
    split_ifs with hi
    · have := hrel fh rfl r0 hr0 hi
      show 0 ≤ r0.inuse + -1
      omega
    · exact h r0 hr0
  | link from_ to_ =>
    show InuseNonneg (mysqlfs_link db from_ to_).2
    unfold mysqlfs_link query_mkdirentry
    simp only []
    split_ifs <;> exact h
  | symlink from_ to_ uid gid now =>
    show InuseNonneg (mysqlfs_symlink db from_ to_ uid gid now).2
    have h1 := inuseNonneg_mknod db to_ (S_IFLNK ||| 0o755) uid gid now h
    unfold mysqlfs_symlink
    simp only []
    split_ifs
    all_goals first
      | exact h1
      | exact inuseNonneg_of_map (query_write_frame _ _ _ _ _).1 h1
  | rename from_ to_ to_st =>
    show InuseNonneg (mysqlfs_rename db from_ to_ to_st).2
    unfold mysqlfs_rename
    simp only []
    intro r hr
    rw [(query_rename_frame _ from_ to_ to_st).2.1] at hr
    exact inuseNonneg_unlink db to_ h r hr

/-- Witness of C16: `release` of the handle of `/a` after one `open`. -/
theorem inuse_nonneg_preserved_witness :
    InuseNonneg (dispatch db_open (Op.release 2)).2 :=
  inuse_nonneg_preserved db_open (Op.release 2) (by decide)
    (fun fh hfh r hr hi => by
      cases hfh
      revert r
      decide)

/-! ### The consistency pass -/

theorem foldl_fsck_set_size (gs : List (Int × Nat)) (hnd : (gs.map (fun g => g.1)).Nodup) :
    ∀ l : List InodeRow, gs.foldl fsck_set_size l =
      l.map (fun r => match gs.find? (fun g => decide (g.1 = r.inode)) with
        | some g => { r with size := (g.2 : Int) }
        | none => r) := by
  induction gs with
  | nil => intro l; simp
  | cons g gs ih =>
    intro l
    rw [List.map_cons, List.nodup_cons] at hnd
    rw [List.foldl_cons, ih hnd.2, fsck_set_size, List.map_map]
    apply List.map_congr_left
    intro r _
    simp only [Function.comp]
    by_cases hr : r.inode = g.1
    · have hnone : gs.find? (fun g' => decide (g'.1 = g.1)) = none := by
        apply List.find?_eq_none.2
        intro g' hg' hc
        apply hnd.1
        have : g'.1 = g.1 := by simpa using hc
        rw [← this]
        exact List.mem_map_of_mem _ hg'
      simp [hr, List.find?_cons, hnone]
    · have hne : ¬ g.1 = r.inode := fun h => hr h.symm
      simp [hr, List.find?_cons, hne]

theorem find_fsck_sizes (blocks : List BlockRow) (x : Int) :
    (fsck_sizes blocks).find? (fun g => decide (g.1 = x)) =
      if x ∈ blocks.map (fun b => b.inode) then some (x, sum_octet_length blocks x)
      else none := by
  unfold fsck_sizes
  have h : ∀ l : List Int, (l.map (fun i => (i, sum_octet_length blocks i))).find?
      (fun g => decide (g.1 = x)) =
      if x ∈ l then some (x, sum_octet_length blocks x) else none := by
    intro l
    induction l with
    | nil => simp
    | cons a l ih =>
      by_cases ha : a = x
      · simp [List.find?_cons, ha]
      · have : ¬ x = a := fun h => ha h.symm
        simp [List.find?_cons, ha, this, ih]
  rw [h]
  simp only [List.mem_dedup]

theorem query_fsck_inodes (db : DB) :
    (query_fsck db).2.inodes =
      ((db.inodes.filter (fun r => !decide (r.deleted = 1))).map
        (fun r => { r with inuse := 0 })).map (fun r =>
          if r.inode ∈ (query_fsck db).2.data_blocks.map (fun b => b.inode)
          then { r with size := (sum_octet_length (query_fsck db).2.data_blocks r.inode : Int) }
          else r) := by
  unfold query_fsck
  simp only []
  rw [foldl_fsck_set_size]
  · apply List.map_congr_left
    intro r _
    rw [find_fsck_sizes]
    split_ifs <;> rfl
  · unfold fsck_sizes
    rw [List.map_map]
    have : ((fun g : Int × Nat => g.1) ∘ fun i => (i, sum_octet_length
        (db.data_blocks.filter (fun b => decide (b.inode ∈
          ((db.inodes.filter (fun r => !decide (r.deleted = 1))).map
            (fun r => { r with inuse := 0 })).map (fun r => r.inode)))) i)) = id := by
      funext i; rfl
    rw [this, List.map_id]
    exact List.nodup_dedup _

theorem query_fsck_rows (db : DB) :
    (∀ r ∈ (query_fsck db).2.inodes, r.deleted ≠ 1 ∧ r.inuse = 0) ∧
    (query_fsck db).2.inodes.map (fun r => r.inode) =
      (db.inodes.filter (fun r => !decide (r.deleted = 1))).map (fun r => r.inode) := by
  rw [query_fsck_inodes]
  constructor
  · intro r hr
    simp only [List.mem_map, List.mem_filter] at hr
    obtain ⟨r3, ⟨r1, ⟨_, hd⟩, rfl⟩, rfl⟩ := hr
    have hd' : r1.deleted ≠ 1 := by simpa using hd
    split_ifs <;> exact ⟨hd', rfl⟩
  · rw [List.map_map, List.map_map]
    apply List.map_congr_left
    intro r _
    simp only [Function.comp]
    split_ifs <;> rfl

theorem db_ext {a b : DB} (h1 : a.tree = b.tree) (h2 : a.inodes = b.inodes)
    (h3 : a.data_blocks = b.data_blocks) (h4 : a.auto_inc = b.auto_inc) : a = b := by
  cases a; cases b
  simp only [DB.mk.injEq]
  exact ⟨h1, h2, h3, h4⟩

theorem query_fsck_idem (db : DB) : query_fsck (query_fsck db).2 = query_fsck db := by
  obtain ⟨hrows, hids⟩ := query_fsck_rows db
  -- stage 1 and stage 3 leave the inodes of a checked database as they are
  have hfilter : (query_fsck db).2.inodes.filter (fun r => !decide (r.deleted = 1)) =
      (query_fsck db).2.inodes := by
    apply List.filter_eq_self.2
    intro r hr
    simp [(hrows r hr).1]
  have hinuse : (query_fsck db).2.inodes.map (fun r : InodeRow => { r with inuse := 0 }) =
      (query_fsck db).2.inodes := by
    conv_rhs => rw [← List.map_id (query_fsck db).2.inodes]
    apply List.map_congr_left
    intro r hr
    have := (hrows r hr).2
    cases r
    simp only [id] at this ⊢
    simp only [InodeRow.mk.injEq, true_and, and_true] at this ⊢
    exact this.symm
  have hids1 : ((query_fsck db).2.inodes.filter (fun r => !decide (r.deleted = 1))).map
      (fun r : InodeRow => r.inode) =
      (db.inodes.filter (fun r => !decide (r.deleted = 1))).map (fun r : InodeRow => r.inode) := by
    rw [hfilter, hids]
  have hids3 : (((query_fsck db).2.inodes.filter (fun r => !decide (r.deleted = 1))).map
      (fun r : InodeRow => { r with inuse := 0 })).map (fun r : InodeRow => r.inode) =
      ((db.inodes.filter (fun r => !decide (r.deleted = 1))).map
        (fun r : InodeRow => { r with inuse := 0 })).map (fun r : InodeRow => r.inode) := by
    rw [hfilter, hinuse, hids, List.map_map]
    rfl
  have htree : (query_fsck (query_fsck db).2).2.tree = (query_fsck db).2.tree := by
    show ((query_fsck db).2.tree.filter (fun t => decide (t.inode ∈
      ((query_fsck db).2.inodes.filter (fun r => !decide (r.deleted = 1))).map
        (fun r : InodeRow => r.inode)))) = _
    rw [hids1]
    show (db.tree.filter _).filter _ = db.tree.filter _
    rw [List.filter_filter]
    apply List.filter_congr
    intro t _
    simp
  have hblocks : (query_fsck (query_fsck db).2).2.data_blocks = (query_fsck db).2.data_blocks := by
    show ((query_fsck db).2.data_blocks.filter (fun b => decide (b.inode ∈
      (((query_fsck db).2.inodes.filter (fun r => !decide (r.deleted = 1))).map
        (fun r : InodeRow => { r with inuse := 0 })).map (fun r : InodeRow => r.inode)))) = _
    rw [hids3]
    show (db.data_blocks.filter _).filter _ = db.data_blocks.filter _
    rw [List.filter_filter]
    apply List.filter_congr
    intro t _
    simp
  have hinodes : (query_fsck (query_fsck db).2).2.inodes = (query_fsck db).2.inodes := by
    rw [query_fsck_inodes (query_fsck db).2, hblocks, hfilter, hinuse]
    conv_lhs => rw [query_fsck_inodes db]
    conv_rhs => rw [query_fsck_inodes db]
    rw [List.map_map]
    apply List.map_congr_left
    intro r _
    simp only [Function.comp]
    by_cases h : r.inode ∈ (query_fsck db).2.data_blocks.map (fun b => b.inode)
    · simp only [h, if_true]
    · simp only [h, if_false]
  exact Prod.ext rfl (db_ext htree hinodes hblocks rfl)

/-! ### The root entry -/

theorem root_rows_mknod (db : DB) (p : List Char) (mode uid gid now : Nat)
    (hp : p ≠ [SLASH]) : root_rows (mysqlfs_mknod db p mode uid gid now).2 = root_rows db := by
  rcases mysqlfs_mknod_effect db p mode uid gid now with he | ⟨trow, irow, _, _, _, hpar, he⟩
  · rw [he]
  · rw [he]
    unfold root_rows
    have : trow.parent ≠ none := fun h => hp (hpar h)
    simp [List.filter_append, List.filter_cons, this]

theorem root_rows_unlink (db : DB) (p : List Char) :
    root_rows (mysqlfs_unlink db p).2 = root_rows db := by
  obtain ⟨q, hq, ht⟩ := (mysqlfs_unlink_frame db p).2.1
  unfold root_rows
  rw [ht, List.filter_filter]
  apply List.filter_congr
  intro t _
  by_cases h : t.parent = none
  · simp [h, hq t h]
  · simp [h]

theorem root_rows_of_tree {db db' : DB} (h : db'.tree = db.tree) :
    root_rows db' = root_rows db := by
  unfold root_rows; rw [h]

theorem root_rows_dispatch (db : DB) (op : Op) (hop : ¬ creates_root op) :
    root_rows (dispatch db op).2 = root_rows db := by
  cases op with
  | getattr path => rfl
  | readdir path => rfl
  | read fh buf size offset => rfl
  | readlink path buf size => rfl
  | mknod path mode uid gid now => exact root_rows_mknod db path mode uid gid now hop
  | mkdir path mode uid gid now => exact root_rows_mknod db path _ uid gid now hop
  | unlink path => exact root_rows_unlink db path
  | chmod path mode now =>
    apply root_rows_of_tree
    show (mysqlfs_chmod db path mode now).2.tree = db.tree
    unfold mysqlfs_chmod query_chmod
    simp only []
    split_ifs <;> rfl
  | chown path uid gid now =>
    apply root_rows_of_tree
    show (mysqlfs_chown db path uid gid now).2.tree = db.tree
    unfold mysqlfs_chown query_chown
    simp only []
    split_ifs <;> rfl
  | truncate path_value length now =>
    apply root_rows_of_tree
    show (mysqlfs_truncate db path_value length now).2.tree = db.tree
    unfold mysqlfs_truncate query_truncate
    simp only []
    split_ifs <;> rfl
  | utime path actime past_end =>
    apply root_rows_of_tree
    show (mysqlfs_utime db path actime past_end).2.tree = db.tree
    unfold mysqlfs_utime query_utime
    simp only []
    split_ifs <;> rfl
  | open_ path =>
    apply root_rows_of_tree
    show (mysqlfs_open db path).2.2.tree = db.tree
    unfold mysqlfs_open query_inuse_inc
    simp only []
    split_ifs <;> rfl
  | write fh buf size offset =>
    exact root_rows_of_tree (query_write_frame db fh buf size offset).2.2
  | release fh => rfl
  | link from_ to_ =>
    show root_rows (mysqlfs_link db from_ to_).2 = root_rows db
    unfold mysqlfs_link query_mkdirentry
    simp only []
    split_ifs
    · rfl
    · rfl
    · unfold root_rows
      simp [List.filter_append, List.filter_cons]
  | symlink from_ to_ uid gid now =>
    show root_rows (mysqlfs_symlink db from_ to_ uid gid now).2 = root_rows db
    have h1 := root_rows_mknod db to_ (S_IFLNK ||| 0o755) uid gid now hop
    unfold mysqlfs_symlink
    simp only []
    split_ifs
    all_goals first
      | exact h1
      | exact (root_rows_of_tree (query_write_frame _ _ _ _ _).2.2).trans h1
  | rename from_ to_ to_st =>
    show root_rows (mysqlfs_rename db from_ to_ to_st).2 = root_rows db
    unfold mysqlfs_rename
    simp only []
    rw [(query_rename_frame _ from_ to_ to_st).2.2]
    exact root_rows_unlink db to_

theorem root_rows_run (ops : List Op) (hops : ∀ op ∈ ops, ¬ creates_root op) :
    ∀ db : DB, root_rows (run db ops) = root_rows db := by
  induction ops with
  | nil => intro db; rfl
  | cons op ops ih =>
    intro db
    show root_rows (run (dispatch db op).2 ops) = root_rows db
    rw [ih (fun o ho => hops o (List.mem_cons_of_mem _ ho)),
      root_rows_dispatch db op (hops op (List.mem_cons_self _ _))]

theorem root_rows_query_fsck (db : DB) :
    root_rows (query_fsck db).2 = (root_rows db).filter (fun t =>
      decide (t.inode ∈ (db.inodes.filter (fun r => !decide (r.deleted = 1))).map
        (fun r => r.inode))) := by
  show (db.tree.filter _).filter _ = (db.tree.filter _).filter _
  rw [List.filter_filter, List.filter_filter]
  apply List.filter_congr
  intro t _
  exact Bool.and_comm _ _

theorem setup_root (db : DB) (fsck uid gid now : Nat)
    (h0 : (root_rows db).length ≤ 1)
    (hfsck : fsck = 1 → ∀ t ∈ root_rows db, ∃ i ∈ db.inodes, i.inode = t.inode ∧ i.deleted ≠ 1) :
    (root_rows (pool_check_mysql_setup db true fsck uid gid now).2).length = 1 := by
  have hc : path_components [SLASH] = [] := by decide
  have hres : resolve_rows db.tree [] = root_rows db := rfl
  unfold pool_check_mysql_setup
  simp only [Bool.not_true, Bool.false_eq_true, if_false]
  cases hr : root_rows db with
  | nil =>
    have hq : query_inode_full db [SLASH] = Except.error (-ENOENT) := by
      unfold query_inode_full
      rw [hc, hres, hr]
      rfl
    rw [hq]
    simp only [if_true]
    have hroot : root_rows (query_mkdir db [SLASH] 0o755 0 uid gid now).2 =
        [{ name := [SLASH], parent := none, inode := db.auto_inc }] := by
      unfold root_rows at hr ⊢
      show (db.tree ++ [_]).filter _ = _
      rw [List.filter_append, hr]
      rfl
    have hfs : (root_rows (query_fsck (query_mkdir db [SLASH] 0o755 0 uid gid now).2).2).length
        = 1 := by
      rw [root_rows_query_fsck, hroot]
      have : db.auto_inc ∈ ((query_mkdir db [SLASH] 0o755 0 uid gid now).2.inodes.filter
          (fun r => !decide (r.deleted = 1))).map (fun r => r.inode) := by
        show db.auto_inc ∈ ((db.inodes ++ [_]).filter _).map _
        rw [List.filter_append, List.map_append]
        apply List.mem_append_right
        simp
      simp [List.filter_cons, this]
    split_ifs
    · rw [hroot]; rfl
    · exact hfs
    · rw [hroot]; rfl
  | cons row rest =>
    have hrest : rest = [] := by
      rw [hr] at h0
      cases rest with
      | nil => rfl
      | cons a b => simp at h0
    subst hrest
    have hany : (path_components [SLASH]).any (fun c => decide (c.length > 255)) = false := by
      rw [hc]; rfl
    have hq := @query_inode_full_of_rows db [SLASH] row hany
      (by rw [hc, hres, hr])
    rw [hq]
    have hne : ¬ ((0 : Int) = -ENOENT) := by decide
    simp only [hne, if_false, lt_self_iff_false]
    split_ifs with hf
    · rw [root_rows_query_fsck, hr]
      obtain ⟨i, hi, hii, hid⟩ := hfsck hf row (by rw [hr]; exact List.mem_singleton_self _)
      have : row.inode ∈ (db.inodes.filter (fun r => !decide (r.deleted = 1))).map
          (fun r => r.inode) := by
        rw [← hii]
        apply List.mem_map_of_mem
        simp [hi, hid]
      simp [List.filter_cons, this]
    · rw [hr]; rfl

/-- C15 (counterexample): on the file system that holds the root alone, `mkdir("/")`
returns 0 and leaves two rows with `parent IS NULL`; so does `mknod("/")`. -/
theorem unique_root_counterexample :
    (root_rows db_root).length = 1 ∧
    (mysqlfs_mkdir db_root "/".toList 0o755 0 0 0).1 = 0 ∧
    (root_rows (run db_root [Op.mkdir "/".toList 0o755 0 0 0])).length = 2 ∧
    (root_rows (run db_root [Op.mknod "/".toList 0o100644 0 0 0])).length = 2 := by decide

/-- C15 (amended): on a database with at most one row of `parent IS NULL` (whose inode has
a row not flagged deleted, when the consistency pass is switched on), after the setup of
`pool_init` and any sequence of entries of the operation table in which `mknod`, `mkdir`
and `symlink` are not asked to create the path `/`, exactly one `tree` row has
`parent IS NULL`. -/
theorem unique_root (db : DB) (fsck uid gid now : Nat) (ops : List Op)
    (h0 : (root_rows db).length ≤ 1)
    (hfsck : fsck = 1 → ∀ t ∈ root_rows db, ∃ i ∈ db.inodes, i.inode = t.inode ∧ i.deleted ≠ 1)
    (hops : ∀ op ∈ ops, ¬ creates_root op) :
    (root_rows (run (pool_check_mysql_setup db true fsck uid gid now).2 ops)).length = 1 := by
  rw [root_rows_run ops hops]
  exact setup_root db fsck uid gid now h0 hfsck

/-- Witness of C15: setup (with the consistency pass) on the empty database, then
`mkdir("/d")`, `mknod("/d/f")`, `link("/d/f", "/g")`, `rename("/g", "/h")`, `unlink("/")`,
`unlink("/h")`. -/
theorem unique_root_witness :
    (root_rows (run (pool_check_mysql_setup
      { tree := [], inodes := [], data_blocks := [], auto_inc := 1 } true 1 0 0 0).2
      [Op.mkdir "/d".toList 0o755 0 0 0, Op.mknod "/d/f".toList 0o100644 0 0 0,
       Op.link "/d/f".toList "/g".toList, Op.rename "/g".toList "/h".toList stat_zero,
       Op.unlink "/".toList, Op.unlink "/h".toList])).length = 1 :=
  unique_root { tree := [], inodes := [], data_blocks := [], auto_inc := 1 } 1 0 0 0 _
    (by decide) (by decide)
    (by
      intro op hop
      simp only [List.mem_cons, List.mem_singleton, List.not_mem_nil, or_false] at hop
      rcases hop with rfl | rfl | rfl | rfl | rfl | rfl
      · show ¬ ("/d".toList = [SLASH]); decide
      · show ¬ ("/d/f".toList = [SLASH]); decide
      all_goals exact fun h => h)

/-! ### Referential integrity of the blocks -/

theorem blockRefInt_of {db db' : DB} (h : BlockRefInt db)
    (hb : ∀ b ∈ db'.data_blocks,
      (∃ b0 ∈ db.data_blocks, b0.inode = b.inode) ∨ ∃ j ∈ db'.inodes, j.inode = b.inode)
    (hi : ∀ r ∈ db.inodes, (∃ b ∈ db.data_blocks, b.inode = r.inode) →
      ∃ j ∈ db'.inodes, j.inode = r.inode) : BlockRefInt db' := by
  intro b hbm
  rcases hb b hbm with ⟨b0, hb0, he⟩ | hj
  · obtain ⟨r, hr, hri⟩ := h b0 hb0
    obtain ⟨j, hj, hji⟩ := hi r hr ⟨b0, hb0, hri.symm⟩
    exact ⟨j, hj, by rw [hji, hri, he]⟩
  · exact hj

theorem blockRefInt_of_ids {db db' : DB} (h : BlockRefInt db)
    (hb : db'.data_blocks = db.data_blocks)
    (hi : db'.inodes.map (fun r => r.inode) = db.inodes.map (fun r => r.inode)) :
    BlockRefInt db' := by
  apply blockRefInt_of h
  · intro b hbm
    rw [hb] at hbm
    exact Or.inl ⟨b, hbm, rfl⟩
  · intro r hr _
    have : r.inode ∈ db'.inodes.map (fun r => r.inode) := by
      rw [hi]; exact List.mem_map_of_mem _ hr
    obtain ⟨j, hj, hji⟩ := List.mem_map.1 this
    exact ⟨j, hj, hji⟩

theorem map_ids (l : List InodeRow) (f : InodeRow → InodeRow) (hf : ∀ r, (f r).inode = r.inode) :
    (l.map f).map (fun r => r.inode) = l.map (fun r => r.inode) := by
  rw [List.map_map]
  apply List.map_congr_left
  intro r _
  exact hf r

theorem blockRefInt_mknod (db : DB) (p : List Char) (mode uid gid now : Nat)
    (h : BlockRefInt db) : BlockRefInt (mysqlfs_mknod db p mode uid gid now).2 := by
  rcases mysqlfs_mknod_effect db p mode uid gid now with he | ⟨trow, irow, _, _, _, _, he⟩
  · rw [he]; exact h
  · rw [he]
    apply blockRefInt_of h
    · intro b hb
      exact Or.inl ⟨b, hb, rfl⟩
    · intro r hr _
      exact ⟨r, List.mem_append_left _ hr, rfl⟩

theorem mysqlfs_mknod_new_inode {db : DB} {p : List Char} {mode uid gid now : Nat}
    (h : 0 ≤ (mysqlfs_mknod db p mode uid gid now).1) :
    ∃ i ∈ (mysqlfs_mknod db p mode uid gid now).2.inodes, i.inode = db.auto_inc := by
  obtain ⟨_, _, ht⟩ := mysqlfs_mknod_nonneg h
  rcases mysqlfs_mknod_effect db p mode uid gid now with he | ⟨trow, irow, _, hi, _, _, he⟩
  · exfalso
    rw [he] at ht
    rcases ht with ⟨_, ht⟩ | ⟨_, _, _, ht⟩
    all_goals
      have := congrArg List.length ht
      simp at this
  · rw [he]
    exact ⟨irow, List.mem_append_right _ (List.mem_singleton_self _), hi⟩

theorem blockRefInt_write (db : DB) (fh : Int) (buf : List Char) (size offset : Nat)
    (h : BlockRefInt db) (hfh : ∃ i ∈ db.inodes, i.inode = fh) :
    BlockRefInt (query_write db fh buf size offset).2 := by
  obtain ⟨hm, hb, _⟩ := query_write_frame db fh buf size offset
  have hids : (query_write db fh buf size offset).2.inodes.map (fun r => r.inode) =
      db.inodes.map (fun r => r.inode) := by
    have := congrArg (List.map Prod.fst) hm
    simpa [List.map_map, Function.comp] using this
  have hkeep : ∀ r ∈ db.inodes, ∃ j ∈ (query_write db fh buf size offset).2.inodes,
      j.inode = r.inode := by
    intro r hr
    have : r.inode ∈ (query_write db fh buf size offset).2.inodes.map (fun r => r.inode) := by
      rw [hids]; exact List.mem_map_of_mem _ hr
    obtain ⟨j, hj, hji⟩ := List.mem_map.1 this
    exact ⟨j, hj, hji⟩
  apply blockRefInt_of h
  · intro b hbm
    rcases hb b hbm with hi | hold
    · right
      obtain ⟨i, hi', hii⟩ := hfh
      obtain ⟨j, hj, hji⟩ := hkeep i hi'
      exact ⟨j, hj, by rw [hji, hii, hi]⟩
    · exact Or.inl hold
  · intro r hr _
    exact hkeep r hr

theorem blockRefInt_query_fsck (db : DB) : BlockRefInt (query_fsck db).2 := by
  intro b hb
  have hb' : b ∈ db.data_blocks.filter (fun b => decide (b.inode ∈
      ((db.inodes.filter (fun r => !decide (r.deleted = 1))).map
        (fun r : InodeRow => { r with inuse := 0 })).map (fun r : InodeRow => r.inode))) := hb
  have hmem := (List.mem_filter.1 hb').2
  simp only [decide_eq_true_eq] at hmem
  rw [map_ids _ (fun r : InodeRow => { r with inuse := 0 }) (fun r => rfl),
    ← (query_fsck_rows db).2] at hmem
  obtain ⟨j, hj, hji⟩ := List.mem_map.1 hmem
  exact ⟨j, hj, hji⟩

theorem purge_rows (l : List InodeRow) (f : InodeRow → InodeRow)
    (hf : ∀ r, (f r).inode = r.inode) (k : Int) (g : InodeRow → Prop) [DecidablePred g]
    (i : Int) :
    (∃ j ∈ (l.map f).filter (fun x => !decide (x.inode = k ∧ g x)), j.inode = i) ↔
      ∃ r ∈ l, r.inode = i ∧ ¬ (r.inode = k ∧ g (f r)) := by
  constructor
  · rintro ⟨j, hj, hji⟩
    obtain ⟨hjm, hjk⟩ := List.mem_filter.1 hj
    obtain ⟨r, hr, rfl⟩ := List.mem_map.1 hjm
    refine ⟨r, hr, by rw [← hf r]; exact hji, ?_⟩
    rw [hf r] at hjk
    intro hc
    simp [hc] at hjk
  · rintro ⟨r, hr, hri, hk⟩
    refine ⟨f r, List.mem_filter.2 ⟨List.mem_map_of_mem _ hr, ?_⟩, by rw [hf r]; exact hri⟩
    rw [hf r]
    simp only [Bool.not_eq_true', decide_eq_false_iff_not]
    exact hk

theorem blockRefInt_purge {db db2 : DB} {p : Option Int} (h : BlockRefInt db)
    (hb : db2.data_blocks = db.data_blocks)
    (hi : ∀ i, (∃ j ∈ db2.inodes, j.inode = i) ↔ (∃ r ∈ db.inodes, r.inode = i) ∧ p ≠ some i) :
    BlockRefInt db2 ↔ ∀ b ∈ db.data_blocks, p ≠ some b.inode := by
  constructor
  · intro h2 b hbm
    have hb2 : b ∈ db2.data_blocks := by rw [hb]; exact hbm
    obtain ⟨j, hj, hji⟩ := h2 b hb2
    exact ((hi b.inode).1 ⟨j, hj, hji⟩).2
  · intro hs b hbm
    rw [hb] at hbm
    exact (hi b.inode).2 ⟨h b hbm, hs b hbm⟩

theorem purge_all_iff (l : List InodeRow) (k i : Int) (P : InodeRow → Prop)
    (c : Prop) [Decidable c]
    (hc : c ↔ ((∃ row ∈ l, row.inode = k) ∧ ∀ row ∈ l, row.inode = k → P row)) :
    (∃ r ∈ l, r.inode = i ∧ ¬ (r.inode = k ∧ P r)) ↔
      (∃ r ∈ l, r.inode = i) ∧ (if c then some k else none) ≠ some i := by
  constructor
  · rintro ⟨r, hr, hri, hk⟩
    refine ⟨⟨r, hr, hri⟩, ?_⟩
    split_ifs with hcc
    · intro he
      have he' : k = i := Option.some.inj he
      have hrk : r.inode = k := by rw [hri, he']
      exact hk ⟨hrk, (hc.1 hcc).2 r hr hrk⟩
    · exact fun he => Option.noConfusion he
  · rintro ⟨⟨r, hr, hri⟩, hp⟩
    by_cases hik : i = k
    · subst hik
      have hcc : ¬ c := by
        intro hcc
        rw [if_pos hcc] at hp
        exact hp rfl
      have : ∃ row ∈ l, row.inode = i ∧ ¬ P row := by
        by_contra hno
        apply hcc
        refine hc.2 ⟨⟨r, hr, hri⟩, fun row hrow hrowi => ?_⟩
        by_contra hx
        exact hno ⟨row, hrow, hrowi, hx⟩
      obtain ⟨row, hrow, hrowi, hx⟩ := this
      exact ⟨row, hrow, hrowi, fun hg => hx hg.2⟩
    · refine ⟨r, hr, hri, ?_⟩
      rintro ⟨hrk, _⟩
      exact hik (by rw [← hri, hrk])

theorem release_rows (db : DB) (fh : Int) (i : Int) :
    (∃ j ∈ (mysqlfs_release db fh).2.inodes, j.inode = i) ↔
      (∃ r ∈ db.inodes, r.inode = i) ∧ release_purges db fh ≠ some i := by
  have hpost : (mysqlfs_release db fh).2.inodes =
      (db.inodes.map (fun r : InodeRow =>
        if r.inode = fh then { r with inuse := r.inuse + (-1) } else r)).filter
        (fun x => !decide (x.inode = fh ∧ (x.inuse = 0 ∧ x.deleted = 1))) := rfl
  rw [hpost, purge_rows _ _ (fun r => by split_ifs <;> rfl)]
  unfold release_purges
  rw [← purge_all_iff db.inodes fh i
    (fun row => row.inuse + (-1) = 0 ∧ row.deleted = 1) _ Iff.rfl]
  apply exists_congr
  intro r
  apply and_congr_right
  intro _
  apply and_congr_right
  intro hri
  apply not_congr
  apply and_congr_right
  intro hrf
  rw [if_pos hrf]

theorem unlink_rows (db : DB) (path : List Char) (i : Int) :
    (∃ j ∈ (mysqlfs_unlink db path).2.inodes, j.inode = i) ↔
      (∃ r ∈ db.inodes, r.inode = i) ∧ unlink_purges db path ≠ some i := by
  have hnone : ∀ q : Prop, (q ∧ (none : Option Int) ≠ some i) ↔ q :=
    fun q => ⟨fun h => h.1, fun h => ⟨h, fun he => Option.noConfusion he⟩⟩
  unfold mysqlfs_unlink unlink_purges
  cases hres : query_inode_full db path with
  | error e =>
    simp only []
    rw [hnone]
  | ok rr =>
    simp only []
    unfold query_rmdirentry
    by_cases hch : db.tree.filter (fun t => decide (t.parent = some rr.inode)) ≠ []
    · have hneg : (-ENOTEMPTY : Int) < 0 := by decide
      rw [if_pos hch, if_pos hneg, if_neg (fun hc => hch hc.1), hnone]
    · have hch' : db.tree.filter (fun t => decide (t.parent = some rr.inode)) = [] :=
        not_not.1 hch
      rw [if_neg hch, if_neg (lt_irrefl (0 : Int))]
      by_cases hnl : rr.nlinks > 1
      · rw [if_pos hnl, if_neg (fun hc => hc.2.1 hnl), hnone]
      · rw [if_neg hnl]
        have hL : ∀ k : Int,
            ((db.tree.filter (fun t =>
              !decide (t.name = rr.name ∧ t.parent = some rr.parent))).filter
              (fun t => decide (t.inode = k)) = []) ↔
            ∀ t ∈ db.tree, t.inode = k → t.name = rr.name ∧ t.parent = some rr.parent := by
          intro k
          rw [List.filter_eq_nil_iff]
          constructor
          · intro h t ht hk
            by_contra hx
            exact h t (List.mem_filter.2 ⟨ht, by
              simp only [Bool.not_eq_true', decide_eq_false_iff_not]
              exact hx⟩) (by simpa using hk)
          · intro h t ht hk
            have hk' : t.inode = k := by simpa using hk
            have hx := (List.mem_filter.1 ht).2
            have := h t (List.mem_filter.1 ht).1 hk'
            simp [this] at hx
        have hpost : (query_purge_deleted (query_set_deleted
            { db with tree := db.tree.filter (fun t =>
              !decide (t.name = rr.name ∧ t.parent = some rr.parent)) } rr.inode).2
            rr.inode).2.inodes =
            (db.inodes.map (fun r : InodeRow =>
              if r.inode = rr.inode ∧ (db.tree.filter (fun t =>
                !decide (t.name = rr.name ∧ t.parent = some rr.parent))).filter
                (fun t => decide (t.inode = r.inode)) = []
              then { r with deleted := 1 } else r)).filter
              (fun x => !decide (x.inode = rr.inode ∧ (x.inuse = 0 ∧ x.deleted = 1))) := rfl
        show (∃ j ∈ (query_purge_deleted (query_set_deleted
            { db with tree := db.tree.filter (fun t =>
              !decide (t.name = rr.name ∧ t.parent = some rr.parent)) } rr.inode).2
            rr.inode).2.inodes, j.inode = i) ↔ _
        rw [hpost, purge_rows _ _ (fun r => by split_ifs <;> rfl)]
        rw [← purge_all_iff db.inodes rr.inode i
          (fun row => row.inuse = 0 ∧ (row.deleted = 1 ∨
            ∀ t ∈ db.tree, t.inode = rr.inode → t.name = rr.name ∧ t.parent = some rr.parent))
          _ ⟨fun hc => hc.2.2, fun hc => ⟨hch', hnl, hc⟩⟩]
        apply exists_congr
        intro r
        apply and_congr_right
        intro _
        apply and_congr_right
        intro hri
        apply not_congr
        apply and_congr_right
        intro hrk
        by_cases hE : ∀ t ∈ db.tree, t.inode = rr.inode →
            t.name = rr.name ∧ t.parent = some rr.parent
        · rw [if_pos ⟨hrk, by rw [hrk]; exact (hL rr.inode).2 hE⟩]
          exact ⟨fun h => ⟨h.1, Or.inr hE⟩, fun h => ⟨h.1, rfl⟩⟩
        · rw [if_neg (fun hc => hE ((hL rr.inode).1 (by rw [← hrk]; exact hc.2)))]
          exact ⟨fun h => ⟨h.1, Or.inl h.2⟩,
            fun h => ⟨h.1, h.2.resolve_right hE⟩⟩

theorem refresh_update_mem (db1 : DB) (i : Int) (seq : Nat) (f : List Char → List Char)
    (b : BlockRow) (hb : b ∈ db1.data_blocks) :
    ∃ b2 ∈ (refresh_size (update_block db1 i seq f) i).data_blocks, b2.inode = b.inode := by
  refine ⟨_, List.mem_map_of_mem
    (fun r : BlockRow => if r.inode = i ∧ r.seq = seq then { r with data := f r.data } else r)
    hb, ?_⟩
  split_ifs <;> rfl

theorem write_one_block_mono (db : DB) (i : Int) (seq : Nat) (d : List Char) (sz o : Nat)
    (b : BlockRow) (hb : b ∈ db.data_blocks) :
    ∃ b2 ∈ (write_one_block db i seq d sz o).2.data_blocks, b2.inode = b.inode := by
  unfold write_one_block
  simp only []
  split_ifs <;> first
    | exact ⟨b, hb, rfl⟩
    | exact refresh_update_mem _ _ _ _ _ hb
    | exact refresh_update_mem _ _ _ _ _ (List.mem_append_left _ hb)

theorem write_one_block_has_block (db : DB) (i : Int) (seq : Nat) (d : List Char) (sz o : Nat)
    (hs : sz ≠ 0) (hb : o + sz ≤ DATA_BLOCK_SIZE) :
    ∃ b ∈ (write_one_block db i seq d sz o).2.data_blocks, b.inode = i := by
  have hb' : ¬ o + sz > DATA_BLOCK_SIZE := by omega
  have hnew : (⟨i, seq, []⟩ : BlockRow) ∈ (insert_empty_block db i seq).data_blocks :=
    List.mem_append_right _ (List.mem_singleton_self _)
  by_cases hq : query_size_block db i seq = - ENXIO
  · unfold write_one_block
    simp only []
    rw [if_neg hs, if_neg hb']
    split_ifs <;> exact refresh_update_mem _ _ _ _ _ hnew
  · have hex : ∃ r ∈ db.data_blocks, r.inode = i := by
      unfold query_size_block at hq
      cases hr : block_rows db i seq with
      | nil => rw [hr] at hq; exact absurd rfl hq
      | cons r l =>
        have hmem : r ∈ block_rows db i seq := by rw [hr]; exact List.mem_cons_self _ _
        unfold block_rows at hmem
        obtain ⟨h1, h2⟩ := List.mem_filter.1 hmem
        exact ⟨r, h1, (of_decide_eq_true h2).1⟩
    obtain ⟨r, hr, hri⟩ := hex
    obtain ⟨b2, hb2, hbi⟩ := write_one_block_mono db i seq d sz o r hr
    exact ⟨b2, hb2, by rw [hbi, hri]⟩

theorem query_write_has_block (db : DB) (i : Int) (data : List Char) (size offset : Nat)
    (hs : size ≠ 0) :
    ∃ b ∈ (query_write db i data size offset).2.data_blocks, b.inode = i := by
  obtain ⟨hof, hll, hle, heq, hne⟩ := fill_facts size offset
  have hD : DATA_BLOCK_SIZE = 4096 := rfl
  apply query_write_chain db i data size offset (fun d => ∃ b ∈ d.data_blocks, b.inode = i)
  · by_cases hc : (fill_data_blocks_info size offset).seq_first =
        (fill_data_blocks_info size offset).seq_last
    · exact write_one_block_has_block _ _ _ _ _ _ (by rw [(heq hc).1]; exact hs)
        (by have := heq hc; rw [hD]; omega)
    · exact write_one_block_has_block _ _ _ _ _ _ (by have := (hne hc).1; omega)
        (by have := (hne hc).1; rw [hD]; omega)
  · rintro db2 seq d sz o ⟨b, hb, hbi⟩
    obtain ⟨b2, hb2, h2⟩ := write_one_block_mono db2 i seq d sz o b hb
    exact ⟨b2, hb2, by rw [h2, hbi]⟩

theorem blockRefInt_write_iff (db : DB) (fh : Int) (buf : List Char) (size offset : Nat)
    (h : BlockRefInt db) :
    BlockRefInt (query_write db fh buf size offset).2 ↔
      (size ≠ 0 → ∃ r ∈ db.inodes, r.inode = fh) := by
  constructor
  · intro h2 hs
    obtain ⟨b, hb, hbi⟩ := query_write_has_block db fh buf size offset hs
    obtain ⟨j, hj, hji⟩ := h2 b hb
    have hm := (query_write_frame db fh buf size offset).1
    have hids : (query_write db fh buf size offset).2.inodes.map (fun r => r.inode) =
        db.inodes.map (fun r => r.inode) := by
      have := congrArg (List.map Prod.fst) hm
      simpa [List.map_map, Function.comp] using this
    have : j.inode ∈ db.inodes.map (fun r => r.inode) := by
      rw [← hids]; exact List.mem_map_of_mem _ hj
    obtain ⟨r, hr, hri⟩ := List.mem_map.1 this
    exact ⟨r, hr, by rw [hri, hji, hbi]⟩
  · intro hc
    by_cases hs : size = 0
    · subst hs
      rw [query_write_zero]
      exact h
    · exact blockRefInt_write db fh buf size offset h (hc hs)

theorem blockRefInt_congr {db db2 : DB} (hb : db2.data_blocks = db.data_blocks)
    (hi : db2.inodes = db.inodes) : BlockRefInt db2 ↔ BlockRefInt db := by
  unfold BlockRefInt
  rw [hb, hi]

theorem purge_safe_quiet (db : DB) (op : Op) (hp : purged_inode db op = none)
    (hw : written_inode op = none) : purge_safe db op :=
  ⟨fun _ _ he => Option.noConfusion (hp.symm.trans he), Or.inl hw⟩

theorem purge_safe_purge (db : DB) (op : Op) (hw : written_inode op = none) :
    purge_safe db op ↔ ∀ b ∈ db.data_blocks, purged_inode db op ≠ some b.inode :=
  ⟨fun h => h.1, fun h => ⟨h, Or.inl hw⟩⟩

theorem blockRefInt_dispatch (db : DB) (op : Op) (h : BlockRefInt db) :
    BlockRefInt (dispatch db op).2 ↔ purge_safe db op := by
  cases op with
  | getattr path =>
    refine ⟨fun _ => purge_safe_quiet db _ rfl rfl, fun _ => ?_⟩
    exact h
  | readdir path =>
    refine ⟨fun _ => purge_safe_quiet db _ rfl rfl, fun _ => ?_⟩
    exact h
  | read fh buf size offset =>
    refine ⟨fun _ => purge_safe_quiet db _ rfl rfl, fun _ => ?_⟩
    exact h
  | readlink path buf size =>
    refine ⟨fun _ => purge_safe_quiet db _ rfl rfl, fun _ => ?_⟩
    exact h
  | mknod path mode uid gid now =>
    refine ⟨fun _ => purge_safe_quiet db _ rfl rfl, fun _ => ?_⟩
    exact blockRefInt_mknod db path mode uid gid now h
  | mkdir path mode uid gid now =>
    refine ⟨fun _ => purge_safe_quiet db _ rfl rfl, fun _ => ?_⟩
    exact blockRefInt_mknod db path _ uid gid now h
  | chmod path mode now =>
    refine ⟨fun _ => purge_safe_quiet db _ rfl rfl, fun _ => ?_⟩
    show BlockRefInt (mysqlfs_chmod db path mode now).2
    unfold mysqlfs_chmod query_chmod
    simp only []
    split_ifs
    · exact h
    all_goals
      exact blockRefInt_of_ids h rfl (map_ids _ _ (fun r => by split_ifs <;> rfl))
  | chown path uid gid now =>
    refine ⟨fun _ => purge_safe_quiet db _ rfl rfl, fun _ => ?_⟩
    show BlockRefInt (mysqlfs_chown db path uid gid now).2
    unfold mysqlfs_chown query_chown
    simp only []
    split_ifs
    all_goals first
      | exact h
      | exact blockRefInt_of_ids h rfl (map_ids _ _ (fun r => by split_ifs <;> rfl))
  | truncate path_value length now =>
    refine ⟨fun _ => purge_safe_quiet db _ rfl rfl, fun _ => ?_⟩
    show BlockRefInt (mysqlfs_truncate db path_value length now).2
    have hsame : ∀ r : Int × DB, (if r.1 < 0 then (- EIO, r.2) else (0, r.2)).2 = r.2 := by
      intro r; split_ifs <;> rfl
    unfold mysqlfs_truncate
    simp only []
    rw [hsame]
    apply blockRefInt_of h
    · intro b hb
      left
      unfold query_truncate update_block at hb
      simp only [List.mem_map, List.mem_filter] at hb
      obtain ⟨b0, ⟨hb0, _⟩, rfl⟩ := hb
      refine ⟨b0, hb0, ?_⟩
      split_ifs <;> rfl
    · intro r hr _
      unfold query_truncate
      simp only []
      refine ⟨_, List.mem_map_of_mem _ hr, ?_⟩
      split_ifs <;> rfl
  | utime path actime past_end =>
    refine ⟨fun _ => purge_safe_quiet db _ rfl rfl, fun _ => ?_⟩
    show BlockRefInt (mysqlfs_utime db path actime past_end).2
    unfold mysqlfs_utime query_utime
    simp only []
    split_ifs
    all_goals first
      | exact h
      | exact blockRefInt_of_ids h rfl (map_ids _ _ (fun r => by split_ifs <;> rfl))
  | open_ path =>
    refine ⟨fun _ => purge_safe_quiet db _ rfl rfl, fun _ => ?_⟩
    show BlockRefInt (mysqlfs_open db path).2.2
    unfold mysqlfs_open query_inuse_inc
    simp only []
    split_ifs
    · exact h
    · exact blockRefInt_of_ids h rfl (map_ids _ _ (fun r => by split_ifs <;> rfl))
  | link from_ to_ =>
    refine ⟨fun _ => purge_safe_quiet db _ rfl rfl, fun _ => ?_⟩
    show BlockRefInt (mysqlfs_link db from_ to_).2
    unfold mysqlfs_link query_mkdirentry
    simp only []
    split_ifs <;> exact h
  | symlink from_ to_ uid gid now =>
    refine ⟨fun _ => purge_safe_quiet db _ rfl rfl, fun _ => ?_⟩
    show BlockRefInt (mysqlfs_symlink db from_ to_ uid gid now).2
    have h1 := blockRefInt_mknod db to_ (S_IFLNK ||| 0o755) uid gid now h
    unfold mysqlfs_symlink
    simp only []
    by_cases hmk : (mysqlfs_mknod db to_ (S_IFLNK ||| 0o755) uid gid now).1 < 0
    · rw [if_pos hmk]; exact h1
    rw [if_neg hmk]
    by_cases hres : query_inode (mysqlfs_mknod db to_ (S_IFLNK ||| 0o755) uid gid now).2 to_ < 0
    · rw [if_pos hres]; exact h1
    rw [if_neg hres]
    apply blockRefInt_write _ _ _ _ _ h1
    rw [symlink_target_inode (not_lt.1 hmk) (not_lt.1 hres)]
    exact mysqlfs_mknod_new_inode (not_lt.1 hmk)
  | unlink path =>
    rw [purge_safe_purge db (Op.unlink path) rfl]
    exact blockRefInt_purge h (mysqlfs_unlink_frame db path).1 (unlink_rows db path)
  | release fh =>
    rw [purge_safe_purge db (Op.release fh) rfl]
    exact blockRefInt_purge h rfl (release_rows db fh)
  | rename from_ to_ to_st =>
    rw [purge_safe_purge db (Op.rename from_ to_ to_st) rfl]
    obtain ⟨hb, hi, _⟩ := query_rename_frame (mysqlfs_unlink db to_).2 from_ to_ to_st
    exact (blockRefInt_congr hb hi).trans
      (blockRefInt_purge h (mysqlfs_unlink_frame db to_).1 (unlink_rows db to_))
  | write fh buf size offset =>
    show BlockRefInt (query_write db fh buf size offset).2 ↔ _
    rw [blockRefInt_write_iff _ _ _ _ _ h]
    unfold purge_safe written_inode
    simp only []
    constructor
    · intro hc
      refine ⟨fun _ _ he => Option.noConfusion he, ?_⟩
      by_cases hs : size = 0
      · exact Or.inl (if_pos hs)
      · obtain ⟨r, hr, hri⟩ := hc hs
        exact Or.inr ⟨r, hr, by rw [if_neg hs, hri]⟩
    · rintro ⟨_, hw⟩ hs
      rw [if_neg hs] at hw
      rcases hw with hw | ⟨r, hr, hri⟩
      · exact Option.noConfusion hw
      · exact ⟨r, hr, (Option.some.inj hri).symm⟩

/-- C14 (counterexample): `unlink` of the last link of the file that holds the block "a"
returns 0 and purges the inode row, the block stays; and from the file system that holds
the root alone, `mknod`, `open`, `unlink`, `write` through the handle and `release` (or
`release` and then `write`) leave a block of inode 2 with no row of inode 2. -/
theorem block_integrity_counterexample :
    BlockRefInt db_a ∧ (mysqlfs_unlink db_a "/a".toList).1 = 0 ∧
    ¬ BlockRefInt (mysqlfs_unlink db_a "/a".toList).2 ∧
    BlockRefInt (run db_root [Op.mknod "/x".toList 0o100644 0 0 0, Op.open_ "/x".toList,
      Op.unlink "/x".toList, Op.write 2 ['z'] 1 0]) ∧
    ¬ BlockRefInt (run db_root [Op.mknod "/x".toList 0o100644 0 0 0, Op.open_ "/x".toList,
      Op.unlink "/x".toList, Op.write 2 ['z'] 1 0, Op.release 2]) ∧
    ¬ BlockRefInt (run db_root [Op.mknod "/x".toList 0o100644 0 0 0, Op.open_ "/x".toList,
      Op.unlink "/x".toList, Op.release 2, Op.write 2 ['z'] 1 0]) := by decide

/-- C14 (amended): after `query_fsck` the inode of every `data_blocks` row is the id of an
`inodes` row; and from a state with this property a call of an entry of the operation
table leads to a state with it exactly when the call purges no inode that has blocks and,
for a `write` of at least one byte, the handle is the id of an `inodes` row. -/
theorem block_integrity_preserved :
    (∀ db : DB, BlockRefInt (query_fsck db).2) ∧
    (∀ (db : DB) (op : Op), BlockRefInt db →
      (BlockRefInt (dispatch db op).2 ↔ purge_safe db op)) :=
  ⟨blockRefInt_query_fsck, blockRefInt_dispatch⟩

/-- Witness of C14: the consistency pass after the last link of a file with a block was
removed; a write to the existing inode 2; `release` of a file with a block that is not
deleted; `unlink` of one of the two names of a file with a block; `open`, `write` and
`release` of a file that keeps its name. -/
theorem block_integrity_preserved_witness :
    BlockRefInt (query_fsck (mysqlfs_unlink db_a "/a".toList).2).2 ∧
    BlockRefInt (dispatch db_a (Op.write 2 ['z'] 1 0)).2 ∧
    BlockRefInt (dispatch db_a (Op.release 2)).2 ∧
    BlockRefInt (dispatch (run db_a [Op.link "/a".toList "/z".toList])
      (Op.unlink "/a".toList)).2 ∧
    BlockRefInt (dispatch (run db_fresh [Op.open_ "/a".toList, Op.write 2 ['z'] 1 0])
      (Op.release 2)).2 ∧
    ¬ purge_safe db_a (Op.unlink "/a".toList) :=
  ⟨block_integrity_preserved.1 _,
   (block_integrity_preserved.2 db_a (Op.write 2 ['z'] 1 0) (by decide)).2 (by decide),
   (block_integrity_preserved.2 db_a (Op.release 2) (by decide)).2 (by decide),
   (block_integrity_preserved.2 (run db_a [Op.link "/a".toList "/z".toList])
     (Op.unlink "/a".toList) (by decide)).2 (by decide),
   (block_integrity_preserved.2 (run db_fresh [Op.open_ "/a".toList, Op.write 2 ['z'] 1 0])
     (Op.release 2) (by decide)).2 (by decide),
   by decide⟩

/-! ### The consistency pass: idempotence and the size it stores -/

/-- C17: `query_fsck` returns 0 and is idempotent: for every database, running it on its
own result yields the same return value, the same three relations and the same counter
as running it once. -/
theorem fsck_idempotent (s : DB) :
    (query_fsck s).1 = 0 ∧ query_fsck (query_fsck s).2 = query_fsck s :=
  ⟨rfl, query_fsck_idem s⟩

/-- C18 (evaluation at the failing input): the file with the single block 1 of length 1
has size 4097, as the size invariant asks; `query_fsck` keeps the block and sets the size
to 1, the sum of the block lengths.  With block 0 = "a" and block 1 = "X" the size
becomes 2. -/
theorem fsck_sparse_size :
    SizeInv db_sparse ∧ query_size db_sparse 2 = 4097 ∧
    (query_fsck db_sparse).1 = 0 ∧
    (query_fsck db_sparse).2.data_blocks = [{ inode := 2, seq := 1, data := ['X'] }] ∧
    query_size (query_fsck db_sparse).2 2 = 1 ∧
    ¬ SizeInv (query_fsck db_sparse).2 ∧
    query_size (query_fsck (query_write db_a 2 ['X'] 1 4096).2).2 2 = 2 ∧
    ¬ SizeInv (query_fsck (query_write db_a 2 ['X'] 1 4096).2).2 := by decide

/-! ### Sessions held by an entry -/

/-- With a session at hand the entry with its pool calls returns the value and leaves
the database of `mysqlfs_unlink`. -/
theorem mysqlfs_unlink_pooled_eq (pool : Pool) (db : DB) (path : List Char) (ok : Bool)
    (h : (pool_get pool ok).1.isSome) :
    ((mysqlfs_unlink_pooled pool db path ok).ret, (mysqlfs_unlink_pooled pool db path ok).db) =
      mysqlfs_unlink db path := by
  unfold mysqlfs_unlink_pooled mysqlfs_unlink
  rcases hg : pool_get pool ok with ⟨c, pool1⟩
  rw [hg] at h
  cases c with
  | none => simp at h
  | some dbconn =>
    simp only []
    cases hres : query_inode_full db path with
    | error e => rfl
    | ok r =>
      simp only []
      split_ifs <;> rfl

/-- The entry `mysqlfs_unlink` keeps a session exactly when it obtained one, returns 0 and
the inode had more than one link. -/
theorem mysqlfs_unlink_pooled_held (pool : Pool) (db : DB) (path : List Char) (ok : Bool) :
    (mysqlfs_unlink_pooled pool db path ok).held ≠ [] ↔
      ((pool_get pool ok).1.isSome ∧ (mysqlfs_unlink db path).1 = 0 ∧
        ∃ r, query_inode_full db path = Except.ok r ∧ r.nlinks > 1) := by
  unfold mysqlfs_unlink_pooled mysqlfs_unlink
  rcases hg : pool_get pool ok with ⟨c, pool1⟩
  cases c with
  | none => simp
  | some dbconn =>
    simp only [Option.isSome_some, true_and]
    cases hres : query_inode_full db path with
    | error e =>
      simp
    | ok r =>
      simp only []
      by_cases h1 : (query_rmdirentry db r.name r.inode r.parent).1 < 0
      · rw [if_pos h1, if_pos h1]
        have : ¬ (query_rmdirentry db r.name r.inode r.parent).1 = 0 := by omega
        simp [this]
      · rw [if_neg h1, if_neg h1]
        by_cases h2 : r.nlinks > 1
        · rw [if_pos h2, if_pos h2]
          simp [h2]
        · rw [if_neg h2, if_neg h2]
          simp [h2]

/-- C19 (evaluation at the failing input): `/a` is one of two names of inode 2 and the pool
holds one idle session.  `mysqlfs_unlink("/a")` returns 0 and still holds the session it
obtained (the idle stack is left empty), where on a file with one name it holds none and
leaves the pool as it was; `mysqlfs_rename("/z", "/a")` returns 0 with the session of its
`mysqlfs_unlink(to)` still held. -/
theorem unlink_keeps_session :
    query_inode_full db_two "/a".toList =
      Except.ok { inode := 2, name := ['a'], parent := 1, nlinks := 2 } ∧
    (mysqlfs_unlink_pooled pool_one db_two "/a".toList true).ret = 0 ∧
    (mysqlfs_unlink_pooled pool_one db_two "/a".toList true).held = [0] ∧
    (mysqlfs_unlink_pooled pool_one db_two "/a".toList true).pool.lifo_pool = [] ∧
    (mysqlfs_unlink_pooled pool_one db_fresh "/a".toList true).held = [] ∧
    (mysqlfs_unlink_pooled pool_one db_fresh "/a".toList true).pool = pool_one ∧
    (mysqlfs_rename_pooled pool_one db_two "/z".toList "/a".toList stat_zero true).ret = 0 ∧
    (mysqlfs_rename_pooled pool_one db_two "/z".toList "/a".toList stat_zero true).held = [0] := by
  decide

/-! ### Statements that fail -/

/-- When every statement is executed the entries with failure flags are the entries
defined before. -/
theorem rc_agree (db : DB) (path : List Char) (i : Int) (L now mode uid gid : Nat) :
    mysqlfs_readdir_rc db path true = mysqlfs_readdir db path ∧
    mysqlfs_truncate_rc db i L now true true true = mysqlfs_truncate db i L now ∧
    mysqlfs_mknod_rc db path mode uid gid now true true = mysqlfs_mknod db path mode uid gid now :=
  ⟨rfl, rfl, rfl⟩

/-- The entry `mysqlfs_readdir` returns 0 for every path that resolves, whether or not the
listing statement is executed. -/
theorem mysqlfs_readdir_rc_zero (db : DB) (path : List Char) (ok : Bool)
    (h : 0 ≤ query_inode db path) : (mysqlfs_readdir_rc db path ok).1 = 0 := by
  unfold mysqlfs_readdir_rc
  simp only []
  rw [if_neg (by omega)]

/-- C20 (evaluation at the failing inputs): when the listing statement fails,
`query_readdir` returns `- EIO` and `mysqlfs_readdir("/")` returns 0; when any one of the
three statements of `query_truncate` fails, `mysqlfs_truncate` returns 0; when the
`INSERT` into `tree` fails, `mysqlfs_mknod("/a")` returns 0 and nothing is created; when
the `INSERT` into `inodes` fails it returns 0 and the `tree` row stays without an inode
row. -/
theorem db_failure_not_eio :
    (query_readdir_rc db_fresh 1 false).1 = - EIO ∧
    (mysqlfs_readdir_rc db_fresh "/".toList false).1 = 0 ∧
    (∀ v : Int,
      (query_truncate_rc db_a v 0 0 false true true).1 = MYSQL_QUERY_FAILED ∧
      (mysqlfs_truncate_rc db_a v 0 0 false true true).1 = 0 ∧
      (mysqlfs_truncate_rc db_a v 0 0 true false true).1 = 0 ∧
      (mysqlfs_truncate_rc db_a v 0 0 true true false).1 = 0) ∧
    (query_mknod_rc db_root "/a".toList 0o100644 1 0 0 0 false true).1 = MYSQL_QUERY_FAILED ∧
    mysqlfs_mknod_rc db_root "/a".toList 0o100644 0 0 0 false true = (0, db_root) ∧
    (mysqlfs_mknod_rc db_root "/a".toList 0o100644 0 0 0 true false).1 = 0 ∧
    (mysqlfs_mknod_rc db_root "/a".toList 0o100644 0 0 0 true false).2.tree =
      db_root.tree ++ [{ name := ['a'], parent := some 1, inode := 2 }] ∧
    (mysqlfs_mknod_rc db_root "/a".toList 0o100644 0 0 0 true false).2.inodes =
      db_root.inodes := by
  refine ⟨by decide, by decide, ?_, by decide, by decide, by decide, by decide, by decide⟩
  intro v
  exact ⟨rfl, rfl, rfl, rfl⟩

/-! ### Block arithmetic of the writer and of truncation -/

/-- C27: for every block content `old` of at most 4096 characters (the empty content when
the block is not stored), every in-block offset `off` and every non-empty `data` with
`off + length(data) ≤ 4096`, `write_one_block` returns `length(data)` and leaves in the
block `old` cut to `off` characters (padded with NULs up to `off` when it is shorter),
then `data`, then the characters of `old` from position `off + length(data)` on; the new
length is `max(length(old), off + length(data))` and at most 4096. -/
theorem write_one_block_splice (db : DB) (inode : Int) (seq : Nat) (data : List Char)
    (off : Nat) (old : List Char)
    (hold : (block_at db inode seq).getD [] = old) (hcur : old.length ≤ 4096)
    (hne : data ≠ []) (hfit : off + data.length ≤ 4096) :
    (write_one_block db inode seq data data.length off).1 = (data.length : Int) ∧
    block_at (write_one_block db inode seq data data.length off).2 inode seq =
      some (block_splice old off data) ∧
    block_splice old off data =
      (if old.length < off then old ++ List.replicate (off - old.length) NUL else old.take off)
        ++ data ++ (if off + data.length < old.length then old.drop (off + data.length) else []) ∧
    (block_splice old off data).length = max old.length (off + data.length) ∧
    (block_splice old off data).length ≤ 4096 := by
  have hs : data.length ≠ 0 := by
    intro h; exact hne (List.length_eq_zero.1 h)
  obtain ⟨h1, h2, _, _⟩ := write_one_block_spec db inode seq data data.length off hs
    (by rw [show DATA_BLOCK_SIZE = 4096 from rfl]; exact hfit) (le_refl _)
  refine ⟨h1, ?_, ?_, block_splice_length old off data, ?_⟩
  · rw [h2, if_pos ⟨rfl, rfl⟩, hold, List.take_length]
  · unfold block_splice sql_rpad
    congr 1
    · congr 1
      split_ifs with h
      · rw [List.take_of_length_le (le_of_lt h)]
      · have : off - old.length = 0 := by omega
        rw [this]; simp
    · split_ifs with h
      · rfl
      · exact List.drop_eq_nil_of_le (by omega)
  · rw [block_splice_length]
    omega

/-- Witness of C27: "XY" written at in-block offset 3 of the block "a". -/
theorem write_one_block_splice_witness :
    (write_one_block db_a 2 0 ['X', 'Y'] 2 3).1 = 2 ∧
    block_at (write_one_block db_a 2 0 ['X', 'Y'] 2 3).2 2 0 =
      some (block_splice ['a'] 3 ['X', 'Y']) ∧
    block_splice ['a'] 3 ['X', 'Y'] = ['a', NUL, NUL, 'X', 'Y'] :=
  ⟨(write_one_block_splice db_a 2 0 ['X', 'Y'] 3 ['a'] (by decide) (by decide) (by decide)
      (by decide)).1,
   (write_one_block_splice db_a 2 0 ['X', 'Y'] 3 ['a'] (by decide) (by decide) (by decide)
      (by decide)).2.1, by decide⟩

/-- C28: `fill_data_blocks_info(length, 0)`, as `query_truncate` calls it, and the split
of offset `length` and size 0 agree on `seq_last = length / 4096` and on
`length_last = length % 4096`, and `query_truncate` is the function obtained with the
second split: it uses no other field. -/
theorem truncate_argument_order (length : Nat) :
    (fill_data_blocks_info length 0).seq_last = length / 4096 ∧
    (fill_data_blocks_info 0 length).seq_last = length / 4096 ∧
    (fill_data_blocks_info length 0).length_last = length % 4096 ∧
    (fill_data_blocks_info 0 length).length_last = length % 4096 ∧
    (∀ (db : DB) (inode : Int) (now : Nat),
      query_truncate db inode length now =
        (0, { update_block { db with data_blocks := db.data_blocks.filter (fun r =>
              !decide (r.inode = inode ∧ r.seq > (fill_data_blocks_info 0 length).seq_last)) }
              inode (fill_data_blocks_info 0 length).seq_last
              (fun d => sql_rpad d (fill_data_blocks_info 0 length).length_last) with
            inodes := db.inodes.map (fun r =>
              if r.inode = inode then
                { r with size := (length : Int), mtime := now, ctime := now }
              else r) })) := by
  have h1 : (fill_data_blocks_info length 0).seq_last = length / 4096 := by
    simp [fill_data_blocks_info, DATA_BLOCK_SIZE]
  have h2 : (fill_data_blocks_info 0 length).seq_last = length / 4096 := by
    have := Nat.mod_lt length (show 4096 > 0 by decide)
    simp [fill_data_blocks_info, DATA_BLOCK_SIZE, Nat.div_eq_of_lt this]
  have h3 : (fill_data_blocks_info length 0).length_last = length % 4096 := by
    simp [fill_data_blocks_info, DATA_BLOCK_SIZE]
  have h4 : (fill_data_blocks_info 0 length).length_last = length % 4096 := by
    simp [fill_data_blocks_info, DATA_BLOCK_SIZE]
  refine ⟨h1, h2, h3, h4, ?_⟩
  intro db inode now
  rw [h2, h4, ← h1, ← h3]
  rfl

theorem write_one_block_ret (db : DB) (i : Int) (seq : Nat) (d : List Char) (sz o : Nat)
    (h : o + sz ≤ DATA_BLOCK_SIZE) : (write_one_block db i seq d sz o).1 = (sz : Int) := by
  unfold write_one_block
  simp only []
  by_cases h0 : sz = 0
  · rw [if_pos h0, h0]; rfl
  · rw [if_neg h0, if_neg (by omega)]

theorem write_intermediate_ret (i : Int) (count : Nat) :
    ∀ (seq : Nat) (ptr : List Char) (ret : Int) (db : DB),
      (write_intermediate i count seq ptr ret db).1 =
        Sum.inr (ptr.drop (count * DATA_BLOCK_SIZE),
          ret + ((count * DATA_BLOCK_SIZE : Nat) : Int)) := by
  induction count with
  | zero => intro seq ptr ret db; simp [write_intermediate]
  | succ n ih =>
    intro seq ptr ret db
    have hr := write_one_block_ret db i seq ptr DATA_BLOCK_SIZE 0 (by omega)
    unfold write_intermediate
    simp only []
    rw [if_neg (by rw [hr]; exact not_lt.2 (Int.natCast_nonneg _)), ih, hr, List.drop_drop]
    congr 2
    · rw [Nat.add_mul, Nat.one_mul, Nat.add_comm]
    · push_cast; ring

theorem query_write_ret (db : DB) (i : Int) (data : List Char) (size offset : Nat) :
    (query_write db i data size offset).1 = (size : Int) := by
  obtain ⟨hof, hll, hle, heq, hne⟩ := fill_facts size offset
  have hD : DATA_BLOCK_SIZE = 4096 := rfl
  have hfirst : (fill_data_blocks_info size offset).offset_first +
      (fill_data_blocks_info size offset).length_first ≤ DATA_BLOCK_SIZE := by
    rw [hD]
    by_cases hc : (fill_data_blocks_info size offset).seq_first =
        (fill_data_blocks_info size offset).seq_last
    · have := heq hc; omega
    · have := hne hc; omega
  have hr1 := write_one_block_ret db i (fill_data_blocks_info size offset).seq_first data
    (fill_data_blocks_info size offset).length_first
    (fill_data_blocks_info size offset).offset_first (by omega)
  unfold query_write
  simp only []
  rw [if_neg (by rw [hr1]; exact not_lt.2 (Int.natCast_nonneg _))]
  by_cases hc : (fill_data_blocks_info size offset).seq_first =
      (fill_data_blocks_info size offset).seq_last
  · rw [if_pos hc, hr1, (heq hc).1]
  · rw [if_neg hc]
    have hw := write_intermediate_ret i
      ((fill_data_blocks_info size offset).seq_last -
        ((fill_data_blocks_info size offset).seq_first + 1))
      ((fill_data_blocks_info size offset).seq_first + 1)
      (data.drop (fill_data_blocks_info size offset).length_first)
      (write_one_block db i (fill_data_blocks_info size offset).seq_first data
        (fill_data_blocks_info size offset).length_first
        (fill_data_blocks_info size offset).offset_first).1
      (write_one_block db i (fill_data_blocks_info size offset).seq_first data
        (fill_data_blocks_info size offset).length_first
        (fill_data_blocks_info size offset).offset_first).2
    rcases hwi : write_intermediate i
      ((fill_data_blocks_info size offset).seq_last -
        ((fill_data_blocks_info size offset).seq_first + 1))
      ((fill_data_blocks_info size offset).seq_first + 1)
      (data.drop (fill_data_blocks_info size offset).length_first)
      (write_one_block db i (fill_data_blocks_info size offset).seq_first data
        (fill_data_blocks_info size offset).length_first
        (fill_data_blocks_info size offset).offset_first).1
      (write_one_block db i (fill_data_blocks_info size offset).seq_first data
        (fill_data_blocks_info size offset).length_first
        (fill_data_blocks_info size offset).offset_first).2 with ⟨res, db2⟩
    rw [hwi] at hw
    simp only [] at hw
    subst hw
    simp only []
    have hr2 := write_one_block_ret db2 i (fill_data_blocks_info size offset).seq_last
      (List.drop (((fill_data_blocks_info size offset).seq_last -
        ((fill_data_blocks_info size offset).seq_first + 1)) * DATA_BLOCK_SIZE)
        (List.drop (fill_data_blocks_info size offset).length_first data))
      (fill_data_blocks_info size offset).length_last 0 (by omega)
    rw [if_neg (by rw [hr2]; exact not_lt.2 (Int.natCast_nonneg _)), hr2, hr1]
    have hsum := (hne hc).2
    rw [hD]
    have : ((fill_data_blocks_info size offset).length_first : Int) +
        (((fill_data_blocks_info size offset).seq_last -
          ((fill_data_blocks_info size offset).seq_first + 1)) * 4096 : Nat) +
        ((fill_data_blocks_info size offset).length_last : Int) = (size : Int) := by
      conv_rhs => rw [hsum]
      push_cast
      ring
    exact this

/-- C29: for every size and offset the three kinds of call `query_write` makes to
`write_one_block` stay inside the block (`offset_first + length_first ≤ 4096`,
`0 + 4096 ≤ 4096`, `0 + length_last ≤ 4096`); `query_write` returns `size`, never `- EIO`;
and when `seq_first = seq_last` it is the single call for the first block. -/
theorem block_overflow_unreachable (db : DB) (inode : Int) (data : List Char)
    (size offset : Nat) :
    (fill_data_blocks_info size offset).offset_first +
      (fill_data_blocks_info size offset).length_first ≤ 4096 ∧
    0 + DATA_BLOCK_SIZE ≤ 4096 ∧
    0 + (fill_data_blocks_info size offset).length_last ≤ 4096 ∧
    (query_write db inode data size offset).1 = (size : Int) ∧
    (query_write db inode data size offset).1 ≠ - EIO ∧
    ((fill_data_blocks_info size offset).seq_first = (fill_data_blocks_info size offset).seq_last →
      query_write db inode data size offset =
        write_one_block db inode (fill_data_blocks_info size offset).seq_first data
          (fill_data_blocks_info size offset).length_first
          (fill_data_blocks_info size offset).offset_first) := by
  obtain ⟨hof, hll, hle, heq, hne⟩ := fill_facts size offset
  have hr := query_write_ret db inode data size offset
  refine ⟨?_, le_refl _, by omega, hr, ?_, ?_⟩
  · by_cases hc : (fill_data_blocks_info size offset).seq_first =
        (fill_data_blocks_info size offset).seq_last
    · have := heq hc; omega
    · have := hne hc; omega
  · rw [hr]
    have : (- EIO : Int) < 0 := by decide
    have := Int.natCast_nonneg size
    omega
  · intro hc
    have hr1 := write_one_block_ret db inode (fill_data_blocks_info size offset).seq_first data
      (fill_data_blocks_info size offset).length_first
      (fill_data_blocks_info size offset).offset_first
      (by have := heq hc; rw [show DATA_BLOCK_SIZE = 4096 from rfl]; omega)
    unfold query_write
    simp only []
    rw [if_neg (by rw [hr1]; exact not_lt.2 (Int.natCast_nonneg _)), if_pos hc]

/-! ### Bounds of the reader -/

theorem strtok_all_slash (cs cur : List Char) :
    strtok_all (SLASH :: cs) cur =
      if cur = [] then strtok_all cs [] else cur :: strtok_all cs [] := by
  simp [strtok_all]

theorem strtok_all_collapse (p : List Char) :
    ∀ cur : List Char, strtok_all (collapse_slashes p) cur = strtok_all p cur := by
  induction p with
  | nil => intro cur; rfl
  | cons c cs ih =>
    intro cur
    by_cases hc : c = SLASH
    · subst hc
      have ih0 := ih []
      rw [strtok_all_slash]
      simp only [collapse_slashes, if_true]
      cases hq : collapse_slashes cs with
      | nil =>
        rw [hq] at ih0
        rw [← ih0]
        simp [strtok_all]
      | cons d ds =>
        rw [hq] at ih0
        simp only []
        by_cases hd : d = SLASH
        · subst hd
          rw [if_pos rfl, strtok_all_slash, ← ih0, strtok_all_slash]
          simp
        · rw [if_neg hd, strtok_all_slash, ih0]
    · simp only [collapse_slashes, if_neg hc, strtok_all]
      exact ih _

theorem path_components_collapse (p : List Char) :
    path_components (collapse_slashes p) = path_components p :=
  strtok_all_collapse p []

/-- C23: for every path `p`, the path with every run of `/` collapsed and a trailing `/`
dropped has the same list of components as `p`, no component is empty, and
`query_inode_full` returns the same result for both on every database (for example
`//a///b/` and `/a/b`, both with the components `a`, `b`). -/
theorem empty_components_ignored (db : DB) (p : List Char) :
    path_components (collapse_slashes p) = path_components p ∧
    (∀ c ∈ path_components p, c ≠ []) ∧
    query_inode_full db (collapse_slashes p) = query_inode_full db p ∧
    collapse_slashes "//a///b/".toList = "/a/b".toList ∧
    path_components "//a///b/".toList = [['a'], ['b']] ∧
    path_components "/a/b".toList = [['a'], ['b']] := by
  refine ⟨path_components_collapse p, ?_, ?_, by decide, by decide, by decide⟩
  · have h : ∀ (s cur : List Char), ∀ c ∈ strtok_all s cur, c ≠ [] := by
      intro s
      induction s with
      | nil =>
        intro cur c hc
        simp only [strtok_all] at hc
        split_ifs at hc with h
        · cases hc
        · rw [List.mem_singleton] at hc
          rw [hc]; exact h
      | cons x xs ih =>
        intro cur c hc
        simp only [strtok_all] at hc
        split_ifs at hc with h1 h2
        · exact ih _ c hc
        · rcases List.mem_cons.1 hc with h | h
          · rw [h]; exact h2
          · exact ih _ c h
        · exact ih _ c hc
    exact h p []
  · unfold query_inode_full
    rw [path_components_collapse]

/-- C24: `query_inode` returns `-ENAMETOOLONG` when the path is longer than `PATH_MAX`
and when a component is longer than 255; in both cases the value does not depend on the
database (no statement is needed for it); a path within both limits is not rejected with
`-ENAMETOOLONG` by the resolver, and `query_inode` does not return that value when the
inode numbers of `tree` are not negative. -/
theorem name_length_limits (db : DB) (path : List Char) :
    (path.length > PATH_MAX → query_inode db path = -ENAMETOOLONG) ∧
    ((∃ c ∈ path_components path, c.length > 255) →
      query_inode db path = -ENAMETOOLONG ∧
      query_inode_full db path = Except.error (-ENAMETOOLONG)) ∧
    (path.length ≤ PATH_MAX → (∀ c ∈ path_components path, c.length ≤ 255) →
      query_inode_full db path ≠ Except.error (-ENAMETOOLONG) ∧
      ((∀ t ∈ db.tree, 0 ≤ t.inode) → query_inode db path ≠ -ENAMETOOLONG)) ∧
    (path.length > PATH_MAX ∨ (∃ c ∈ path_components path, c.length > 255) →
      ∀ db' : DB, query_inode db' path = query_inode db path) := by
  have hlong : path.length > PATH_MAX → query_inode db path = -ENAMETOOLONG := by
    intro h
    unfold query_inode
    rw [if_pos h]
  have hcomp : ∀ d : DB, (∃ c ∈ path_components path, c.length > 255) →
      query_inode_full d path = Except.error (-ENAMETOOLONG) := by
    intro d ⟨c, hc, hl⟩
    unfold query_inode_full
    have : (path_components path).any (fun c => decide (c.length > 255)) = true := by
      rw [List.any_eq_true]
      exact ⟨c, hc, by simpa using hl⟩
    rw [if_pos this]
  have hcomp2 : ∀ d : DB, (∃ c ∈ path_components path, c.length > 255) →
      query_inode d path = -ENAMETOOLONG := by
    intro d h
    unfold query_inode
    split_ifs
    · rfl
    · rw [hcomp d h]
  refine ⟨hlong, fun h => ⟨hcomp2 db h, hcomp db h⟩, ?_, ?_⟩
  · intro hlen hc
    have hany : (path_components path).any (fun c => decide (c.length > 255)) = false := by
      rw [List.any_eq_false]
      intro c hcm
      have := hc c hcm
      simp only [decide_eq_true_eq]
      omega
    have hfull : query_inode_full db path ≠ Except.error (-ENAMETOOLONG) := by
      unfold query_inode_full
      rw [hany]
      simp only [Bool.false_eq_true, if_false]
      have hne : (-ENOENT : Int) ≠ -ENAMETOOLONG := by decide
      split
      · intro h; cases h
      · intro h
        injection h with h
        exact hne h
    refine ⟨hfull, ?_⟩
    intro hpos
    unfold query_inode
    rw [if_neg (by omega)]
    cases hq : query_inode_full db path with
    | error e =>
      simp only []
      intro he
      apply hfull
      rw [hq, he]
    | ok r =>
      simp only []
      obtain ⟨row, _, hmem, hi, _⟩ := resolved_row hq
      have := hpos row hmem
      have hneg : (-ENAMETOOLONG : Int) < 0 := by decide
      omega
  · intro h db'
    rcases h with h | h
    · unfold query_inode
      rw [if_pos h, if_pos h]
    · rw [hcomp2 db' h, hcomp2 db h]

/-- Witness of C24: the path `/a` on the file system holding `/a`. -/
theorem name_length_limits_witness :
    query_inode db_fresh "/a".toList ≠ -ENAMETOOLONG :=
  ((name_length_limits db_fresh "/a".toList).2.2.1 (by decide) (by decide)).2 (by decide)

/-! ### The connection pool -/

/-- C25: when the idle count is below `max_idling_conns`, `pool_put(s)` pushes `s` on the
idle stack without closing it, and a following `pool_get()` returns `s`, opens nothing
and leaves the pool (idle stack included) as it was before the put; when the idle count
has reached `max_idling_conns`, `pool_put(s)` closes `s` and leaves the idle stack as it
is. -/
theorem pool_lifo (p : Pool) (s : Nat) (connect_ok : Bool) :
    (p.lifo_pool.length < p.max_idling_conns →
      (pool_put p (some s)).lifo_pool = some s :: p.lifo_pool ∧
      (pool_put p (some s)).live = p.live ∧
      pool_get (pool_put p (some s)) connect_ok = (some s, p)) ∧
    (p.lifo_pool.length ≥ p.max_idling_conns →
      (pool_put p (some s)).lifo_pool = p.lifo_pool ∧
      (pool_put p (some s)).live = p.live.erase s ∧
      pool_put p (some s) = pool_close_mysql_connection p (some s)) := by
  constructor
  · intro h
    have hp : pool_put p (some s) = { p with lifo_pool := some s :: p.lifo_pool } := by
      unfold pool_put lifo_put
      rw [if_neg (by omega)]
      simp
    rw [hp]
    refine ⟨rfl, rfl, ?_⟩
    unfold pool_get lifo_get
    rfl
  · intro h
    have hp : pool_put p (some s) = pool_close_mysql_connection p (some s) := by
      unfold pool_put
      rw [if_pos h]
    rw [hp]
    exact ⟨rfl, rfl, rfl⟩

/-- Witness of C25: session 0 put back to the empty idle stack and taken again; session 1
put to a pool at its ceiling. -/
theorem pool_lifo_witness :
    pool_get (pool_put pool_busy (some 0)) false = (some 0, pool_busy) ∧
    (pool_put pool_full (some 1)).lifo_pool = [some 0] ∧
    (pool_put pool_full (some 1)).live = [0] :=
  ⟨((pool_lifo pool_busy 0 false).1 (by decide)).2.2,
   ((pool_lifo pool_full 1 false).2 (by decide)).1,
   ((pool_lifo pool_full 1 false).2 (by decide)).2.1.trans (by decide)⟩

theorem pool_init_loop_spec (n : Nat) (ok : Bool) :
    ∀ p : Pool, (pool_init_loop n ok p).lifo_pool.length = p.lifo_pool.length + n ∧
      (pool_init_loop n ok p).max_idling_conns = p.max_idling_conns := by
  induction n with
  | zero => intro p; exact ⟨rfl, rfl⟩
  | succ n ih =>
    intro p
    unfold pool_init_loop
    obtain ⟨h1, h2⟩ := ih (lifo_put (pool_open_mysql_connection p ok).2
      (pool_open_mysql_connection p ok).1).2
    rw [h1, h2]
    unfold lifo_put pool_open_mysql_connection
    cases ok
    · simp; omega
    · simp; omega

theorem pool_get_spec (p : Pool) (ok : Bool) :
    (pool_get p ok).2.lifo_pool.length ≤ p.lifo_pool.length ∧
    (pool_get p ok).2.max_idling_conns = p.max_idling_conns := by
  unfold pool_get lifo_get pool_open_mysql_connection
  cases h : p.lifo_pool with
  | nil => cases ok <;> simp [h]
  | cons e rest =>
    cases e with
    | none => cases ok <;> simp
    | some c => simp

theorem pool_put_spec (p : Pool) (conn : Option Nat) (b : Nat)
    (h : p.lifo_pool.length ≤ max b p.max_idling_conns) :
    (pool_put p conn).lifo_pool.length ≤ max b p.max_idling_conns ∧
    (pool_put p conn).max_idling_conns = p.max_idling_conns := by
  unfold pool_put lifo_put pool_close_mysql_connection
  by_cases hc : p.lifo_pool.length ≥ p.max_idling_conns
  · rw [if_pos hc]
    cases conn <;> exact ⟨h, rfl⟩
  · rw [if_neg hc]
    simp only [lt_self_iff_false, if_false, List.length_cons]
    refine ⟨?_, by first | rfl | trivial⟩
    have := le_max_right b p.max_idling_conns
    omega

theorem pool_run_bound (b m : Nat) (calls : List PoolCall) :
    ∀ p : Pool, p.max_idling_conns = m → p.lifo_pool.length ≤ max b m →
      (pool_run p calls).lifo_pool.length ≤ max b m := by
  induction calls with
  | nil => intro p _ h; exact h
  | cons c cs ih =>
    intro p hm h
    show (pool_run (pool_call p c) cs).lifo_pool.length ≤ max b m
    cases c with
    | get ok =>
      obtain ⟨h1, h2⟩ := pool_get_spec p ok
      exact ih _ (h2.trans hm) (le_trans h1 h)
    | put conn =>
      obtain ⟨h1, h2⟩ := pool_put_spec p conn b (by rw [hm]; exact h)
      exact ih _ (h2.trans hm) (by rw [← hm]; exact h1)

theorem pool_init_bound (init_conns m : Nat) (ok : Bool) (db : DB) (v : Bool)
    (fsck uid gid now : Nat) :
    (pool_init init_conns m ok db v fsck uid gid now).2.1.max_idling_conns = m ∧
    (pool_init init_conns m ok db v fsck uid gid now).2.1.lifo_pool.length ≤
      max init_conns m := by
  obtain ⟨hl, hm⟩ := pool_init_loop_spec init_conns ok (pool_empty m)
  obtain ⟨hg1, hg2⟩ := pool_get_spec (pool_init_loop init_conns ok (pool_empty m)) ok
  have hlen : (pool_get (pool_init_loop init_conns ok (pool_empty m)) ok).2.lifo_pool.length ≤
      max init_conns m := by
    have : (pool_empty m).lifo_pool.length = 0 := rfl
    have := le_max_left init_conns m
    omega
  have hmax : (pool_get (pool_init_loop init_conns ok (pool_empty m)) ok).2.max_idling_conns
      = m := by
    rw [hg2, hm]; rfl
  unfold pool_init
  simp only []
  rcases hgp : pool_get (pool_init_loop init_conns ok (pool_empty m)) ok with ⟨c, p2⟩
  rw [hgp] at hlen hmax
  cases c with
  | none => exact ⟨hmax, hlen⟩
  | some mysql =>
    simp only []
    obtain ⟨h1, h2⟩ := pool_put_spec p2 (some mysql) init_conns (by rw [hmax]; exact hlen)
    exact ⟨h2.trans hmax, by rw [← hmax]; exact h1⟩

/-- C26 (counterexample): with `init_conns = 3` and `max_idling_conns = 1`, `pool_init`
succeeds and leaves two idle sessions in the pool. -/
theorem idle_ceiling_counterexample :
    (pool_init 3 1 true { tree := [], inodes := [], data_blocks := [], auto_inc := 1 }
      true 0 0 0 0).1 ≥ 0 ∧
    (pool_init 3 1 true { tree := [], inodes := [], data_blocks := [], auto_inc := 1 }
      true 0 0 0 0).2.1.lifo_pool.length = 2 ∧
    (pool_init 3 1 true { tree := [], inodes := [], data_blocks := [], auto_inc := 1 }
      true 0 0 0 0).2.1.max_idling_conns = 1 := by decide

/-- C26 (amended): after `pool_init` and any sequence of `pool_get` / `pool_put` calls the
number of idle entries never exceeds the larger of `init_conns` and `max_idling_conns`;
it never exceeds `max_idling_conns` when `init_conns ≤ max_idling_conns`. -/
theorem idle_ceiling (init_conns max_idling_conns : Nat) (connect_ok : Bool) (db : DB)
    (version_ok : Bool) (fsck uid gid now : Nat) (calls : List PoolCall) :
    (pool_run (pool_init init_conns max_idling_conns connect_ok db version_ok fsck uid gid
      now).2.1 calls).lifo_pool.length ≤ max init_conns max_idling_conns ∧
    (init_conns ≤ max_idling_conns →
      (pool_run (pool_init init_conns max_idling_conns connect_ok db version_ok fsck uid gid
        now).2.1 calls).lifo_pool.length ≤ max_idling_conns) := by
  obtain ⟨hm, hl⟩ := pool_init_bound init_conns max_idling_conns connect_ok db version_ok
    fsck uid gid now
  have h := pool_run_bound init_conns max_idling_conns calls _ hm hl
  refine ⟨h, fun hle => ?_⟩
  rw [Nat.max_eq_right hle] at h
  exact h

/-- Witness of C26: the default configuration (`init_conns = 1`, `max_idling_conns = 5`),
two `pool_get` and two `pool_put`. -/
theorem idle_ceiling_witness :
    (pool_run (pool_init 1 5 true db_root true 0 0 0 0).2.1
      [PoolCall.get true, PoolCall.get true, PoolCall.put (some 1),
       PoolCall.put (some 0)]).lifo_pool.length ≤ 5 :=
  (idle_ceiling 1 5 true db_root true 0 0 0 0 _).2 (by decide)

/-! ### A failing block write in `query_write` -/

theorem write_one_block_rc_ok (db : DB) (i : Int) (seq : Nat) (d : List Char) (sz o : Nat) :
    write_one_block_rc db i seq d sz o stmts_ok = write_one_block db i seq d sz o := by
  unfold write_one_block_rc write_one_block stmts_ok
  simp

theorem write_one_block_rc_fail (db : DB) (i : Int) (seq : Nat) (d : List Char) (sz o : Nat)
    (ok : block_stmts) (hs : sz ≠ 0) (hf : call_fails db i seq ok) :
    (write_one_block_rc db i seq d sz o ok).1 = - EIO := by
  unfold write_one_block_rc
  simp only []
  rw [if_neg hs]
  rcases hf with ⟨h1, h2⟩ | h | h
  · split_ifs with a b c d e <;> first | rfl | exact absurd ⟨h1, h2⟩ b
  · split_ifs <;> rfl
  · split_ifs <;> rfl

theorem write_one_block_other (db : DB) (i : Int) (seq : Nat) (d : List Char) (sz o : Nat)
    (i' : Int) (s' : Nat) (hk : ¬ (i' = i ∧ s' = seq)) :
    block_at (write_one_block db i seq d sz o).2 i' s' = block_at db i' s' := by
  unfold write_one_block
  simp only []
  split_ifs <;>
    simp only [block_at_refresh_size, block_at_update_block, block_at_insert_empty_block,
      hk, if_false] <;>
    first | rfl | (cases block_at db i' s' <;> rfl)

theorem write_intermediate_other (i : Int) (i' : Int) (s' : Nat) (count : Nat) :
    ∀ (seq : Nat) (ptr : List Char) (ret : Int) (db : DB),
      (s' < seq ∨ seq + count ≤ s') →
      block_at (write_intermediate i count seq ptr ret db).2 i' s' = block_at db i' s' := by
  induction count with
  | zero => intro seq ptr ret db _; rfl
  | succ n ih =>
    intro seq ptr ret db h
    unfold write_intermediate
    simp only []
    split_ifs
    · exact write_one_block_other _ _ _ _ _ _ _ _ (by omega)
    · rw [ih _ _ _ _ (by omega)]
      exact write_one_block_other _ _ _ _ _ _ _ _ (by omega)

theorem call_fails_congr {db db2 : DB} {i : Int} {j : Nat} {ok : block_stmts}
    (h : block_at db2 i j = block_at db i j) (hf : call_fails db i j ok) :
    call_fails db2 i j ok := by
  unfold call_fails at *
  rw [query_size_block_eq, h, ← query_size_block_eq]
  exact hf

theorem write_intermediate_rc_fail (i : Int) (oks : Nat → block_stmts) (j : Nat)
    (count : Nat) :
    ∀ (seq : Nat) (ptr : List Char) (ret : Int) (db : DB),
      seq ≤ j → j < seq + count → (∀ s, seq ≤ s → s < j → oks s = stmts_ok) →
      call_fails db i j (oks j) →
      (write_intermediate_rc i oks count seq ptr ret db).1 = Sum.inl (- EIO) := by
  induction count with
  | zero => intro seq ptr ret db h1 h2; omega
  | succ n ih =>
    intro seq ptr ret db h1 h2 hok hf
    unfold write_intermediate_rc
    simp only []
    by_cases hj : seq = j
    · subst hj
      have := write_one_block_rc_fail db i seq ptr DATA_BLOCK_SIZE 0 (oks seq) (by decide) hf
      rw [this]
      have hneg : (- EIO : Int) < 0 := by decide
      rw [if_pos hneg]
    · rw [hok seq (le_refl _) (by omega), write_one_block_rc_ok,
        if_neg (by rw [write_one_block_ret db i seq ptr DATA_BLOCK_SIZE 0 (by omega)]
                   exact not_lt.2 (Int.natCast_nonneg _))]
      exact ih _ _ _ _ (by omega) (by omega) (fun s hs1 hs2 => hok s (by omega) hs2)
        (call_fails_congr (write_one_block_other _ _ _ _ _ _ _ _ (by omega)) hf)

theorem write_intermediate_rc_ok (i : Int) (oks : Nat → block_stmts) (count : Nat) :
    ∀ (seq : Nat) (ptr : List Char) (ret : Int) (db : DB),
      (∀ s, seq ≤ s → s < seq + count → oks s = stmts_ok) →
      write_intermediate_rc i oks count seq ptr ret db =
        write_intermediate i count seq ptr ret db := by
  induction count with
  | zero => intro seq ptr ret db _; rfl
  | succ n ih =>
    intro seq ptr ret db hok
    unfold write_intermediate_rc write_intermediate
    simp only []
    rw [hok seq (le_refl _) (by omega), write_one_block_rc_ok]
    split_ifs
    · rfl
    · exact ih _ _ _ _ (fun s hs1 hs2 => hok s (by omega) (by omega))

theorem query_write_rc_ok (db : DB) (inode : Int) (data : List Char) (size offset : Nat) :
    query_write_rc db inode data size offset (fun _ => stmts_ok) =
      query_write db inode data size offset := by
  unfold query_write_rc query_write
  simp only [write_one_block_rc_ok]
  rw [write_intermediate_rc_ok inode _ _ _ _ _ _ (fun _ _ _ => rfl)]

/-- Claim C22, as the code has it: in a multi-block `query_write` whose calls of
`write_one_block` for the blocks before block `j` all succeed and whose call for block
`j` (not the first block, and with bytes to write) fails, the result is the negative
value `- EIO` of the failing call, not the number of bytes written before it. -/
theorem partial_write_error (db : DB) (inode : Int) (data : List Char) (size offset : Nat)
    (oks : Nat → block_stmts) (j : Nat)
    (hfirst : (fill_data_blocks_info size offset).seq_first < j)
    (hlast : j ≤ (fill_data_blocks_info size offset).seq_last)
    (hbytes : j = (fill_data_blocks_info size offset).seq_last →
      (fill_data_blocks_info size offset).length_last ≠ 0)
    (hok : ∀ s, (fill_data_blocks_info size offset).seq_first ≤ s → s < j → oks s = stmts_ok)
    (hfail : call_fails db inode j (oks j)) :
    (query_write_rc db inode data size offset oks).1 = - EIO := by
  obtain ⟨hof, hll, hle, heq, hne⟩ := fill_facts size offset
  have hc : (fill_data_blocks_info size offset).seq_first ≠
      (fill_data_blocks_info size offset).seq_last := by omega
  have hD : DATA_BLOCK_SIZE = 4096 := rfl
  have hneg : (- EIO : Int) < 0 := by decide
  have hf1 : call_fails (write_one_block db inode (fill_data_blocks_info size offset).seq_first
      data (fill_data_blocks_info size offset).length_first
      (fill_data_blocks_info size offset).offset_first).2 inode j (oks j) :=
    call_fails_congr (write_one_block_other _ _ _ _ _ _ _ _ (by omega)) hfail
  unfold query_write_rc
  simp only []
  rw [hok _ (le_refl _) hfirst, write_one_block_rc_ok]
  rw [if_neg (by
    rw [write_one_block_ret _ _ _ _ _ _ (by have := (hne hc).1; rw [hD]; omega)]
    exact not_lt.2 (Int.natCast_nonneg _)), if_neg hc]
  have key : ∀ (W : (Int ⊕ (List Char × Int)) × DB),
      (∀ ret, W.1 = Sum.inl ret → ret = - EIO) →
      (∀ p, W.1 = Sum.inr p → j = (fill_data_blocks_info size offset).seq_last ∧
        call_fails W.2 inode j (oks j)) →
      (match W with
        | (Sum.inl ret, db2) => (ret, db2)
        | (Sum.inr (ptr, ret_size), db2) =>
          if (write_one_block_rc db2 inode (fill_data_blocks_info size offset).seq_last ptr
              (fill_data_blocks_info size offset).length_last 0
              (oks (fill_data_blocks_info size offset).seq_last)).1 < 0
          then write_one_block_rc db2 inode (fill_data_blocks_info size offset).seq_last ptr
              (fill_data_blocks_info size offset).length_last 0
              (oks (fill_data_blocks_info size offset).seq_last)
          else (ret_size + (write_one_block_rc db2 inode
              (fill_data_blocks_info size offset).seq_last ptr
              (fill_data_blocks_info size offset).length_last 0
              (oks (fill_data_blocks_info size offset).seq_last)).1,
            (write_one_block_rc db2 inode (fill_data_blocks_info size offset).seq_last ptr
              (fill_data_blocks_info size offset).length_last 0
              (oks (fill_data_blocks_info size offset).seq_last)).2)).1 = - EIO := by
    rintro ⟨res, db2⟩ h1 h2
    cases res with
    | inl ret => exact h1 ret rfl
    | inr p =>
      obtain ⟨ptr, rs⟩ := p
      obtain ⟨hjl, hf2⟩ := h2 (ptr, rs) rfl
      have := write_one_block_rc_fail db2 inode (fill_data_blocks_info size offset).seq_last
        ptr (fill_data_blocks_info size offset).length_last 0
        (oks (fill_data_blocks_info size offset).seq_last) (hbytes hjl)
        (by rw [← hjl]; exact hf2)
      simp only []
      rw [if_pos (by rw [this]; exact hneg), this]
  refine key _ ?_ ?_
  · intro ret hret
    by_cases hjl : j = (fill_data_blocks_info size offset).seq_last
    · rw [write_intermediate_rc_ok inode oks _ _ _ _ _
        (fun s hs1 hs2 => hok s (by omega) (by omega)), write_intermediate_ret] at hret
      cases hret
    · rw [write_intermediate_rc_fail inode oks j _ _ _ _ _
        (by omega) (by omega) (fun s hs1 hs2 => hok s (by omega) hs2) hf1] at hret
      exact (Sum.inl.inj hret).symm
  · intro p hp
    by_cases hjl : j = (fill_data_blocks_info size offset).seq_last
    · refine ⟨hjl, ?_⟩
      rw [write_intermediate_rc_ok inode oks _ _ _ _ _
        (fun s hs1 hs2 => hok s (by omega) (by omega))]
      exact call_fails_congr (write_intermediate_other _ _ _ _ _ _ _ _ (by omega)) hf1
    · rw [write_intermediate_rc_fail inode oks j _ _ _ _ _
        (by omega) (by omega) (fun s hs1 hs2 => hok s (by omega) hs2) hf1] at hp
      cases hp

/-- The theorem `partial_write_error` at a two-byte write across the boundary of blocks 0
and 1 whose second call fails. -/
theorem partial_write_error_witness :
    (fill_data_blocks_info 2 4095).seq_first < 1 ∧
    call_fails db_fresh 2 1 (fails_at 1 1) ∧
    (query_write_rc db_fresh 2 ['a', 'b'] 2 4095 (fails_at 1)).1 = - EIO :=
  ⟨by decide, by decide,
    partial_write_error db_fresh 2 ['a', 'b'] 2 4095 (fails_at 1) 1 (by decide) (by decide)
      (fun _ => by decide)
      (fun s _ h2 => by
        have h0 : s = 0 := by omega
        subst h0
        rfl)
      (by decide)⟩

/-- Claim C22 fails as stated: writing two bytes at offset 4095, the call for block 0
succeeds and writes one byte, the call for block 1 fails, and `query_write` returns
`- EIO`, not 1. -/
theorem partial_write_counterexample :
    (write_one_block_rc db_fresh 2 0 ['a', 'b'] 1 4095 (fails_at 1 0)).1 = 1 ∧
    (query_write_rc db_fresh 2 ['a', 'b'] 2 4095 (fails_at 1)).1 = - EIO ∧
    (query_write_rc db_fresh 2 ['a', 'b'] 2 4095 (fails_at 1)).1 ≠ 1 := by
  decide

/-! ### Errors of the resolver in the operation table -/

end MysqlFS
